import Mathlib

/-!
# Verification of the trustcall-ts patch engine, normalizer, validator and retry controller

This file gives a shallow embedding of the core of the `trustcall-ts`
repository and proves (or refutes) the frozen claims about it.

Embedded source files:

* `src/trustcall/json-patch.ts` — `applyJsonPatches`, `ensurePatches`,
  `resolvePointer`, `applyMessageOps`;
* `src/trustcall/validation-node.ts` — `ValidationNode.validateOne` and
  `ValidationNode.invoke`;
* `src/trustcall/extractor.ts` — the `patch` node, `handleRetries`, and the
  state-annotation reducers.

Modelling conventions, stated once here:

* JSON documents are the inductive `Json` below.  Object fields are an
  ordered association list, matching the insertion order that
  `JSON.stringify` serializes.  Numbers are modelled as integers; the
  floating-point values of JS are outside the modelled fragment.
* The JS value `undefined` is `Option.none`; walks over documents therefore
  manipulate `Option Json`.
* Exceptions are an explicit `Except` with error kind `JsErr`.
* Property reads and writes are modelled as own-property access on the JSON
  data model.  JS artefacts outside that model are not represented: keys
  inherited from a prototype (`toString`, `push`, ...), the `length`
  property of arrays and strings, and non-index own properties stored on
  array objects (which `JSON.stringify` ignores; writing one is modelled as
  a no-op on the visible document).  Whitespace tolerance of `parseInt` and
  the hex/float forms accepted by `Number(...)` are likewise outside the
  fragment.  All quantified theorems are about this model; the concrete
  counterexamples below stay inside the faithfully modelled fragment.
* The in-place mutation of the source operates, after the initial
  `JSON.parse(JSON.stringify(target))` deep clone, on a region that remains
  tree-shaped (fresh values are inserted by parsing or deep-cloning, `move`
  removes before re-inserting), so the value-level behaviour is rendered as
  pure functions that rebuild along the walked path.  The aliasing and
  mutation claims (C2, C10) are settled separately against an explicit
  store semantics in which mutation is real; see `Store` below.
-/

namespace Trustcall

/-- The JSON data model (§3 of the spec): object, array, string, number,
boolean, null.  Object fields keep insertion order, as `JSON.stringify`
does. -/
inductive Json where
  | null : Json
  | bool (b : Bool) : Json
  | num (n : Int) : Json
  | str (s : String) : Json
  | arr (elems : List Json) : Json
  | obj (fields : List (String × Json)) : Json
deriving Repr, BEq

/-- Look a key up in an ordered field list (own-property read on an object). -/
def lookupField : List (String × Json) → String → Option Json
  | [], _ => none
  | (k, v) :: rest, key => if k = key then some v else lookupField rest key

/-- Set a key in an ordered field list: replace in place when present, append
when absent (JS insertion-order semantics for non-integer-like keys). -/
def setFieldList : List (String × Json) → String → Json → List (String × Json)
  | [], key, v => [(key, v)]
  | (k, w) :: rest, key, v =>
      if k = key then (k, v) :: rest else (k, w) :: setFieldList rest key v

/-- Generic lookup in a name-keyed association list. -/
def lookupStr {α : Type} : List (String × α) → String → Option α
  | [], _ => none
  | (k, v) :: rest, key => if k = key then some v else lookupStr rest key

/-- Delete a key from an ordered field list (the JS `delete` operator). -/
def removeField : List (String × Json) → String → List (String × Json)
  | [], _ => []
  | (k, w) :: rest, key =>
      if k = key then rest else (k, w) :: removeField rest key

/-- Decimal digits of a natural number with explicit fuel (the fuel keeps
the recursion structural so that concrete values evaluate in the kernel). -/
def natDigitsF : Nat → Nat → List Char
  | 0, _ => []
  | fuel + 1, n =>
      if n < 10 then [Char.ofNat (48 + n)]
      else natDigitsF fuel (n / 10) ++ [Char.ofNat (48 + n % 10)]

/-- Decimal digits of a natural number, most significant first. -/
def natDigits (n : Nat) : List Char := natDigitsF (n + 1) n

/-- Decimal rendering of an integer, as `JSON.stringify` and `String(...)`
render an integral JS number. -/
def intDec (n : Int) : String :=
  if n < 0 then "-" ++ String.mk (natDigits (n.natAbs)) else String.mk (natDigits n.natAbs)

/-- Is this character a decimal digit? -/
def isDigitCh (c : Char) : Bool := 48 ≤ c.toNat && c.toNat ≤ 57

/-- A canonical array-index string: `"0"`, or digits without a leading zero.
These are exactly the strings under which JS array element access and
element assignment take place. -/
def canonIdx (s : String) : Option Nat :=
  match s.toList with
  | [] => none
  | c :: cs =>
      if ¬ (c :: cs).all isDigitCh then none
      else if c = '0' ∧ cs ≠ [] then none
      else some ((c :: cs).foldl (fun a d => a * 10 + (d.toNat - 48)) 0)

/-- The longest leading run of digits read as a natural number; none when
there is no digit. -/
def digitsCore (cs : List Char) : Option Nat :=
  match cs.takeWhile isDigitCh with
  | [] => none
  | ds => some (ds.foldl (fun a d => a * 10 + (d.toNat - 48)) 0)

/-- The JS `parseInt(s, 10)`: an optional sign followed by the longest
leading run of digits; no digits means `NaN` (here `none`).  Leading
whitespace tolerance is outside the modelled fragment. -/
def parseIntOpt (s : String) : Option Int :=
  match s.toList with
  | [] => none
  | c :: rest =>
      if c = '-' then (digitsCore rest).map (fun n => -(n : Int))
      else if c = '+' then (digitsCore rest).map (fun n => (n : Int))
      else (digitsCore (c :: rest)).map (fun n => (n : Int))

/-- The test `!isNaN(Number(nextKey))` used by the add/replace walk to decide
whether a missing intermediate container becomes an array.  Modelled for
plain decimal numerals (hex and float forms accepted by `Number` are outside
the fragment). -/
def isNumericJS (s : String) : Bool :=
  s.toList ≠ [] && s.toList.all isDigitCh

/-- JS truthiness of a defined JSON value. -/
def jsTruthy : Json → Bool
  | .null => false
  | .bool b => b
  | .num n => n ≠ 0
  | .str s => s ≠ ""
  | .arr _ => true
  | .obj _ => true

/-- Escape one character as inside a JSON string literal.  Quote, backslash
and the common control characters are handled; other control characters are
outside the modelled fragment. -/
def escapeCh (c : Char) : List Char :=
  if c = '"' then ['\\', '"']
  else if c = '\\' then ['\\', '\\']
  else if c = '\n' then ['\\', 'n']
  else if c = '\t' then ['\\', 't']
  else if c = '\r' then ['\\', 'r']
  else [c]

/-- The JSON string-literal rendering of a string value. -/
def encodeStr (s : String) : String :=
  "\"" ++ String.mk (s.toList.flatMap escapeCh) ++ "\""

mutual

/-- `JSON.stringify` of a JSON value (no indentation). -/
def encodeJson : Json → String
  | .null => "null"
  | .bool true => "true"
  | .bool false => "false"
  | .num n => intDec n
  | .str s => encodeStr s
  | .arr l => "[" ++ encodeList l ++ "]"
  | .obj fs => "\x7b" ++ encodeFields fs ++ "\x7d"

/-- Comma-separated encodings of array elements. -/
def encodeList : List Json → String
  | [] => ""
  | x :: rest =>
      encodeJson x ++ (match rest with | [] => "" | _ => ",") ++ encodeList rest

/-- Comma-separated `"key":value` encodings of object fields. -/
def encodeFields : List (String × Json) → String
  | [] => ""
  | kv :: rest =>
      encodeStr kv.1 ++ ":" ++ encodeJson kv.2 ++
        (match rest with | [] => "" | _ => ",") ++ encodeFields rest

end

/-- `JSON.stringify` applied to a possibly-`undefined` value: `undefined`
stringifies to the JS value `undefined`, not to a string. -/
def stringifyOpt : Option Json → Option String :=
  Option.map encodeJson

mutual

/-- The JS `String(v)` coercion of a defined value. -/
def jsToString : Json → String
  | .null => "null"
  | .bool true => "true"
  | .bool false => "false"
  | .num n => intDec n
  | .str s => s
  | .arr l => jsToStringElems l
  | .obj _ => "[object Object]"

/-- `Array.prototype.join(",")` element rendering: `null` and `undefined`
elements become the empty string. -/
def jsToStringElems : List Json → String
  | [] => ""
  | x :: rest =>
      (match x with | .null => "" | v => jsToString v) ++
        (match rest with | [] => "" | _ => ",") ++ jsToStringElems rest

end

/-- The JS `String(v)` coercion, with `String(undefined) = "undefined"`. -/
def jsToStringOpt : Option Json → String
  | none => "undefined"
  | some v => jsToString v

/-- Split a character list at every slash (the JS `split("/")` for the
one-character separator). -/
def splitSlash : List Char → List Char → List String
  | [], acc => [String.mk acc.reverse]
  | c :: rest, acc =>
      if c = '/' then String.mk acc.reverse :: splitSlash rest []
      else splitSlash rest (c :: acc)

/-- `path.split("/").filter((p) => p !== "")` (json-patch.ts:7, 45, 67). -/
def splitPath (p : String) : List String :=
  (splitSlash p.toList []).filter (· ≠ "")

/-- The check that `path` ends with the two characters slash, dash
(json-patch.ts:40). -/
def endsWithSlashDash (p : String) : Bool :=
  match p.toList.reverse with
  | '-' :: '/' :: _ => true
  | _ => false

/-- `path.slice(0, -2)` (json-patch.ts:41): drop the final two characters. -/
def dropLastTwo (p : String) : String :=
  String.mk p.toList.dropLast.dropLast

/-! ## The patch engine (`src/trustcall/json-patch.ts`)

`applyJsonPatches` receives the patch list as the unchecked cast of raw model
output, so patches are raw `Json` values here and every member access is a
dynamic property read, exactly as in the source.  Exceptions become the
`Except` error kinds below. -/

/-- The exceptions the patch engine can raise: a `TypeError` from property
access or assignment on `undefined`/`null`/a primitive (or from calling a
string method on a non-string), a `SyntaxError` from `JSON.parse`, and the
comparison `Error` thrown by the `test` arm, carrying the rendered expected
and actual values. -/
inductive JsErr where
  | typeError : JsErr
  | syntaxError : JsErr
  | testFailed (expected got : String) : JsErr
deriving Repr, BEq, DecidableEq

/-- Array element read under a property key: JS array element access happens
exactly under canonical index strings that are in range. -/
def arrGet (l : List Json) (k : String) : Option Json :=
  (canonIdx k).bind l.get?

/-- String element read under a property key: a canonical in-range index
yields a one-character string. -/
def strCharAt (s : String) (k : String) : Option Json :=
  (canonIdx k).bind (fun i => (s.toList.get? i).map (fun c => .str (String.mk [c])))

/-- The unguarded property read `current[key]` on a JS runtime value:
reading from `undefined` or `null` throws; primitives are boxed and yield
`undefined` for absent properties. -/
def readJs : Option Json → String → Except JsErr (Option Json)
  | none, _ => .error .typeError
  | some .null, _ => .error .typeError
  | some (.obj fs), k => .ok (lookupField fs k)
  | some (.arr l), k => .ok (arrGet l k)
  | some (.str s), k => .ok (strCharAt s k)
  | some _, _ => .ok none

/-- Iterated unguarded reads, as in the `test` walk (json-patch.ts:178-181). -/
def walkRead : Option Json → List String → Except JsErr (Option Json)
  | cur, [] => .ok cur
  | cur, k :: rest => do walkRead (← readJs cur k) rest

/-- One step list of `resolvePointer` (json-patch.ts:6-25): `undefined` and
`null` short-circuit to `undefined`, arrays are indexed via
`parseInt(part, 10)`, objects by key, and any other value yields
`undefined`. -/
def resolveSteps : Option Json → List String → Option Json
  | cur, [] => cur
  | cur, part :: rest =>
    match cur with
    | none => none
    | some .null => none
    | some (.arr l) =>
        resolveSteps
          (match parseIntOpt part with
            | some i => if i < 0 then none else l.get? i.toNat
            | none => none) rest
    | some (.obj fs) => resolveSteps (lookupField fs part) rest
    | some _ => none

/-- `resolvePointer(doc, path)` (json-patch.ts:6-25). -/
def resolvePointer (doc : Json) (path : String) : Option Json :=
  resolveSteps (some doc) (splitPath path)

/-- Array element assignment `l[i] = v`: in range it replaces; at or beyond
the length JS creates the index, the skipped slots reading back as holes that
`JSON.stringify` renders as `null`. -/
def arrSet (l : List Json) (i : Nat) (v : Json) : List Json :=
  if i < l.length then l.set i v
  else l ++ List.replicate (i - l.length) .null ++ [v]

/-- The final assignment `parent[lastKey] = w` of a walk.  Assigning
`undefined` to an object key leaves no visible member (the stringified
document drops it); assigning to a non-index key of an array stores a
property `JSON.stringify` ignores, a no-op on the visible document;
assignment on `null` or a primitive throws in strict mode. -/
def writeHere (cur : Json) (lk : String) (w : Option Json) : Except JsErr Json :=
  match cur with
  | .obj fs =>
      .ok (.obj (match w with
        | some v => setFieldList fs lk v
        | none => removeField fs lk))
  | .arr l =>
      .ok (.arr (match canonIdx lk with
        | some i => arrSet l i (w.getD .null)
        | none => l))
  | _ => .error .typeError

/-- An unguarded parent walk followed by `parent[lastKey] = w`, as in the
string-concatenation branch (json-patch.ts:46-55) and the `move`/`copy`
destination walks (json-patch.ts:143-149, 168-174).  Once the walk leaves
the containers of the document — through a missing key, an out-of-range or
non-index array access, a string element, `null`, or a boxed primitive — no
subsequent assignment can succeed: every such continuation ends in a
`TypeError`, which is what each of those branches returns. -/
def writeAtParts : Json → List String → Option Json → Except JsErr Json
  | cur, [], _ => .ok cur
  | cur, [lk], w => writeHere cur lk w
  | cur, key :: rest, w =>
    match cur with
    | .obj fs =>
        match lookupField fs key with
        | some child => (writeAtParts child rest w).map (fun c => .obj (setFieldList fs key c))
        | none => .error .typeError
    | .arr l =>
        match canonIdx key with
        | some i =>
            match l.get? i with
            | some child => (writeAtParts child rest w).map (fun c => .arr (l.set i c))
            | none => .error .typeError
        | none => .error .typeError
    | _ => .error .typeError

/-- The final step of the `add`/`replace` arm (json-patch.ts:88-94): a final
`-` on an array appends (pushing an absent `value` appends a slot that
stringifies as `null`); otherwise `current[lastKey] = value`. -/
def addFinal (cur : Json) (lk : String) (w : Option Json) : Except JsErr Json :=
  match cur with
  | .arr l => if lk = "-" then .ok (.arr (l ++ [w.getD .null])) else writeHere (.arr l) lk w
  | c => writeHere c lk w

/-- The `add`/`replace` walk (json-patch.ts:70-96): missing intermediate
keys are created — an array if the next segment is numeric, else an object —
and the final segment is assigned.  The membership test `key in current`
throws on `null` and primitives; on arrays it holds for canonical in-range
indices (creating a missing index pads the array), and a non-index key on an
array walks into a property the JSON document never shows, a visible
no-op. -/
def addAt : Json → List String → Option Json → Except JsErr Json
  | cur, [], _ => .ok cur
  | cur, [lk], w => addFinal cur lk w
  | cur, key :: next :: rest, w =>
    match cur with
    | .obj fs =>
        match lookupField fs key with
        | some child =>
            (addAt child (next :: rest) w).map (fun c => .obj (setFieldList fs key c))
        | none =>
            let fresh : Json := if isNumericJS next then .arr [] else .obj []
            (addAt fresh (next :: rest) w).map (fun c => .obj (setFieldList fs key c))
    | .arr l =>
        match canonIdx key with
        | some i =>
            match l.get? i with
            | some child => (addAt child (next :: rest) w).map (fun c => .arr (l.set i c))
            | none =>
                let fresh : Json := if isNumericJS next then .arr [] else .obj []
                (addAt fresh (next :: rest) w).map (fun c => .arr (arrSet l i c))
        | none => .ok (.arr l)
    | _ => .error .typeError

/-- `Array.prototype.splice(i, 1)`: a negative start counts from the end
(clamped at zero); a start at or beyond the length removes nothing. -/
def spliceRemove (l : List Json) (i : Int) : List Json :=
  if (l.length : Int) ≤ i then l
  else
    let start : Nat := if i < 0 then (max ((l.length : Int) + i) 0).toNat else i.toNat
    l.take start ++ l.drop (start + 1)

/-- The final deletion of the `remove` arm (json-patch.ts:107-115), reached
with a truthy `current`: arrays splice at `parseInt(lastKey, 10)` when it is
a number, objects `delete` the key; `delete` of an own element of a boxed
string throws in strict mode, while on other boxed primitives it is a
no-op. -/
def removeHere (cur : Json) (lk : String) : Except JsErr Json :=
  match cur with
  | .arr l =>
      .ok (.arr (match parseIntOpt lk with
        | some i => spliceRemove l i
        | none => l))
  | .obj fs => .ok (.obj (removeField fs lk))
  | .str s =>
      match canonIdx lk with
      | some i => if i < s.length then .error .typeError else .ok (.str s)
      | none => .ok (.str s)
  | c => .ok c

/-- The `remove` walk (json-patch.ts:97-117): each step is guarded by the
truthiness of `current` and breaks to a silent no-op when the walk dies;
walking into a string element continues on a fresh primitive that the final
deletion cannot change (though it can still throw). -/
def removeAt : Json → List String → Except JsErr Json
  | cur, [] => .ok cur
  | cur, [lk] => if jsTruthy cur then removeHere cur lk else .ok cur
  | cur, key :: rest =>
      if jsTruthy cur then
        match cur with
        | .obj fs =>
            match lookupField fs key with
            | some child => (removeAt child rest).map (fun c => .obj (setFieldList fs key c))
            | none => .ok (.obj fs)
        | .arr l =>
            match canonIdx key with
            | some i =>
                match l.get? i with
                | some child => (removeAt child rest).map (fun c => .arr (l.set i c))
                | none => .ok (.arr l)
            | none => .ok (.arr l)
        | .str s =>
            match strCharAt s key with
            | some c => (removeAt c rest).map (fun _ => .str s)
            | none => .ok (.str s)
        | c => .ok c
      else .ok cur

/-- The source phase of the `move` arm (json-patch.ts:122-140): walk the
`from` segments unguarded, read `source[sourceKey]`, remove it from its
source location, and return the document after removal together with the
value read.  An empty segment list reads `undefined` and removes nothing. -/
def moveTake : Json → List String → Except JsErr (Json × Option Json)
  | cur, [] => .ok (cur, none)
  | cur, [sk] =>
      match cur with
      | .null => .error .typeError
      | .arr l =>
          .ok (.arr (match parseIntOpt sk with
            | some i => spliceRemove l i
            | none => l), arrGet l sk)
      | .obj fs => .ok (.obj (removeField fs sk), lookupField fs sk)
      | .str s =>
          match canonIdx sk with
          | some i => if i < s.length then .error .typeError else .ok (.str s, none)
          | none => .ok (.str s, none)
      | c => .ok (c, none)
  | cur, key :: rest =>
      match cur with
      | .null => .error .typeError
      | .obj fs =>
          match lookupField fs key with
          | some child =>
              (moveTake child rest).map (fun p => (.obj (setFieldList fs key p.1), p.2))
          | none => .error .typeError
      | .arr l =>
          match canonIdx key with
          | some i =>
              match l.get? i with
              | some child => (moveTake child rest).map (fun p => (.arr (l.set i p.1), p.2))
              | none => .error .typeError
          | none => .error .typeError
      | .str s =>
          match strCharAt s key with
          | some c => (moveTake c rest).map (fun p => (.str s, p.2))
          | none => .error .typeError
      | _ => .error .typeError

/-- The read phase of the `copy` arm (json-patch.ts:155-165): walk the
`from` segments unguarded and deep-clone `source[sourceKey]` via
`JSON.parse(JSON.stringify(·))` — the identity on the JSON data model, but a
`SyntaxError` when the source value is `undefined`.  An empty segment list
yields `undefined` without cloning. -/
def copyRead : Json → List String → Except JsErr (Option Json)
  | _, [] => .ok none
  | cur, [sk] =>
      match cur with
      | .null => .error .typeError
      | .obj fs =>
          match lookupField fs sk with
          | some v => .ok (some v)
          | none => .error .syntaxError
      | .arr l =>
          match arrGet l sk with
          | some v => .ok (some v)
          | none => .error .syntaxError
      | .str s =>
          match strCharAt s sk with
          | some v => .ok (some v)
          | none => .error .syntaxError
      | _ => .error .syntaxError
  | cur, key :: rest =>
      match cur with
      | .null => .error .typeError
      | .obj fs =>
          match lookupField fs key with
          | some child => copyRead child rest
          | none => .error .typeError
      | .arr l =>
          match arrGet l key with
          | some child => copyRead child rest
          | none => .error .typeError
      | .str s =>
          match strCharAt s key with
          | some child => copyRead child rest
          | none => .error .typeError
      | _ => .error .typeError

/-- The walk of the `test` arm (json-patch.ts:178-184): unguarded reads over
all but the last segment, then `current[lastKey]`; with no segments the
actual value is `undefined`. -/
def testActualE : Option Json → List String → Except JsErr (Option Json)
  | _, [] => .ok none
  | cur, [lk] => readJs cur lk
  | cur, k :: rest => do testActualE (← readJs cur k) rest

/-- The `test` arm (json-patch.ts:177-191): compare the stringified actual
and expected values; on mismatch throw the comparison error carrying both
renderings (`JSON.stringify(undefined)` renders as `undefined` in the
message). -/
def testOp (doc : Json) (parts : List String) (v : Option Json) : Except JsErr Json := do
  let actual ← testActualE (some doc) parts
  if stringifyOpt actual = stringifyOpt v then .ok doc
  else .error (.testFailed ((stringifyOpt v).getD "undefined")
    ((stringifyOpt actual).getD "undefined"))

/-- Dynamic member access on a raw patch element (the unchecked
`JsonPatchOp` cast): boxed primitives yield `undefined`; `null` is handled
by the caller before any access. -/
def getAttr : Json → String → Option Json
  | .obj fs, k => lookupField fs k
  | .arr l, k => arrGet l k
  | .str s, k => strCharAt s k
  | _, _ => none

/-- Require the `path` member to be a string: `.split` / `.endsWith` on
anything else throws. -/
def requirePathStr (v : Option Json) : Except JsErr String :=
  match v with
  | some (.str s) => .ok s
  | _ => .error .typeError

/-- The `op` dispatch switch (json-patch.ts:67-192).  `patch.path.split`
runs before the dispatch, so a bad `path` throws for every op; an unknown
op matches no case and the patch is skipped.  `move` and `copy` skip when
`patch.from` is falsy and throw when it is truthy but not a string. -/
def mainSwitch (doc : Json) (p : Json) (op? : Option Json) : Except JsErr Json := do
  let path ← requirePathStr (getAttr p "path")
  let parts := splitPath path
  match op? with
  | some (.str "add") => addAt doc parts (getAttr p "value")
  | some (.str "replace") => addAt doc parts (getAttr p "value")
  | some (.str "remove") => removeAt doc parts
  | some (.str "move") =>
      match getAttr p "from" with
      | some (.str f) =>
          if f = "" then .ok doc
          else do
            let r ← moveTake doc (splitPath f)
            writeAtParts r.1 parts r.2
      | some v => if jsTruthy v then .error .typeError else .ok doc
      | none => .ok doc
  | some (.str "copy") =>
      match getAttr p "from" with
      | some (.str f) =>
          if f = "" then .ok doc
          else do
            let v ← copyRead doc (splitPath f)
            writeAtParts doc parts v
      | some v => if jsTruthy v then .error .typeError else .ok doc
      | none => .ok doc
  | some (.str "test") => testOp doc parts (getAttr p "value")
  | _ => .ok doc

/-- One iteration of the patch loop (json-patch.ts:37-192): the
string-concatenation pre-check for an `add` whose path ends in the
slash-dash append marker and
whose addressed container resolves to a string, then the op switch.
Accessing `patch.op` on a `null` element throws. -/
def applyOne (doc : Json) (p : Json) : Except JsErr Json :=
  match p with
  | .null => .error .typeError
  | _ =>
    match getAttr p "op" with
    | some (.str "add") => do
        let path ← requirePathStr (getAttr p "path")
        if endsWithSlashDash path then
          let basePath := dropLastTwo path
          match resolvePointer doc basePath with
          | some (.str s) =>
              let w := Json.str (s ++ jsToStringOpt (getAttr p "value"))
              match splitPath basePath with
              | [] => .ok w
              | parts => writeAtParts doc parts (some w)
          | _ => mainSwitch doc p (some (.str "add"))
        else mainSwitch doc p (some (.str "add"))
    | op? => mainSwitch doc p op?

/-- `applyJsonPatches(target, patches)` (json-patch.ts:31-196): a deep clone
of the input (the identity at the value level; the aliasing content of the
clone is settled against the store semantics below) followed by the patch
loop in list order. -/
def applyJsonPatches (target : Json) (patches : List Json) : Except JsErr Json :=
  patches.foldlM applyOne target

/-! ## `JSON.parse` and the normalizer `ensurePatches`

The normalizer needs a model of `JSON.parse`.  The parser below covers the
fragment the rest of the model produces: the four JSON whitespace
characters, `null`, `true`, `false`, integer numbers, strings with the
common escapes, arrays and objects.  Fractional and exponent number forms
and the rarer string escapes accepted by `JSON.parse` are outside the
modelled fragment.  The fuel argument only bounds nesting and is chosen
generously by the top-level entry point. -/

/-- Skip JSON whitespace (space, tab, line feed, carriage return). -/
def skipWs : List Char → List Char
  | [] => []
  | c :: rest =>
      if c = ' ' ∨ c = '\n' ∨ c = '\t' ∨ c = '\r' then skipWs rest else c :: rest

/-- Expect a literal run of characters, returning the remainder. -/
def parseLit : List Char → List Char → Option (List Char)
  | [], cs => some cs
  | l :: ls, c :: cs => if c = l then parseLit ls cs else none
  | _ :: _, [] => none

/-- Read a nonempty run of digits as a natural number. -/
def parseNat (cs : List Char) : Option (Nat × List Char) :=
  match cs.takeWhile isDigitCh with
  | [] => none
  | ds => some (ds.foldl (fun a d => a * 10 + (d.toNat - 48)) 0, cs.dropWhile isDigitCh)

/-- Undo one string escape character. -/
def unescapeCh (c : Char) : Option Char :=
  if c = '"' then some '"'
  else if c = '\\' then some '\\'
  else if c = '/' then some '/'
  else if c = 'n' then some '\n'
  else if c = 't' then some '\t'
  else if c = 'r' then some '\r'
  else none

/-- Read a string body up to the closing quote, `acc` holding the
characters read so far in reverse.  A backslash not followed by a
recognised escape, and an unterminated body, fail. -/
def parseStrBody : List Char → List Char → Option (String × List Char)
  | _, [] => none
  | acc, c :: rest =>
      if c = '\\' then
        match rest with
        | [] => none
        | e :: rest' =>
            match unescapeCh e with
            | some u => parseStrBody (u :: acc) rest'
            | none => none
      else if c = '"' then some (String.mk acc.reverse, rest)
      else parseStrBody (c :: acc) rest

mutual

/-- Read one JSON value after optional whitespace. -/
def parseValue : Nat → List Char → Option (Json × List Char)
  | 0, _ => none
  | fuel + 1, cs =>
      match skipWs cs with
      | 'n' :: rest => (parseLit ['u', 'l', 'l'] rest).map (fun r => (Json.null, r))
      | 't' :: rest => (parseLit ['r', 'u', 'e'] rest).map (fun r => (Json.bool true, r))
      | 'f' :: rest => (parseLit ['a', 'l', 's', 'e'] rest).map (fun r => (Json.bool false, r))
      | '"' :: rest => (parseStrBody [] rest).map (fun p => (Json.str p.1, p.2))
      | '[' :: rest =>
          (match skipWs rest with
            | ']' :: r2 => some (Json.arr [], r2)
            | _ => (parseElems fuel rest).map (fun p => (Json.arr p.1, p.2)))
      | '\x7b' :: rest =>
          (match skipWs rest with
            | '\x7d' :: r2 => some (Json.obj [], r2)
            | _ => (parseFields fuel rest).map (fun p => (Json.obj p.1, p.2)))
      | '-' :: rest => (parseNat rest).map (fun p => (Json.num (-(p.1 : Int)), p.2))
      | c :: rest =>
          if isDigitCh c then (parseNat (c :: rest)).map (fun p => (Json.num (p.1 : Int), p.2))
          else none
      | [] => none

/-- Read the elements of a nonempty array, consuming the closing bracket. -/
def parseElems : Nat → List Char → Option (List Json × List Char)
  | 0, _ => none
  | fuel + 1, cs =>
      match parseValue fuel cs with
      | none => none
      | some (v, rest) =>
          match skipWs rest with
          | ',' :: r2 => (parseElems fuel r2).map (fun p => (v :: p.1, p.2))
          | ']' :: r2 => some ([v], r2)
          | _ => none

/-- Read the fields of a nonempty object, consuming the closing brace. -/
def parseFields : Nat → List Char → Option (List (String × Json) × List Char)
  | 0, _ => none
  | fuel + 1, cs =>
      match skipWs cs with
      | '"' :: rest =>
          match parseStrBody [] rest with
          | none => none
          | some (k, r1) =>
              match skipWs r1 with
              | ':' :: r2 =>
                  match parseValue fuel r2 with
                  | none => none
                  | some (v, r3) =>
                      match skipWs r3 with
                      | ',' :: r4 => (parseFields fuel r4).map (fun p => ((k, v) :: p.1, p.2))
                      | '\x7d' :: r4 => some ([(k, v)], r4)
                      | _ => none
              | _ => none
      | _ => none

end

/-- `JSON.parse(s)`: one complete value with nothing but whitespace after
it.  The fuel bounds only the nesting depth of the recursion and two
characters of input are consumed before every two levels of descent, so the
chosen fuel refuses nothing. -/
def parseJson (s : String) : Option Json :=
  match parseValue (2 * s.toList.length + 2) s.toList with
  | some (v, rest) => if skipWs rest = [] then some v else none
  | none => none

/-- The regex fallback of the normalizer (json-patch.ts:216): the greedy
match of a bracket, anything, a bracket — the substring from the first
opening bracket to the last closing bracket, when the latter comes after
the former. -/
def extractBracketSub (s : String) : Option String :=
  let cs := s.toList
  match cs.findIdx? (· = '['), (cs.reverse.findIdx? (· = ']')).map (fun k => cs.length - 1 - k) with
  | some i, some j => if i < j then some (String.mk ((cs.drop i).take (j - i + 1))) else none
  | _, _ => none

/-- `ensurePatches(args)` (json-patch.ts:201-231): pass an array through
unchanged; parse a string in full and use the result only if it is an
array (a successful non-array parse reaches the final return, not the
fallback); on a parse exception try the greedy bracket substring; anything
else yields the empty list. -/
def ensurePatches (args : List (String × Json)) : List Json :=
  match lookupField args "patches" with
  | some (.arr l) => l
  | some (.str s) =>
      (match parseJson s with
        | some (.arr l) => l
        | some _ => []
        | none =>
            match extractBracketSub s with
            | some sub =>
                (match parseJson sub with
                  | some (.arr l) => l
                  | _ => [])
            | none => [])
  | _ => []

/-! ## Store semantics of the patch engine

The pure `applyJsonPatches` above renders the value-level behaviour.  The
claims about mutation and structure sharing need mutation to be real, so
the same json-patch.ts code is also rendered over an explicit store: values
are primitives or references, objects and arrays live on a heap, the deep
clone allocates, and every edit writes through a heap address, exactly as
the imperative source does.  Edit values reach the engine as freshly parsed
JSON (model output decoded by the client), so they enter the store through
allocation of a pure `Json` tree. -/

/-- A JS runtime value: a primitive, or a reference to a heap object. -/
inductive JVal where
  | null : JVal
  | bool (b : Bool) : JVal
  | num (n : Int) : JVal
  | str (s : String) : JVal
  | ref (a : Nat) : JVal
deriving Repr, BEq, DecidableEq

/-- A heap node: an object with ordered fields, or an array. -/
inductive HNode where
  | obj (fields : List (String × JVal)) : HNode
  | arr (elems : List JVal) : HNode
deriving Repr, BEq, DecidableEq

/-- The heap (an address-keyed association list) and the next fresh
address. -/
structure Store where
  heap : List (Nat × HNode)
  next : Nat
deriving Repr, BEq, DecidableEq

/-- Heap lookup. -/
def lookupH : List (Nat × HNode) → Nat → Option HNode
  | [], _ => none
  | (a, n) :: rest, key => if a = key then some n else lookupH rest key

/-- In-place update of the node at an existing address. -/
def setH : List (Nat × HNode) → Nat → HNode → List (Nat × HNode)
  | [], _, _ => []
  | (a, n) :: rest, key, nd =>
      if a = key then (a, nd) :: rest else (a, n) :: setH rest key nd

/-- Allocate a fresh node. -/
def Store.alloc (σ : Store) (nd : HNode) : Store × Nat :=
  (⟨σ.heap ++ [(σ.next, nd)], σ.next + 1⟩, σ.next)

/-- Overwrite the node at an address (a heap write). -/
def writeNode (σ : Store) (a : Nat) (nd : HNode) : Store :=
  ⟨setH σ.heap a nd, σ.next⟩

/-- Generic ordered-association-list update (replace or append). -/
def setAssoc {α : Type} : List (String × α) → String → α → List (String × α)
  | [], key, v => [(key, v)]
  | (k, w) :: rest, key, v =>
      if k = key then (k, v) :: rest else (k, w) :: setAssoc rest key v

/-- Generic ordered-association-list deletion. -/
def removeAssoc {α : Type} : List (String × α) → String → List (String × α)
  | [], _ => []
  | (k, w) :: rest, key =>
      if k = key then rest else (k, w) :: removeAssoc rest key

/-- `Array.prototype.splice(i, 1)` over any element type. -/
def spliceRemoveG {α : Type} (l : List α) (i : Int) : List α :=
  if (l.length : Int) ≤ i then l
  else
    let start : Nat := if i < 0 then (max ((l.length : Int) + i) 0).toNat else i.toNat
    l.take start ++ l.drop (start + 1)

/-- Array element read under a property key, at the store level. -/
def arrGetJ (vs : List JVal) (k : String) : Option JVal :=
  (canonIdx k).bind vs.get?

/-- Array element assignment at the store level, padding holes with the
`null` that `JSON.stringify` renders for them. -/
def arrSetJ (vs : List JVal) (i : Nat) (v : JVal) : List JVal :=
  if i < vs.length then vs.set i v
  else vs ++ List.replicate (i - vs.length) .null ++ [v]

/-- String element read at the store level. -/
def strCharAtJ (s : String) (k : String) : Option JVal :=
  (canonIdx k).bind (fun i => (s.toList.get? i).map (fun c => JVal.str (String.mk [c])))

/-- JS truthiness of a defined runtime value; references are objects and
always truthy. -/
def jvTruthy : JVal → Bool
  | .null => false
  | .bool b => b
  | .num n => n ≠ 0
  | .str s => s ≠ ""
  | .ref _ => true

mutual

/-- Allocate a pure JSON tree into the store, children first. -/
def allocJson : Store → Json → Store × JVal
  | σ, .null => (σ, .null)
  | σ, .bool b => (σ, .bool b)
  | σ, .num n => (σ, .num n)
  | σ, .str s => (σ, .str s)
  | σ, .arr l =>
      let p := allocList σ l
      let q := p.1.alloc (.arr p.2)
      (q.1, .ref q.2)
  | σ, .obj fs =>
      let p := allocFields σ fs
      let q := p.1.alloc (.obj p.2)
      (q.1, .ref q.2)

/-- Allocate array elements left to right. -/
def allocList : Store → List Json → Store × List JVal
  | σ, [] => (σ, [])
  | σ, x :: rest =>
      let p := allocJson σ x
      let q := allocList p.1 rest
      (q.1, p.2 :: q.2)

/-- Allocate object field values left to right. -/
def allocFields : Store → List (String × Json) → Store × List (String × JVal)
  | σ, [] => (σ, [])
  | σ, kv :: rest =>
      let p := allocJson σ kv.2
      let q := allocFields p.1 rest
      (q.1, (kv.1, p.2) :: q.2)

end

/-- Traverse a list with a partial function, failing when any element
fails. -/
def optMapList {α β : Type} (f : α → Option β) : List α → Option (List β)
  | [] => some []
  | x :: rest =>
      match f x, optMapList f rest with
      | some y, some ys => some (y :: ys)
      | _, _ => none

/-- Traverse the values of an ordered field list with a partial function. -/
def optMapFields {α β : Type} (f : α → Option β) :
    List (String × α) → Option (List (String × β))
  | [] => some []
  | kv :: rest =>
      match f kv.2, optMapFields f rest with
      | some y, some ys => some ((kv.1, y) :: ys)
      | _, _ => none

/-- Read a runtime value back as a pure JSON tree.  The fuel only bounds
the depth of reference descent, so any fuel above the number of heap nodes
decodes every acyclic value, and a cyclic structure exhausts it. -/
def decodeV : Nat → Store → JVal → Option Json
  | 0, _, _ => none
  | _ + 1, _, .null => some .null
  | _ + 1, _, .bool b => some (.bool b)
  | _ + 1, _, .num n => some (.num n)
  | _ + 1, _, .str s => some (.str s)
  | fuel + 1, σ, .ref a =>
      match lookupH σ.heap a with
      | some (.obj kvs) => (optMapFields (decodeV fuel σ) kvs).map Json.obj
      | some (.arr vs) => (optMapList (decodeV fuel σ) vs).map Json.arr
      | none => none

/-- The guarded read `current[key]` on a truthy defined value (no throw
possible): references read their node, strings their elements, other
primitives box to `undefined`. -/
def readDefS (σ : Store) (cur : JVal) (k : String) : Option JVal :=
  match cur with
  | .ref a =>
      match lookupH σ.heap a with
      | some (.obj kvs) => lookupStr kvs k
      | some (.arr vs) => arrGetJ vs k
      | none => none
  | .str s => strCharAtJ s k
  | _ => none

/-- The unguarded read `current[key]`: `undefined` and `null` throw. -/
def readS (σ : Store) : Option JVal → String → Except JsErr (Option JVal)
  | none, _ => .error .typeError
  | some .null, _ => .error .typeError
  | some cur, k => .ok (readDefS σ cur k)

/-- `resolvePointer` at the store level (json-patch.ts:6-25). -/
def resolveStepsS (σ : Store) : Option JVal → List String → Option JVal
  | cur, [] => cur
  | cur, part :: rest =>
    match cur with
    | none => none
    | some .null => none
    | some (.ref a) =>
        match lookupH σ.heap a with
        | some (.arr vs) =>
            resolveStepsS σ
              (match parseIntOpt part with
                | some i => if i < 0 then none else vs.get? i.toNat
                | none => none) rest
        | some (.obj kvs) => resolveStepsS σ (lookupStr kvs part) rest
        | none => none
    | some _ => none

/-- The final assignment `parent[lastKey] = w` at the store level; the
cases follow `writeHere` above. -/
def writeHereS (σ : Store) (cur : JVal) (lk : String) (w : Option JVal) :
    Except JsErr Store :=
  match cur with
  | .ref a =>
      match lookupH σ.heap a with
      | some (.obj kvs) =>
          .ok (writeNode σ a (.obj (match w with
            | some v => setAssoc kvs lk v
            | none => removeAssoc kvs lk)))
      | some (.arr vs) =>
          .ok (writeNode σ a (.arr (match canonIdx lk with
            | some i => arrSetJ vs i (w.getD .null)
            | none => vs)))
      | none => .ok σ
  | _ => .error .typeError

/-- An unguarded parent walk followed by the final assignment, at the store
level: the walk only reads, so the store changes exactly at the final
write; as in `writeAtParts`, a walk that leaves the containers can only end
in a `TypeError`. -/
def writeAtPartsS (σ : Store) : JVal → List String → Option JVal → Except JsErr Store
  | _, [], _ => .ok σ
  | cur, [lk], w => writeHereS σ cur lk w
  | cur, key :: rest, w =>
      match cur with
      | .ref a =>
          match lookupH σ.heap a with
          | some (.obj kvs) =>
              match lookupStr kvs key with
              | some child => writeAtPartsS σ child rest w
              | none => .error .typeError
          | some (.arr vs) =>
              match arrGetJ vs key with
              | some child => writeAtPartsS σ child rest w
              | none => .error .typeError
          | none => .ok σ
      | _ => .error .typeError

/-- The final `add`/`replace` assignment at the store level, with the
array-append case. -/
def addFinalS (σ : Store) (cur : JVal) (lk : String) (w : Option JVal) :
    Except JsErr Store :=
  match cur with
  | .ref a =>
      match lookupH σ.heap a with
      | some (.arr vs) =>
          if lk = "-" then .ok (writeNode σ a (.arr (vs ++ [w.getD .null])))
          else
            .ok (writeNode σ a (.arr (match canonIdx lk with
              | some i => arrSetJ vs i (w.getD .null)
              | none => vs)))
      | some (.obj kvs) =>
          .ok (writeNode σ a (.obj (match w with
            | some v => setAssoc kvs lk v
            | none => removeAssoc kvs lk)))
      | none => .ok σ
  | _ => .error .typeError

/-- One missing-intermediate container, by numeric lookahead. -/
def allocFreshContainer (σ : Store) (next : String) : Store × JVal :=
  let q := σ.alloc (if isNumericJS next then .arr [] else .obj [])
  (q.1, .ref q.2)

/-- The `add`/`replace` walk at the store level (json-patch.ts:70-96),
creating missing intermediates in place; the cases follow `addAt` above.  A
creation switches the walk into freshly allocated containers, in which no
later step can throw, so every error leaves the store unchanged. -/
def addS : Store → JVal → List String → Option JVal → Except JsErr Store
  | σ, _, [], _ => .ok σ
  | σ, cur, [lk], w => addFinalS σ cur lk w
  | σ, cur, key :: next :: rest, w =>
      match cur with
      | .ref a =>
          match lookupH σ.heap a with
          | some (.obj kvs) =>
              match lookupStr kvs key with
              | some child => addS σ child (next :: rest) w
              | none =>
                  let p := allocFreshContainer σ next
                  let σ2 := writeNode p.1 a (.obj (setAssoc kvs key p.2))
                  addS σ2 p.2 (next :: rest) w
          | some (.arr vs) =>
              match canonIdx key with
              | some i =>
                  match vs.get? i with
                  | some child => addS σ child (next :: rest) w
                  | none =>
                      let p := allocFreshContainer σ next
                      let σ2 := writeNode p.1 a (.arr (arrSetJ vs i p.2))
                      addS σ2 p.2 (next :: rest) w
              | none => .ok σ
          | none => .ok σ
      | _ => .error .typeError

/-- The final deletion of the `remove` arm at the store level. -/
def removeHereS (σ : Store) (cur : JVal) (lk : String) : Except JsErr Store :=
  match cur with
  | .ref a =>
      match lookupH σ.heap a with
      | some (.arr vs) =>
          .ok (writeNode σ a (.arr (match parseIntOpt lk with
            | some i => spliceRemoveG vs i
            | none => vs)))
      | some (.obj kvs) => .ok (writeNode σ a (.obj (removeAssoc kvs lk)))
      | none => .ok σ
  | .str s =>
      match canonIdx lk with
      | some i => if i < s.toList.length then .error .typeError else .ok σ
      | none => .ok σ
  | _ => .ok σ

/-- The `remove` walk at the store level (json-patch.ts:97-117), with the
truthiness guards of the source. -/
def removeS (σ : Store) : JVal → List String → Except JsErr Store
  | _, [] => .ok σ
  | cur, [lk] => if jvTruthy cur then removeHereS σ cur lk else .ok σ
  | cur, key :: rest =>
      if jvTruthy cur then
        match readDefS σ cur key with
        | some child => removeS σ child rest
        | none => .ok σ
      else .ok σ

/-- The source phase of `move` at the store level (json-patch.ts:122-140):
the read value is a runtime value — for a container, a reference into the
result region, which is what makes `move` relocate rather than copy. -/
def moveTakeS (σ : Store) : JVal → List String → Except JsErr (Store × Option JVal)
  | _, [] => .ok (σ, none)
  | cur, [sk] =>
      match cur with
      | .null => .error .typeError
      | .ref a =>
          match lookupH σ.heap a with
          | some (.arr vs) =>
              .ok (writeNode σ a (.arr (match parseIntOpt sk with
                | some i => spliceRemoveG vs i
                | none => vs)), arrGetJ vs sk)
          | some (.obj kvs) => .ok (writeNode σ a (.obj (removeAssoc kvs sk)), lookupStr kvs sk)
          | none => .ok (σ, none)
      | .str s =>
          match canonIdx sk with
          | some i => if i < s.toList.length then .error .typeError else .ok (σ, none)
          | none => .ok (σ, none)
      | _ => .ok (σ, none)
  | cur, key :: rest =>
      match cur with
      | .null => .error .typeError
      | .ref a =>
          match lookupH σ.heap a with
          | some (.obj kvs) =>
              match lookupStr kvs key with
              | some child => moveTakeS σ child rest
              | none => .error .typeError
          | some (.arr vs) =>
              match arrGetJ vs key with
              | some child => moveTakeS σ child rest
              | none => .error .typeError
          | none => .error .typeError
      | .str s =>
          match strCharAtJ s key with
          | some c => moveTakeS σ c rest
          | none => .error .typeError
      | _ => .error .typeError

/-- The read phase of `copy` at the store level (json-patch.ts:155-165): a
found source value is serialized and re-parsed, so the clone enters the
store as fresh structure; serializing a cyclic value throws, and cloning a
missing (`undefined`) source throws the parse error. -/
def copyReadS (σ : Store) : JVal → List String → Except JsErr (Store × Option JVal)
  | _, [] => .ok (σ, none)
  | cur, [sk] =>
      match cur with
      | .null => .error .typeError
      | _ =>
          match readDefS σ cur sk with
          | some v =>
              match decodeV (σ.next + 1) σ v with
              | some t =>
                  let p := allocJson σ t
                  .ok (p.1, some p.2)
              | none => .error .typeError
          | none => .error .syntaxError
  | cur, key :: rest =>
      match cur with
      | .null => .error .typeError
      | _ =>
          match readDefS σ cur key with
          | some child => copyReadS σ child rest
          | none => .error .typeError

/-- The `test` walk at the store level: unguarded reads to the parent, then
`current[lastKey]`. -/
def testActualS (σ : Store) : Option JVal → List String → Except JsErr (Option JVal)
  | _, [] => .ok none
  | cur, [lk] => readS σ cur lk
  | cur, k :: rest => do testActualS σ (← readS σ cur k) rest

/-- The `test` arm at the store level: the actual value is serialized for
the comparison (serializing a cyclic value throws); no store change on
success. -/
def testOpS (σ : Store) (root : JVal) (parts : List String) (v : Option Json) :
    Except JsErr Store := do
  let actual ← testActualS σ (some root) parts
  let actualStr? ←
    match actual with
    | none => pure (none : Option String)
    | some jv =>
        match decodeV (σ.next + 1) σ jv with
        | some t => pure (some (encodeJson t))
        | none => Except.error JsErr.typeError
  if actualStr? = stringifyOpt v then .ok σ
  else
    .error (.testFailed ((stringifyOpt v).getD "undefined") (actualStr?.getD "undefined"))

/-- Allocate a patch value (absent stays `undefined`).  The value arrives as
freshly parsed JSON, so in the store it is fresh structure. -/
def allocValue (σ : Store) : Option Json → Store × Option JVal
  | none => (σ, none)
  | some j =>
      let p := allocJson σ j
      (p.1, some p.2)

/-- The op dispatch at the store level, mirroring `mainSwitch`. -/
def mainSwitchS (σ : Store) (root : JVal) (p : Json) (op? : Option Json) :
    Store × Except JsErr JVal :=
  match getAttr p "path" with
  | some (.str path) =>
      let parts := splitPath path
      (match op? with
        | some (.str "add") =>
            let q := allocValue σ (getAttr p "value")
            (match addS q.1 root parts q.2 with
              | .ok σ2 => (σ2, .ok root)
              | .error e => (q.1, .error e))
        | some (.str "replace") =>
            let q := allocValue σ (getAttr p "value")
            (match addS q.1 root parts q.2 with
              | .ok σ2 => (σ2, .ok root)
              | .error e => (q.1, .error e))
        | some (.str "remove") =>
            (match removeS σ root parts with
              | .ok σ2 => (σ2, .ok root)
              | .error e => (σ, .error e))
        | some (.str "move") =>
            (match getAttr p "from" with
              | some (.str f) =>
                  if f = "" then (σ, .ok root)
                  else
                    (match moveTakeS σ root (splitPath f) with
                      | .ok (σ1, v) =>
                          (match writeAtPartsS σ1 root parts v with
                            | .ok σ2 => (σ2, .ok root)
                            | .error e => (σ1, .error e))
                      | .error e => (σ, .error e))
              | some v => if jsTruthy v then (σ, .error .typeError) else (σ, .ok root)
              | none => (σ, .ok root))
        | some (.str "copy") =>
            (match getAttr p "from" with
              | some (.str f) =>
                  if f = "" then (σ, .ok root)
                  else
                    (match copyReadS σ root (splitPath f) with
                      | .ok (σ1, v) =>
                          (match writeAtPartsS σ1 root parts v with
                            | .ok σ2 => (σ2, .ok root)
                            | .error e => (σ1, .error e))
                      | .error e => (σ, .error e))
              | some v => if jsTruthy v then (σ, .error .typeError) else (σ, .ok root)
              | none => (σ, .ok root))
        | some (.str "test") =>
            (match testOpS σ root parts (getAttr p "value") with
              | .ok σ2 => (σ2, .ok root)
              | .error e => (σ, .error e))
        | _ => (σ, .ok root))
  | _ => (σ, .error .typeError)

/-- One iteration of the patch loop at the store level, mirroring
`applyOne`; the result pairs the store at the moment of return — also on an
exception, since mutations made before a throw persist (the `move` source
removal, the `copy` clone allocation). -/
def applyOneS (σ : Store) (root : JVal) (p : Json) : Store × Except JsErr JVal :=
  match p with
  | .null => (σ, .error .typeError)
  | _ =>
    match getAttr p "op" with
    | some (.str "add") =>
        (match getAttr p "path" with
          | some (.str path) =>
              if endsWithSlashDash path then
                match resolveStepsS σ (some root) (splitPath (dropLastTwo path)) with
                | some (.str s) =>
                    let w := JVal.str (s ++ jsToStringOpt (getAttr p "value"))
                    (match splitPath (dropLastTwo path) with
                      | [] => (σ, .ok w)
                      | parts =>
                          match writeAtPartsS σ root parts (some w) with
                          | .ok σ2 => (σ2, .ok root)
                          | .error e => (σ, .error e))
                | _ => mainSwitchS σ root p (some (.str "add"))
              else mainSwitchS σ root p (some (.str "add"))
          | _ => (σ, .error .typeError))
    | op? => mainSwitchS σ root p op?

/-- The patch loop at the store level. -/
def applyLoopS : Store → JVal → List Json → Store × Except JsErr JVal
  | σ, root, [] => (σ, .ok root)
  | σ, root, p :: rest =>
      match applyOneS σ root p with
      | (σ1, .ok root1) => applyLoopS σ1 root1 rest
      | (σ1, .error e) => (σ1, .error e)

/-- `applyJsonPatches` at the store level (json-patch.ts:31-196): the deep
clone `JSON.parse(JSON.stringify(target))` reads the target back as a tree
(serializing a cyclic target throws) and allocates it afresh, and the patch
loop then operates on the clone. -/
def applyJsonPatchesS (σ : Store) (target : JVal) (patches : List Json) :
    Store × Except JsErr JVal :=
  match decodeV (σ.next + 1) σ target with
  | none => (σ, .error .typeError)
  | some t =>
      let p := allocJson σ t
      applyLoopS p.1 p.2 patches

/-! ## Messages, validator, and the retry controller

(`src/trustcall/validation-node.ts` and `src/trustcall/extractor.ts`.)
Messages are the closed variant of the four `BaseMessage` kinds the state
machine distinguishes; a tool-result message carries the `status` field and
the `additional_kwargs.is_error` mark as plain fields.  The external
generation capability is out of scope, so the nodes that consume a model
response take that response as an argument. -/

/-- A tool call `{id, name, args}`. -/
structure ToolCallM where
  id : String
  name : String
  args : Json
deriving Repr, BEq

/-- The message kinds of the extraction state. -/
inductive Msg where
  | system (content : String) (id : Option String)
  | human (content : String) (id : Option String)
  | ai (content : String) (toolCalls : List ToolCallM) (id : Option String)
  | toolRes (content : String) (toolCallId : String) (name : String)
      (status : String) (isError : Bool) (id : Option String)
deriving Repr, BEq

/-- The `id` of a message, absent when unassigned. -/
def Msg.idOf : Msg → Option String
  | .system _ i => i
  | .human _ i => i
  | .ai _ _ i => i
  | .toolRes _ _ _ _ _ i => i

/-- A registered schema, as the validator uses one: `parse(args)` either
returns the validated (possibly coerced or defaulted) value or throws a
message. -/
structure SchemaM where
  parse : Json → Except String Json

/-- `Array.prototype.join(", ")`. -/
def joinComma : List String → String
  | [] => ""
  | [x] => x
  | x :: y :: rest => x ++ ", " ++ joinComma (y :: rest)

/-- The unknown-name error text of `validateOne`
(validation-node.ts:137). -/
def unrecognizedContent (name validNames id : String) : String :=
  "Unrecognized tool name: \"" ++ name ++
    "\". You only have access to the following tools: " ++ validNames ++
    ". Please call PatchFunctionName with the *correct* tool name to fix json_doc_id=[" ++
    id ++ "]."

/-- `ValidationNode.validateOne` (validation-node.ts:121-163): an unknown
name yields an error result enumerating the registered names and pointing
at the name-fix tool; a known name parses the arguments, success carrying
the stringified validated value and failure carrying the pluggable
formatter output.  Both failure results set `status: "error"` and the
`is_error` mark. -/
def validateOne (schemasByName : List (String × SchemaM))
    (fmt : String → ToolCallM → SchemaM → String) (call : ToolCallM) : Msg :=
  match lookupStr schemasByName call.name with
  | none =>
      .toolRes (unrecognizedContent call.name (joinComma (schemasByName.map Prod.fst)) call.id)
        call.id call.name "error" true none
  | some sch =>
      match sch.parse call.args with
      | .ok v => .toolRes (encodeJson v) call.id call.name "success" false none
      | .error e => .toolRes (fmt e call sch) call.id call.name "error" true none

/-- `ValidationNode.invoke` on the dict-shaped input (validation-node.ts:
95-116, 168-190): take the last message, which must be a model message,
and validate each of its tool calls (the `Promise.all` preserves the call
order). -/
def vnInvoke (schemasByName : List (String × SchemaM))
    (fmt : String → ToolCallM → SchemaM → String) (messages : List Msg) :
    Except String (List Msg) :=
  match messages.getLast? with
  | some (.ai _ toolCalls _) => .ok (toolCalls.map (validateOne schemasByName fmt))
  | _ => .error "Last message is not an AIMessage"

/-- One spawned correction task: the failing call it targets and whether it
is the task marked to bump the shared attempt counter. -/
structure SendPatch where
  toolCallId : String
  bumpAttempt : Bool
deriving Repr, BEq, DecidableEq

/-- The routing decision of `handleRetries`. -/
inductive RetryDecision where
  | toEnd : RetryDecision
  | sends (tasks : List SendPatch) : RetryDecision
deriving Repr, BEq, DecidableEq

/-- `config.configurable?.max_attempts || DEFAULT_MAX_ATTEMPTS`
(extractor.ts:681-682): an absent value — and, `||` being a truthiness
test, an explicit zero — falls back to the default of 3. -/
def resolveMaxAttempts : Option Nat → Nat
  | none => 3
  | some 0 => 3
  | some (n + 1) => n + 1

/-- The backward scan of `handleRetries` (extractor.ts:692-709), here over
the reversed message list: stop at the first model message, and spawn one
task per error-marked tool result, the first one found carrying the
attempt bump. -/
def buildSends : List Msg → Bool → List SendPatch
  | [], _ => []
  | .ai _ _ _ :: _, _ => []
  | .toolRes _ tcid _ _ isErr _ :: rest, bumped =>
      if isErr then ⟨tcid, !bumped⟩ :: buildSends rest true
      else buildSends rest bumped
  | _ :: rest, bumped => buildSends rest bumped

/-- `handleRetries` (extractor.ts:677-712): at or above the attempt budget
route to `END` unconditionally; otherwise spawn one `patch` task per
error result of the current round, or route to `END` when there are
none. -/
def handleRetries (messages : List Msg) (attempts : Nat) (maxAttempts? : Option Nat) :
    RetryDecision :=
  if attempts ≥ resolveMaxAttempts maxAttempts? then .toEnd
  else
    match buildSends messages.reverse false with
    | [] => .toEnd
    | s => .sends s

/-- The message operations of `types.ts` (`MessageOp`), as the `patch` node
builds them and `applyMessageOps` interprets them. -/
inductive MessageOpM where
  | deleteMsg (target : String)
  | updateToolCall (target : ToolCallM)
  | updateToolName (id : String) (name : String)
deriving Repr, BEq

/-- Member access on the raw `tc.args` record: access on `null` throws. -/
def getAttrE (j : Json) (k : String) : Except JsErr (Option Json) :=
  match j with
  | .null => .error .typeError
  | _ => .ok (getAttr j k)

/-- The `args.patches` normalization entry as the `patch` node calls it
(`ensurePatches(args)` with `args` the raw call arguments): reading the
member throws on `null`; any non-object shape reads `undefined` and
normalizes to the empty list. -/
def ensurePatchesOf (args : Json) : Except JsErr (List Json) :=
  match args with
  | .null => .error .typeError
  | .obj fs => .ok (ensurePatches fs)
  | _ => .ok []

/-- The inner scan of the `patch` node (extractor.ts:622-643): walk the
whole message history, and for every model message and every tool call
carrying the target id, apply the edits to that call's original arguments
and record an `update_tool_call` operation. -/
def patchOpsForCall (messages : List Msg) (targetId : String) (patches : List Json) :
    Except JsErr (List MessageOpM) :=
  match messages with
  | [] => .ok []
  | .ai _ tcs _ :: rest => do
      let here ← tcs.foldlM
        (fun acc tc =>
          if tc.id = targetId then do
            let patched ← applyJsonPatches tc.args patches
            pure (acc ++ [MessageOpM.updateToolCall ⟨targetId, tc.name, patched⟩])
          else pure acc)
        []
      let more ← patchOpsForCall rest targetId patches
      pure (here ++ more)
  | _ :: rest => patchOpsForCall rest targetId patches

/-- The operation-collecting loop of the `patch` node (extractor.ts:
605-645) over the tool calls of the correction response: a name-fix call
with a truthy `fixed_name` records a rename of the target call; an
edit-list call with a nonempty normalized edit list records the corrected
call; anything else is ignored.  A raised exception (a bad `args` record
or a failing edit application) escapes to the surrounding `catch`. -/
def patchMessageOps (messages : List Msg) (targetId : String) (respCalls : List ToolCallM) :
    Except JsErr (List MessageOpM) :=
  respCalls.foldlM
    (fun acc tc =>
      if tc.name = "PatchFunctionName" then do
        let v? ← getAttrE tc.args "fixed_name"
        match v? with
        | some v =>
            if jsTruthy v then pure (acc ++ [MessageOpM.updateToolName targetId (jsToString v)])
            else pure acc
        | none => pure acc
      else if tc.name = "PatchFunctionErrors" then do
        let patches ← ensurePatchesOf tc.args
        match patches with
        | [] => pure acc
        | _ => do
            let ops ← patchOpsForCall messages targetId patches
            pure (acc ++ ops)
      else pure acc)
    []

/-- The state update a `patch` task returns. -/
structure PatchNodeResult where
  attemptsDelta : Nat
  messagesAppend : List Msg
deriving Repr, BEq

/-- The `patch` node (extractor.ts:586-653): collect the message
operations, then return only the attempt bump — the collected operations
are dropped on the floor (extractor.ts:647-649), and the `catch` arm
returns an empty update. -/
def patchNode (messages : List Msg) (targetId : String) (bumpAttempt : Bool)
    (respCalls : List ToolCallM) : PatchNodeResult :=
  match patchMessageOps messages targetId respCalls with
  | .ok _ => ⟨if bumpAttempt then 1 else 0, []⟩
  | .error _ => ⟨0, []⟩

/-- The `messages` reducer of the state annotation (extractor.ts:170-177):
append-only concatenation. -/
def messagesReduce (curr upd : List Msg) : List Msg := curr ++ upd

/-- The `attempts` reducer of the state annotation (extractor.ts:178-181):
merge by summation. -/
def attemptsReduce (curr upd : Nat) : Nat := curr + upd

/-- `applyMessageOps` (json-patch.ts:280-341): interpret message
operations over a message list, rebuilding model messages so that the
targeted tool call is replaced or renamed. -/
def applyMessageOps (messages : List Msg) (ops : List MessageOpM) : List Msg :=
  ops.foldl
    (fun msgs op =>
      match op with
      | .deleteMsg targetId => msgs.filter (fun m => m.idOf ≠ some targetId)
      | .updateToolCall t =>
          msgs.map (fun m =>
            match m with
            | .ai content tcs mid =>
                .ai content (tcs.map (fun tc => if tc.id = t.id then t else tc)) mid
            | m => m)
      | .updateToolName tid nm =>
          msgs.map (fun m =>
            match m with
            | .ai content tcs mid =>
                .ai content (tcs.map (fun tc =>
                  if tc.id = tid then { tc with name := nm } else tc)) mid
            | m => m))
    messages

/-! ## Specification-side helpers

The definitions in this subsection are not translations of source code;
they exist to state claims: op-object builders for quantified edit lists,
a strict path-resolution predicate used as the hypothesis language of the
amended claims, and a substring predicate. -/

/-- The edit object `{op: "add", path, value}`. -/
def mkAdd (path : String) (v : Json) : Json :=
  .obj [("op", .str "add"), ("path", .str path), ("value", v)]

/-- The edit object `{op: "remove", path}`. -/
def mkRemove (path : String) : Json :=
  .obj [("op", .str "remove"), ("path", .str path)]

/-- The edit object `{op: "test", path, value}`. -/
def mkTest (path : String) (v : Json) : Json :=
  .obj [("op", .str "test"), ("path", .str path), ("value", v)]

/-- Strict resolution of a segment list: follow object fields and canonical
in-range array indices only.  On such paths every walk of the engine
agrees. -/
def resolveStrict : Json → List String → Option Json
  | d, [] => some d
  | .obj fs, k :: rest =>
      match lookupField fs k with
      | some child => resolveStrict child rest
      | none => none
  | .arr l, k :: rest =>
      match canonIdx k with
      | some i =>
          match l.get? i with
          | some child => resolveStrict child rest
          | none => none
      | none => none
  | _, _ :: _ => none

/-- Strict functional update at a segment list that resolves strictly. -/
def updateStrict : Json → List String → Json → Option Json
  | _, [], w => some w
  | .obj fs, k :: rest, w =>
      (lookupField fs k).bind
        (fun child => (updateStrict child rest w).map (fun c => Json.obj (setFieldList fs k c)))
  | .arr l, k :: rest, w =>
      (canonIdx k).bind (fun i =>
        (l.get? i).bind (fun child =>
          (updateStrict child rest w).map (fun c => Json.arr (l.set i c))))
  | _, _ :: _, _ => none

/-- One string occurs inside another. -/
def strContains (needle hay : String) : Prop :=
  ∃ pre post, hay = pre ++ needle ++ post

/-! ## Claim C8 — the attempt budget -/

/-- C8: the state machine never spawns a `Patch` task once `attempts` has
reached the configured maximum (default 3): whenever the budget is reached
at the validate-to-patch transition, the run routes to `End` regardless of
the message history — in particular of the validation outcome; and with
`maxAttempts = 1`, after the single extraction round (which contributes
`attempts = 0 + 1 = 1` through the summing reducer) every history routes to
`End`, so no correction task is ever spawned and `attempts` stays 1. -/
theorem C8_attempt_budget :
    (∀ (messages : List Msg) (attempts : Nat) (cfg : Option Nat),
        resolveMaxAttempts cfg ≤ attempts →
        handleRetries messages attempts cfg = .toEnd) ∧
    resolveMaxAttempts none = 3 ∧
    attemptsReduce 0 1 = 1 ∧
    (∀ messages : List Msg, handleRetries messages (attemptsReduce 0 1) (some 1) = .toEnd) := by
  refine ⟨?_, rfl, rfl, ?_⟩
  · intro messages attempts cfg h
    simp [handleRetries, h]
  · intro messages
    have h : resolveMaxAttempts (some 1) ≤ attemptsReduce 0 1 := by decide
    simp [handleRetries, h]

/-- Witness for C8 at a concrete failing round: a history whose current
round holds an error result, three attempts spent against the default
budget, and the one-attempt budget after a single round. -/
theorem C8_attempt_budget_witness :
    handleRetries [Msg.ai "c" [⟨"call-1", "User", .obj []⟩] (some "m"),
      Msg.toolRes "bad" "call-1" "User" "error" true none] 3 none = .toEnd ∧
    handleRetries [Msg.ai "c" [⟨"call-1", "User", .obj []⟩] (some "m"),
      Msg.toolRes "bad" "call-1" "User" "error" true none] (attemptsReduce 0 1) (some 1) = .toEnd :=
  ⟨C8_attempt_budget.1 _ 3 none (by decide),
   C8_attempt_budget.2.2.2 _⟩

/-! ## Claim C9 — the validator -/

/-- A name occurring in a list occurs in its comma-join. -/
theorem strContains_joinComma {nm : String} :
    ∀ {names : List String}, nm ∈ names → strContains nm (joinComma names)
  | [], h => absurd h (List.not_mem_nil nm)
  | [x], h => by
      rcases List.mem_singleton.mp h with rfl
      exact ⟨"", "", by simp [joinComma]⟩
  | x :: y :: rest, h => by
      rcases List.mem_cons.mp h with rfl | h2
      · exact ⟨"", ", " ++ joinComma (y :: rest), by simp [joinComma, String.append_assoc]⟩
      · obtain ⟨p, q, hpq⟩ := strContains_joinComma h2
        exact ⟨x ++ ", " ++ p, q, by simp [joinComma, hpq, String.append_assoc]⟩

/-- Containment passes through an enclosing concatenation. -/
theorem strContains_extend {nm mid : String} (a b : String) (h : strContains nm mid) :
    strContains nm (a ++ mid ++ b) := by
  obtain ⟨p, q, hpq⟩ := h
  exact ⟨a ++ p, q ++ b, by simp [hpq, String.append_assoc]⟩

/-- C9: the validator produces exactly one result per tool call of the
validated message, in call order; a call whose name has no registered
schema yields an error-marked result whose text names every registered
schema and instructs the name-fix recovery (`PatchFunctionName`); a call
whose name resolves yields, on a successful parse, a success result
carrying the stringified validated value, and on a parse failure an
error-marked result whose text is produced by the pluggable formatter. -/
theorem C9_validator :
    ∀ (schemas : List (String × SchemaM)) (fmt : String → ToolCallM → SchemaM → String)
      (messages : List Msg) (content : String) (calls : List ToolCallM) (mid : Option String),
      messages.getLast? = some (.ai content calls mid) →
      ∃ outs, vnInvoke schemas fmt messages = .ok outs ∧
        outs = calls.map (validateOne schemas fmt) ∧
        outs.length = calls.length ∧
        ∀ call ∈ calls,
          (∀ sch, lookupStr schemas call.name = some sch →
            (∀ v, sch.parse call.args = .ok v →
              validateOne schemas fmt call =
                .toolRes (encodeJson v) call.id call.name "success" false none) ∧
            (∀ e, sch.parse call.args = .error e →
              validateOne schemas fmt call =
                .toolRes (fmt e call sch) call.id call.name "error" true none)) ∧
          (lookupStr schemas call.name = none →
            ∃ cnt, validateOne schemas fmt call =
                .toolRes cnt call.id call.name "error" true none ∧
              strContains "PatchFunctionName" cnt ∧
              ∀ nm ∈ schemas.map Prod.fst, strContains nm cnt) := by
  intro schemas fmt messages content calls mid hlast
  refine ⟨calls.map (validateOne schemas fmt), ?_, rfl, by simp, ?_⟩
  · simp [vnInvoke, hlast]
  · intro call _
    constructor
    · intro sch hsch
      constructor
      · intro v hv
        simp [validateOne, hsch, hv]
      · intro e he
        simp [validateOne, hsch, he]
    · intro hnone
      refine ⟨unrecognizedContent call.name (joinComma (schemas.map Prod.fst)) call.id,
        by simp [validateOne, hnone], ?_, ?_⟩
      · refine ⟨"Unrecognized tool name: \"" ++ call.name ++
          "\". You only have access to the following tools: " ++
          joinComma (schemas.map Prod.fst) ++ ". Please call ",
          " with the *correct* tool name to fix json_doc_id=[" ++ call.id ++ "].", ?_⟩
        simp [unrecognizedContent, String.append_assoc]
        rw [show (". Please call PatchFunctionName" : String) ++
            (" with the *correct* tool name to fix json_doc_id=[" ++ (call.id ++ "].")) =
            (". Please call PatchFunctionName" ++
              " with the *correct* tool name to fix json_doc_id=[") ++ (call.id ++ "].") from
          (String.append_assoc _ _ _).symm]
        rfl
      · intro nm hnm
        have h := strContains_joinComma hnm
        have := strContains_extend
          ("Unrecognized tool name: \"" ++ call.name ++
            "\". You only have access to the following tools: ")
          (". Please call PatchFunctionName with the *correct* tool name to fix json_doc_id=[" ++
            call.id ++ "].") h
        simpa [unrecognizedContent, String.append_assoc] using this

/-- The schema set of the C9 witness: one registered schema requiring a
nonnegative `age`. -/
def C9wSchemas : List (String × SchemaM) :=
  [("User", ⟨fun j =>
    match getAttr j "age" with
    | some (.num n) => if 0 ≤ n then .ok j else .error "too small"
    | _ => .error "age required"⟩)]

/-- The validated message of the C9 witness: a passing call, a failing
call, and an unknown-name call. -/
def C9wCalls : List ToolCallM :=
  [⟨"call-1", "User", .obj [("age", .num 30)]⟩,
   ⟨"call-2", "User", .obj [("age", .num (-5))]⟩,
   ⟨"call-3", "Nope", .obj []⟩]

/-- Witness for C9: the validator run on the concrete message produces one
result per call, in order. -/
theorem C9_validator_witness :
    vnInvoke C9wSchemas (fun e _ _ => e) [Msg.human "hi" none, Msg.ai "c" C9wCalls none] =
      .ok (C9wCalls.map (validateOne C9wSchemas (fun e _ _ => e))) := by
  obtain ⟨outs, h1, h2, -, -⟩ :=
    C9_validator C9wSchemas (fun e _ _ => e)
      [Msg.human "hi" none, Msg.ai "c" C9wCalls none] "c" C9wCalls none rfl
  rw [h2] at h1
  exact h1

/-! ## Claim C7 — one attempt per correction round -/

/-- The originating call ids of the error results of the current round:
tool results after the most recent model message, scanned backward from
the end of the history.  This is the specification-side description of the
window `handleRetries` scans. -/
def windowErrorIds (messages : List Msg) : List String :=
  (messages.reverse.takeWhile (fun m => match m with | .ai _ _ _ => false | _ => true)).filterMap
    (fun m =>
      match m with
      | .toolRes _ tcid _ _ e _ => if e then some tcid else none
      | _ => none)

/-- The scan spawns exactly the error results of the window, in scan
order, whatever the bump flag. -/
theorem buildSends_ids : ∀ (l : List Msg) (b : Bool),
    (buildSends l b).map SendPatch.toolCallId =
      (l.takeWhile (fun m => match m with | .ai _ _ _ => false | _ => true)).filterMap
        (fun m =>
          match m with
          | .toolRes _ tcid _ _ e _ => if e then some tcid else none
          | _ => none)
  | [], _ => rfl
  | .ai _ _ _ :: _, _ => rfl
  | .system c i :: rest, b => by
      simpa [buildSends] using buildSends_ids rest b
  | .human c i :: rest, b => by
      simpa [buildSends] using buildSends_ids rest b
  | .toolRes c tcid nm st isErr i :: rest, b => by
      by_cases he : isErr
      · simpa [buildSends, he] using buildSends_ids rest true
      · simpa [buildSends, he] using buildSends_ids rest b

/-- After the first error result is found, every further spawned task is
unmarked. -/
theorem buildSends_true_unmarked : ∀ (l : List Msg), ∀ t ∈ buildSends l true,
    t.bumpAttempt = false
  | [], t, ht => absurd ht (List.not_mem_nil t)
  | .ai _ _ _ :: _, t, ht => absurd ht (List.not_mem_nil t)
  | .system c i :: rest, t, ht => buildSends_true_unmarked rest t (by simpa [buildSends] using ht)
  | .human c i :: rest, t, ht => buildSends_true_unmarked rest t (by simpa [buildSends] using ht)
  | .toolRes c tcid nm st isErr i :: rest, t, ht => by
      by_cases he : isErr
      · rcases List.mem_cons.mp (by simpa [buildSends, he] using ht) with rfl | h2
        · rfl
        · exact buildSends_true_unmarked rest t h2
      · exact buildSends_true_unmarked rest t (by simpa [buildSends, he] using ht)

/-- The first spawned task of a fresh scan is marked; all later ones are
not. -/
theorem buildSends_false_marks : ∀ (l : List Msg) (t : SendPatch) (rest : List SendPatch),
    buildSends l false = t :: rest →
    t.bumpAttempt = true ∧ ∀ u ∈ rest, u.bumpAttempt = false
  | [], t, rest, h => by simp [buildSends] at h
  | .ai _ _ _ :: _, t, rest, h => by simp [buildSends] at h
  | .system c i :: l, t, rest, h =>
      buildSends_false_marks l t rest (by simpa [buildSends] using h)
  | .human c i :: l, t, rest, h =>
      buildSends_false_marks l t rest (by simpa [buildSends] using h)
  | .toolRes c tcid nm st isErr i :: l, t, rest, h => by
      by_cases he : isErr
      · have h' : (⟨tcid, true⟩ : SendPatch) :: buildSends l true = t :: rest := by
          simpa [buildSends, he] using h
        obtain ⟨rfl, rfl⟩ : (⟨tcid, true⟩ : SendPatch) = t ∧ buildSends l true = rest := by
          exact ⟨(List.cons.injEq _ _ _ _ ▸ h').1, (List.cons.injEq _ _ _ _ ▸ h').2⟩
        exact ⟨rfl, buildSends_true_unmarked l⟩
      · exact buildSends_false_marks l t rest (by simpa [buildSends, he] using h)

/-- Counterexample to C7 as stated: the marked task of a round does not
always add 1 to `attempts`.  In the history below the retry router spawns
exactly one task, marked to bump the counter; but the correction response
carries a `PatchFunctionErrors` call whose normalized edit list is the
nonempty `[null]`, applying which throws, so the `patch` node lands in its
`catch` arm and returns an empty update: the marked task contributes 0,
and the round increases `attempts` by 0, not 1. -/
theorem C7_counterexample :
    handleRetries
      [Msg.ai "c" [⟨"call-1", "User", .obj [("age", .num (-5))]⟩] (some "m"),
       Msg.toolRes "bad" "call-1" "User" "error" true none] 1 none =
      .sends [⟨"call-1", true⟩] ∧
    patchNode
      [Msg.ai "c" [⟨"call-1", "User", .obj [("age", .num (-5))]⟩] (some "m"),
       Msg.toolRes "bad" "call-1" "User" "error" true none]
      "call-1" true
      [⟨"p1", "PatchFunctionErrors", .obj [("patches", .arr [.null])]⟩] =
      ⟨0, []⟩ :=
  ⟨rfl, rfl⟩

/-- C7 as amended: below the attempt budget, a round with `n ≥ 1` error
results spawns exactly `n` patch tasks, one per error result's originating
call id in scan order; exactly the first-scanned task carries the bump
mark; a spawned task whose patch computation completes without throwing
adds 1 to `attempts` exactly when it carries the mark (a throwing
computation adds nothing, as the counterexample records); consequently,
when every spawned task's computation completes, the round increases
`attempts` by exactly 1 regardless of `n`. -/
theorem C7_amended :
    (∀ (messages : List Msg) (attempts : Nat) (cfg : Option Nat),
      attempts < resolveMaxAttempts cfg →
      windowErrorIds messages ≠ [] →
      ∃ tasks, handleRetries messages attempts cfg = .sends tasks ∧
        tasks.map SendPatch.toolCallId = windowErrorIds messages ∧
        tasks.length = (windowErrorIds messages).length ∧
        tasks.head?.map SendPatch.bumpAttempt = some true ∧
        (∀ t ∈ tasks.tail, t.bumpAttempt = false)) ∧
    (∀ (messages : List Msg) (tgt : String) (bump : Bool) (resp : List ToolCallM)
      (ops : List MessageOpM),
      patchMessageOps messages tgt resp = .ok ops →
      patchNode messages tgt bump resp = ⟨if bump then 1 else 0, []⟩) ∧
    (∀ (messages : List Msg) (attempts : Nat) (cfg : Option Nat) (tasks : List SendPatch)
      (resp : SendPatch → List ToolCallM),
      handleRetries messages attempts cfg = .sends tasks →
      (∀ t ∈ tasks, ∃ ops, patchMessageOps messages t.toolCallId (resp t) = .ok ops) →
      (tasks.map
        (fun t => (patchNode messages t.toolCallId t.bumpAttempt (resp t)).attemptsDelta)).sum
        = 1) := by
  have hsendsOf : ∀ (messages : List Msg) (attempts : Nat) (cfg : Option Nat)
      (tasks : List SendPatch), handleRetries messages attempts cfg = .sends tasks →
      buildSends messages.reverse false = tasks ∧ tasks ≠ [] := by
    intro messages attempts cfg tasks h
    unfold handleRetries at h
    by_cases hge : attempts ≥ resolveMaxAttempts cfg
    · simp [hge] at h
    · simp only [hge, if_false] at h
      cases hbs : buildSends messages.reverse false with
      | nil => rw [hbs] at h; simp at h
      | cons t rest =>
          rw [hbs] at h
          simp only [RetryDecision.sends.injEq] at h
          exact ⟨h, h ▸ (by simp)⟩
  refine ⟨?_, ?_, ?_⟩
  · intro messages attempts cfg hlt hne
    have hids := buildSends_ids messages.reverse false
    have hnotge : ¬ attempts ≥ resolveMaxAttempts cfg := Nat.not_le.mpr hlt
    cases hbs : buildSends messages.reverse false with
    | nil => exact absurd (by simpa [windowErrorIds, hbs] using hids.symm) hne
    | cons t rest =>
        obtain ⟨hmark, hrest⟩ := buildSends_false_marks messages.reverse t rest hbs
        refine ⟨t :: rest, ?_, ?_, ?_, ?_, ?_⟩
        · simp [handleRetries, hnotge, hbs]
        · rw [← hbs]
          exact hids
        · have hlen := congrArg List.length hids
          simpa [windowErrorIds, hbs] using hlen
        · simp [hmark]
        · simpa using hrest
  · intro messages tgt bump resp ops h
    simp [patchNode, h]
  · intro messages attempts cfg tasks resp hsends hok
    obtain ⟨hbs, hne⟩ := hsendsOf messages attempts cfg tasks hsends
    cases tasks with
    | nil => exact absurd rfl hne
    | cons t rest =>
        obtain ⟨hmark, hrest⟩ := buildSends_false_marks messages.reverse t rest hbs
        obtain ⟨ops, hops⟩ := hok t (List.mem_cons_self t rest)
        have hhead : (patchNode messages t.toolCallId t.bumpAttempt (resp t)).attemptsDelta = 1 := by
          simp [patchNode, hops, hmark]
        have hzero : ∀ u ∈ rest,
            (patchNode messages u.toolCallId u.bumpAttempt (resp u)).attemptsDelta = 0 := by
          intro u hu
          obtain ⟨ops', hops'⟩ := hok u (List.mem_cons_of_mem t hu)
          simp [patchNode, hops', hrest u hu]
        have hsum :
            (rest.map
              (fun u =>
                (patchNode messages u.toolCallId u.bumpAttempt (resp u)).attemptsDelta)).sum = 0 := by
          refine List.sum_eq_zero ?_
          intro x hx
          obtain ⟨u, hu, rfl⟩ := List.mem_map.mp hx
          exact hzero u hu
        simp [hhead, hsum]

/-- Witness for the amended C7: two failing calls in one round spawn two
tasks, only the first-scanned is marked, and with completing corrections
the round adds exactly one attempt. -/
theorem C7_amended_witness :
    (∃ tasks,
      handleRetries
        [Msg.ai "c" [⟨"call-1", "User", .obj []⟩, ⟨"call-2", "User", .obj []⟩] (some "m"),
         Msg.toolRes "bad1" "call-1" "User" "error" true none,
         Msg.toolRes "bad2" "call-2" "User" "error" true none] 1 none = .sends tasks ∧
      tasks.map SendPatch.toolCallId =
        windowErrorIds
          [Msg.ai "c" [⟨"call-1", "User", .obj []⟩, ⟨"call-2", "User", .obj []⟩] (some "m"),
           Msg.toolRes "bad1" "call-1" "User" "error" true none,
           Msg.toolRes "bad2" "call-2" "User" "error" true none] ∧
      tasks.length =
        (windowErrorIds
          [Msg.ai "c" [⟨"call-1", "User", .obj []⟩, ⟨"call-2", "User", .obj []⟩] (some "m"),
           Msg.toolRes "bad1" "call-1" "User" "error" true none,
           Msg.toolRes "bad2" "call-2" "User" "error" true none]).length ∧
      tasks.head?.map SendPatch.bumpAttempt = some true ∧
      (∀ t ∈ tasks.tail, t.bumpAttempt = false)) ∧
    patchNode [] "call-1" true [] = ⟨1, []⟩ :=
  ⟨C7_amended.1
      [Msg.ai "c" [⟨"call-1", "User", .obj []⟩, ⟨"call-2", "User", .obj []⟩] (some "m"),
       Msg.toolRes "bad1" "call-1" "User" "error" true none,
       Msg.toolRes "bad2" "call-2" "User" "error" true none] 1 none (by decide)
      (by decide),
   C7_amended.2.1 [] "call-1" true [] [] rfl⟩

/-! ## Claim C1 — the correction task drops its computed fix -/

/-- The history of scenario C: one extraction round whose single call fails
schema validation (`age = -5`). -/
def C1msgs : List Msg :=
  [Msg.human "Extract the user info" none,
   Msg.ai "" [⟨"call-1", "User", .obj [("name", .str "Alice"), ("age", .num (-5))]⟩]
     (some "msg-1"),
   Msg.toolRes "Error: age must be nonnegative" "call-1" "User" "error" true none]

/-- The correction response: a `PatchFunctionErrors` call with a valid
edit replacing the age. -/
def C1resp : List ToolCallM :=
  [⟨"p1", "PatchFunctionErrors",
    .obj [("json_doc_id", .str "call-1"), ("planned_edits", .str "fix the age"),
      ("patches", .arr [.obj [("op", .str "replace"), ("path", .str "/age"),
        ("value", .num 30)]])]⟩]

/-- The corrected arguments the edit produces. -/
def C1fixed : Json := .obj [("name", .str "Alice"), ("age", .num 30)]

/-- The registered schema of the scenario: `age` must be nonnegative
(schemas are caller-supplied inputs of the engine). -/
def C1schema : SchemaM :=
  ⟨fun j =>
    match getAttr j "age" with
    | some (.num n) => if 0 ≤ n then .ok j else .error "age must be nonnegative"
    | _ => .error "age required"⟩

/-- C1, evaluated at the failing input: the `patch` node *computes* the
corrected call — the collected message operations contain exactly the
`update_tool_call` with the patched arguments, which the unit-tested
`applyMessageOps` would apply, after which the schema accepts the call —
but the node's returned state update carries only the attempt bump and no
message change, so the reduced history still holds `age = -5` and the
following `validate` step, whose last message is the old error result,
throws instead of producing a validated response.  The corrected call never
replaces the failing one: the computed operations are dropped
(extractor.ts:647-652). -/
theorem C1_patch_discards_fix :
    patchMessageOps C1msgs "call-1" C1resp =
      .ok [MessageOpM.updateToolCall ⟨"call-1", "User", C1fixed⟩] ∧
    patchNode C1msgs "call-1" true C1resp = ⟨1, []⟩ ∧
    messagesReduce C1msgs (patchNode C1msgs "call-1" true C1resp).messagesAppend = C1msgs ∧
    vnInvoke [("User", C1schema)] (fun e _ _ => e) C1msgs =
      .error "Last message is not an AIMessage" ∧
    applyMessageOps C1msgs [MessageOpM.updateToolCall ⟨"call-1", "User", C1fixed⟩] =
      [Msg.human "Extract the user info" none,
       Msg.ai "" [⟨"call-1", "User", C1fixed⟩] (some "msg-1"),
       Msg.toolRes "Error: age must be nonnegative" "call-1" "User" "error" true none] ∧
    C1schema.parse C1fixed = .ok C1fixed ∧
    C1schema.parse (.obj [("name", .str "Alice"), ("age", .num (-5))]) =
      .error "age must be nonnegative" :=
  ⟨rfl, rfl, rfl, rfl, rfl, rfl, rfl⟩

/-! ## Claim C3 — the `test` edit -/

/-- Counterexample to C3 as stated: with `D = {}`, `p = "/a/b"`, `v = 1`
the value at `p` in `D` is absent, hence not equal to `v`, so the claim
requires an error naming the expected and actual values; but the walk to
the parent of `p` reads a property of `undefined` and the engine throws a
`TypeError` — an error carrying no expected/actual values at all. -/
theorem C3_counterexample :
    applyJsonPatches (.obj []) [mkTest "/a/b" (.num 1)] = .error .typeError ∧
    JsErr.typeError ≠ JsErr.testFailed "1" "undefined" ∧
    testActualE (some (.obj [])) (splitPath "/a/b") = .error .typeError :=
  ⟨rfl, by decide, rfl⟩

/-- C3 as amended: when the walk to `p` resolves (no intermediate read
from `undefined` or `null`), applying the single edit
`{op: test, path: p, value: v}` is a no-op returning the document itself
exactly when the serialized (`JSON.stringify`) forms of the value at `p`
and of `v` agree, and otherwise throws the comparison error naming the
rendered expected and actual values (an absent actual rendering as
`undefined`); when the walk does not resolve a `TypeError` is thrown
instead.  A `test` that fails mid-list aborts the whole call, the test
being judged against the document with all earlier edits already applied:
applying a concatenated edit list is applying the first part and then the
second on its result, with no rollback. -/
theorem C3_test_amended :
    (∀ (D : Json) (p : String) (v : Json) (act : Option Json),
      testActualE (some D) (splitPath p) = .ok act →
      (stringifyOpt act = some (encodeJson v) →
        applyJsonPatches D [mkTest p v] = .ok D) ∧
      (stringifyOpt act ≠ some (encodeJson v) →
        applyJsonPatches D [mkTest p v] =
          .error (.testFailed (encodeJson v) ((stringifyOpt act).getD "undefined")))) ∧
    (∀ (D D' : Json) (ops₁ ops₂ : List Json),
      applyJsonPatches D ops₁ = .ok D' →
      applyJsonPatches D (ops₁ ++ ops₂) = applyJsonPatches D' ops₂) := by
  constructor
  · intro D p v act hact
    have hone : applyJsonPatches D [mkTest p v] = testOp D (splitPath p) (some v) := by
      simp [applyJsonPatches, applyOne, mkTest, getAttr, lookupField, mainSwitch,
        requirePathStr]
      rfl
    have hto : testOp D (splitPath p) (some v) =
        if stringifyOpt act = some (encodeJson v) then Except.ok D
        else .error (.testFailed (encodeJson v) ((stringifyOpt act).getD "undefined")) := by
      simp only [testOp, hact]
      rfl
    constructor
    · intro heq
      rw [hone, hto, if_pos heq]
    · intro hne
      rw [hone, hto, if_neg hne]
  · intro D D' ops₁ ops₂ h
    unfold applyJsonPatches at h ⊢
    rw [List.foldlM_append, h]
    rfl

/-- Witness for the amended C3: a passing test on a concrete document, and
sequential application through a concatenation. -/
theorem C3_test_amended_witness :
    applyJsonPatches (.obj [("name", .str "Alice")]) [mkTest "/name" (.str "Alice")] =
      .ok (.obj [("name", .str "Alice")]) ∧
    applyJsonPatches (.obj [("a", .num 1)]) ([mkAdd "/b" (.num 2)] ++ [mkTest "/a" (.num 1)]) =
      applyJsonPatches (.obj [("a", .num 1), ("b", .num 2)]) [mkTest "/a" (.num 1)] :=
  ⟨(C3_test_amended.1 (.obj [("name", .str "Alice")]) "/name" (.str "Alice")
      (some (.str "Alice")) rfl).1 rfl,
   C3_test_amended.2 (.obj [("a", .num 1)]) (.obj [("a", .num 1), ("b", .num 2)])
      [mkAdd "/b" (.num 2)] [mkTest "/a" (.num 1)] rfl⟩

/-! ## Claim C5 — the add/remove round trip -/

/-- Setting a key to the value it already holds changes nothing. -/
theorem setFieldList_of_lookup {fs : List (String × Json)} {k : String} {v : Json}
    (h : lookupField fs k = some v) : setFieldList fs k v = fs := by
  induction fs with
  | nil => simp [lookupField] at h
  | cons kv rest ih =>
      obtain ⟨k', v'⟩ := kv
      by_cases hk : k' = k
      · subst hk
        simp [lookupField] at h
        simp [setFieldList, h]
      · simp [lookupField, hk] at h
        simp [setFieldList, hk, ih h]

/-- Two successive sets of the same key collapse to the last. -/
theorem setFieldList_setFieldList (fs : List (String × Json)) (k : String) (a b : Json) :
    setFieldList (setFieldList fs k a) k b = setFieldList fs k b := by
  induction fs with
  | nil => simp [setFieldList]
  | cons kv rest ih =>
      obtain ⟨k', v'⟩ := kv
      by_cases hk : k' = k
      · simp [setFieldList, hk]
      · simp [setFieldList, hk, ih]

/-- A set key reads back. -/
theorem lookupField_setFieldList (fs : List (String × Json)) (k : String) (v : Json) :
    lookupField (setFieldList fs k v) k = some v := by
  induction fs with
  | nil => simp [setFieldList, lookupField]
  | cons kv rest ih =>
      obtain ⟨k', v'⟩ := kv
      by_cases hk : k' = k
      · simp [setFieldList, hk, lookupField]
      · simp [setFieldList, hk, lookupField, ih]

/-- Deleting a freshly added absent key restores the field list. -/
theorem removeField_setFieldList {fs : List (String × Json)} {k : String} (v : Json)
    (h : lookupField fs k = none) : removeField (setFieldList fs k v) k = fs := by
  induction fs with
  | nil => simp [setFieldList, removeField]
  | cons kv rest ih =>
      obtain ⟨k', v'⟩ := kv
      by_cases hk : k' = k
      · subst hk
        simp [lookupField] at h
      · simp [lookupField, hk] at h
        simp [setFieldList, hk, removeField, ih h]

/-- Setting an element to the value it already holds changes nothing. -/
theorem list_set_of_get? {α : Type} {l : List α} {i : Nat} {a : α}
    (h : l.get? i = some a) : l.set i a = l := by
  induction l generalizing i with
  | nil => simp at h
  | cons x rest ih =>
      cases i with
      | zero =>
          rw [List.get?_cons_zero] at h
          simp at h
          simp [h]
      | succ j =>
          rw [List.get?_cons_succ] at h
          simp [ih h]

/-- A set element reads back. -/
theorem list_get?_set {α : Type} {l : List α} {i : Nat}
    (hi : i < l.length) (b : α) : (l.set i b).get? i = some b := by
  induction l generalizing i with
  | nil => simp at hi
  | cons x rest ih =>
      cases i with
      | zero => simp
      | succ j => simpa using ih (by simpa using hi)

/-- The append marker is not a canonical index. -/
theorem canonIdx_ne_dash {lk : String} {i : Nat} (h : canonIdx lk = some i) : lk ≠ "-" := by
  intro hcon
  subst hcon
  simp [canonIdx, isDigitCh] at h

/-- A canonical index is all digits with a digit head. -/
theorem canonIdx_toList {lk : String} {i : Nat} (h : canonIdx lk = some i) :
    ∃ c cs, lk.toList = c :: cs ∧ (c :: cs).all isDigitCh ∧
      (c :: cs).foldl (fun a d => a * 10 + (d.toNat - 48)) 0 = i := by
  unfold canonIdx at h
  cases hls : lk.toList with
  | nil => rw [hls] at h; simp at h
  | cons c cs =>
      rw [hls] at h
      by_cases hall : (c :: cs).all isDigitCh
      · by_cases hz : c = '0' ∧ cs ≠ []
        · simp [hall, hz] at h
        · simp [hall, hz] at h
          exact ⟨c, cs, rfl, hall, by simpa using h⟩
      · simp [hall] at h

/-- On canonical index strings `parseInt` agrees with array index
access. -/
theorem parseIntOpt_of_canonIdx {lk : String} {i : Nat} (h : canonIdx lk = some i) :
    parseIntOpt lk = some (i : Int) := by
  obtain ⟨c, cs, hls, hall, hfold⟩ := canonIdx_toList h
  have hc : isDigitCh c = true := by
    have := List.all_eq_true.mp hall c (List.mem_cons_self c cs)
    exact this
  have hcm : ¬ c = '-' := by
    intro hcon
    subst hcon
    simp [isDigitCh] at hc
  have hcp : ¬ c = '+' := by
    intro hcon
    subst hcon
    simp [isDigitCh] at hc
  have htake : (c :: cs).takeWhile isDigitCh = c :: cs :=
    List.takeWhile_eq_self_iff.mpr (List.all_eq_true.mp hall)
  have hstep : parseIntOpt lk = (digitsCore (c :: cs)).map (fun n => (n : Int)) := by
    unfold parseIntOpt
    rw [hls]
    simp [hcm, hcp]
  rw [hstep]
  unfold digitsCore
  rw [htake]
  show some (((c :: cs).foldl (fun a d => a * 10 + (d.toNat - 48)) 0 : Nat) : Int) =
    some (i : Int)
  rw [show (c :: cs).foldl (fun a d => a * 10 + (d.toNat - 48)) 0 = i from by
    simpa using hfold]

/-- Removing the just-appended last element restores the list. -/
theorem spliceRemove_append_last (l : List Json) (v : Json) :
    spliceRemove (l ++ [v]) (l.length : Int) = l := by
  unfold spliceRemove
  rw [if_neg (by simp)]
  have h2 : ¬ ((l.length : Int) < 0) := by simp
  have hdrop : (l ++ [v]).drop (l.length + 1) = [] := by
    rw [show l.length + 1 = (l ++ [v]).length from by simp]
    exact List.drop_length _
  simp [if_neg h2, List.take_left, hdrop]

/-- The round-trip core: along a strictly resolving parent path ending in
an absent object key or an exact-length array index, the add walk
produces a document from which the remove walk restores the original. -/
theorem addAt_removeAt_roundtrip :
    ∀ (init : List String) (D : Json) (lk : String) (v : Json),
      ((∃ fs, resolveStrict D init = some (.obj fs) ∧ lookupField fs lk = none) ∨
       (∃ l, resolveStrict D init = some (.arr l) ∧ canonIdx lk = some l.length)) →
      ∃ D₁, addAt D (init ++ [lk]) (some v) = .ok D₁ ∧ removeAt D₁ (init ++ [lk]) = .ok D
  | [], D, lk, v, hyp => by
      rcases hyp with ⟨fs, hres, habs⟩ | ⟨l, hres, hidx⟩
      · obtain rfl : D = .obj fs := by simpa [resolveStrict] using hres
        refine ⟨.obj (setFieldList fs lk v), ?_, ?_⟩
        · simp [addAt, addFinal, writeHere]
        · simp [removeAt, jsTruthy, removeHere, removeField_setFieldList v habs]
      · obtain rfl : D = .arr l := by simpa [resolveStrict] using hres
        have hne : lk ≠ "-" := canonIdx_ne_dash hidx
        have hp := parseIntOpt_of_canonIdx hidx
        refine ⟨.arr (l ++ [v]), ?_, ?_⟩
        · simp [addAt, addFinal, hne, writeHere, hidx, arrSet]
        · simp [removeAt, jsTruthy, removeHere, hp, spliceRemove_append_last]
  | k :: init', D, lk, v, hyp => by
      obtain ⟨next, rest, hnr⟩ : ∃ next rest, init' ++ [lk] = next :: rest := by
        cases init' with
        | nil => exact ⟨lk, [], rfl⟩
        | cons a b => exact ⟨a, b ++ [lk], rfl⟩
      cases D with
      | obj fs =>
          cases hlk : lookupField fs k with
          | none =>
              rcases hyp with ⟨fs', hres, _⟩ | ⟨l', hres, _⟩ <;>
                simp [resolveStrict, hlk] at hres
          | some child =>
              have hyp' :
                  (∃ fs', resolveStrict child init' = some (.obj fs') ∧
                    lookupField fs' lk = none) ∨
                  (∃ l', resolveStrict child init' = some (.arr l') ∧
                    canonIdx lk = some l'.length) := by
                rcases hyp with ⟨fs', hres, habs⟩ | ⟨l', hres, hidx⟩
                · exact Or.inl ⟨fs', by simpa [resolveStrict, hlk] using hres, habs⟩
                · exact Or.inr ⟨l', by simpa [resolveStrict, hlk] using hres, hidx⟩
              obtain ⟨c₁, hadd, hrem⟩ := addAt_removeAt_roundtrip init' child lk v hyp'
              refine ⟨.obj (setFieldList fs k c₁), ?_, ?_⟩
              · show addAt (.obj fs) (k :: (init' ++ [lk])) (some v) = _
                rw [hnr]
                simp [addAt, hlk, ← hnr, hadd, Except.map]
              · show removeAt (.obj (setFieldList fs k c₁)) (k :: (init' ++ [lk])) = _
                rw [hnr]
                simp [removeAt, jsTruthy, lookupField_setFieldList, ← hnr, hrem,
                  Except.map, setFieldList_setFieldList, setFieldList_of_lookup hlk]
      | arr l =>
          cases hci : canonIdx k with
          | none =>
              rcases hyp with ⟨fs', hres, _⟩ | ⟨l', hres, _⟩ <;>
                simp [resolveStrict, hci] at hres
          | some i =>
              cases hget : l.get? i with
              | none =>
                  have hget' : l[i]? = none := by
                    simpa [List.get?_eq_getElem?] using hget
                  rcases hyp with ⟨fs', hres, _⟩ | ⟨l', hres, _⟩ <;>
                    simp [resolveStrict, hci, hget'] at hres
              | some child =>
                  have hget' : l[i]? = some child := by
                    simpa [List.get?_eq_getElem?] using hget
                  have hyp' :
                      (∃ fs', resolveStrict child init' = some (.obj fs') ∧
                        lookupField fs' lk = none) ∨
                      (∃ l', resolveStrict child init' = some (.arr l') ∧
                        canonIdx lk = some l'.length) := by
                    rcases hyp with ⟨fs', hres, habs⟩ | ⟨l', hres, hidx⟩
                    · exact Or.inl ⟨fs', by simpa [resolveStrict, hci, hget'] using hres, habs⟩
                    · exact Or.inr ⟨l', by simpa [resolveStrict, hci, hget'] using hres, hidx⟩
                  obtain ⟨c₁, hadd, hrem⟩ := addAt_removeAt_roundtrip init' child lk v hyp'
                  have hlt : i < l.length := by
                    by_contra hge
                    rw [List.get?_eq_none.mpr (Nat.le_of_not_lt hge)] at hget
                    exact Option.noConfusion hget
                  refine ⟨.arr (l.set i c₁), ?_, ?_⟩
                  · show addAt (.arr l) (k :: (init' ++ [lk])) (some v) = _
                    rw [hnr]
                    simp [addAt, hci, hget', ← hnr, hadd, Except.map]
                  · show removeAt (.arr (l.set i c₁)) (k :: (init' ++ [lk])) = _
                    rw [hnr]
                    have hset : (l.set i c₁)[i]? = some c₁ := by
                      simpa [List.get?_eq_getElem?] using list_get?_set (l := l) (i := i) (by simpa using hlt) c₁
                    simp [removeAt, jsTruthy, hci, hset,
                      ← hnr, hrem, Except.map, List.set_set, list_set_of_get? hget]
      | null =>
          rcases hyp with ⟨fs', hres, _⟩ | ⟨l', hres, _⟩ <;> simp [resolveStrict] at hres
      | bool b =>
          rcases hyp with ⟨fs', hres, _⟩ | ⟨l', hres, _⟩ <;> simp [resolveStrict] at hres
      | num n =>
          rcases hyp with ⟨fs', hres, _⟩ | ⟨l', hres, _⟩ <;> simp [resolveStrict] at hres
      | str s =>
          rcases hyp with ⟨fs', hres, _⟩ | ⟨l', hres, _⟩ <;> simp [resolveStrict] at hres

/-- Binding a successful `Except` computation applies the continuation. -/
theorem exceptOkBind {α β ε : Type} (a : α) (f : α → Except ε β) :
    (Except.ok a : Except ε α) >>= f = f a := rfl

/-- An `add` edit whose path does not end in the append marker runs the
plain add walk. -/
theorem applyOne_mkAdd (D : Json) (p : String) (v : Json)
    (h : endsWithSlashDash p = false) :
    applyOne D (mkAdd p v) = addAt D (splitPath p) (some v) := by
  simp [applyOne, mkAdd, getAttr, lookupField, requirePathStr, mainSwitch,
    exceptOkBind, h]

/-- A `remove` edit runs the remove walk. -/
theorem applyOne_mkRemove (D : Json) (p : String) :
    applyOne D (mkRemove p) = removeAt D (splitPath p) := by
  simp [applyOne, mkRemove, getAttr, lookupField, requirePathStr, mainSwitch,
    exceptOkBind]

/-- Counterexample to C5 as stated: with `D = \x7b\x7d`, `p = "/a/b"` and
`v = 1`, the path `p` does not previously exist in `D` (the strict walk
dies at `a`), yet add-then-remove returns `\x7ba: \x7b\x7d\x7d`, not `D`:
the add walk creates the missing intermediate object `a` and the remove
walk deletes only the final key `b`, leaving the intermediate behind. -/
theorem C5_counterexample :
    resolveStrict (Json.obj []) (splitPath "/a/b") = none ∧
    applyJsonPatches (Json.obj [])
      [mkAdd "/a/b" (Json.num 1), mkRemove "/a/b"] =
      Except.ok (Json.obj [("a", Json.obj [])]) ∧
    Json.obj [("a", Json.obj [])] ≠ Json.obj [] := by
  refine ⟨rfl, rfl, ?_⟩
  intro h
  simp at h

/-- C5 as amended: the round trip `add p v` then `remove p` restores `D`
when `p` does not merely "not previously exist" but its *parent* path
strictly resolves in `D` (object fields and in-range canonical array
indices only) to a container the last segment is genuinely new for: an
object lacking that key, or an array for which the segment is the
canonical next index; and `p` does not end in the append marker.  Then no
intermediate containers are fabricated and the remove walk undoes the add
exactly. -/
theorem C5_roundtrip_amended (D v : Json) (p : String) (init : List String)
    (lk : String)
    (hsplit : splitPath p = init ++ [lk])
    (hdash : endsWithSlashDash p = false)
    (hyp : (∃ fs, resolveStrict D init = some (.obj fs) ∧ lookupField fs lk = none) ∨
           (∃ l, resolveStrict D init = some (.arr l) ∧ canonIdx lk = some l.length)) :
    applyJsonPatches D [mkAdd p v, mkRemove p] = .ok D := by
  obtain ⟨D₁, hadd, hrem⟩ := addAt_removeAt_roundtrip init D lk v hyp
  unfold applyJsonPatches
  rw [List.foldlM_cons, applyOne_mkAdd D p v hdash, hsplit, hadd]
  show List.foldlM applyOne D₁ [mkRemove p] = .ok D
  rw [List.foldlM_cons, applyOne_mkRemove, hsplit, hrem]
  rfl

/-- Witness for the amended C5: adding `\x7bop: add, path: /y, value: 2\x7d`
to `\x7bx: 1\x7d` and then removing `/y` returns the original document. -/
theorem C5_roundtrip_amended_witness :
    applyJsonPatches (Json.obj [("x", Json.num 1)])
      [mkAdd "/y" (Json.num 2), mkRemove "/y"] =
      Except.ok (Json.obj [("x", Json.num 1)]) :=
  C5_roundtrip_amended (Json.obj [("x", Json.num 1)]) (Json.num 2) "/y" [] "y"
    rfl rfl (Or.inl ⟨[("x", Json.num 1)], rfl, rfl⟩)

/-! ## Claim C6 — the string-concatenation edge case -/

/-- A strictly resolving walk is also resolved, to the same value, by the
`parseInt`-indexing `resolvePointer` walk of the pre-check. -/
theorem resolveStrict_resolveSteps :
    ∀ (parts : List String) (D j : Json),
      resolveStrict D parts = some j → resolveSteps (some D) parts = some j
  | [], D, j, h => by simpa [resolveStrict, resolveSteps] using h
  | k :: rest, D, j, h => by
      cases D with
      | obj fs =>
          cases hlk : lookupField fs k with
          | none => simp [resolveStrict, hlk] at h
          | some child =>
              have h' : resolveStrict child rest = some j := by
                simpa [resolveStrict, hlk] using h
              simpa [resolveSteps, hlk] using resolveStrict_resolveSteps rest child j h'
      | arr l =>
          cases hci : canonIdx k with
          | none => simp [resolveStrict, hci] at h
          | some i =>
              cases hget : l.get? i with
              | none =>
                  have hget' : l[i]? = none := by
                    simpa [List.get?_eq_getElem?] using hget
                  simp [resolveStrict, hci, hget'] at h
              | some child =>
                  have hget' : l[i]? = some child := by
                    simpa [List.get?_eq_getElem?] using hget
                  have h' : resolveStrict child rest = some j := by
                    simpa [resolveStrict, hci, hget'] using h
                  have hp : parseIntOpt k = some (i : Int) := parseIntOpt_of_canonIdx hci
                  have hnn : ¬ ((i : Int) < 0) := not_lt.mpr (Int.natCast_nonneg i)
                  simpa [resolveSteps, hp, hnn, Int.toNat_natCast, hget'] using
                    resolveStrict_resolveSteps rest child j h'
      | null => simp [resolveStrict] at h
      | bool b => simp [resolveStrict] at h
      | num n => simp [resolveStrict] at h
      | str s => simp [resolveStrict] at h

/-- Along a nonempty strictly resolving segment list, the unguarded
assignment walk succeeds and computes exactly the strict functional
update. -/
theorem writeAtParts_of_resolveStrict :
    ∀ (parts : List String) (D j w : Json), parts ≠ [] →
      resolveStrict D parts = some j →
      ∃ D₁, updateStrict D parts w = some D₁ ∧
        writeAtParts D parts (some w) = .ok D₁
  | [], _, _, _, hne, _ => absurd rfl hne
  | [lk], D, j, w, _, h => by
      cases D with
      | obj fs =>
          cases hlk : lookupField fs lk with
          | none => simp [resolveStrict, hlk] at h
          | some child =>
              exact ⟨.obj (setFieldList fs lk w),
                by simp [updateStrict, hlk], by simp [writeAtParts, writeHere]⟩
      | arr l =>
          cases hci : canonIdx lk with
          | none => simp [resolveStrict, hci] at h
          | some i =>
              cases hget : l.get? i with
              | none =>
                  have hget' : l[i]? = none := by
                    simpa [List.get?_eq_getElem?] using hget
                  simp [resolveStrict, hci, hget'] at h
              | some child =>
                  have hget' : l[i]? = some child := by
                    simpa [List.get?_eq_getElem?] using hget
                  have hlt : i < l.length := by
                    by_contra hge
                    rw [List.get?_eq_none.mpr (Nat.le_of_not_lt hge)] at hget
                    exact Option.noConfusion hget
                  exact ⟨.arr (l.set i w),
                    by simp [updateStrict, hci, hget'],
                    by simp [writeAtParts, writeHere, hci, arrSet, hlt]⟩
      | null => simp [resolveStrict] at h
      | bool b => simp [resolveStrict] at h
      | num n => simp [resolveStrict] at h
      | str s => simp [resolveStrict] at h
  | k :: k2 :: rest, D, j, w, _, h => by
      cases D with
      | obj fs =>
          cases hlk : lookupField fs k with
          | none => simp [resolveStrict, hlk] at h
          | some child =>
              have h' : resolveStrict child (k2 :: rest) = some j := by
                simpa [resolveStrict, hlk] using h
              obtain ⟨c₁, hupd, hwr⟩ :=
                writeAtParts_of_resolveStrict (k2 :: rest) child j w (by simp) h'
              exact ⟨.obj (setFieldList fs k c₁),
                by simp [updateStrict, hlk, hupd],
                by simp [writeAtParts, hlk, hwr, Except.map]⟩
      | arr l =>
          cases hci : canonIdx k with
          | none => simp [resolveStrict, hci] at h
          | some i =>
              cases hget : l.get? i with
              | none =>
                  have hget' : l[i]? = none := by
                    simpa [List.get?_eq_getElem?] using hget
                  simp [resolveStrict, hci, hget'] at h
              | some child =>
                  have hget' : l[i]? = some child := by
                    simpa [List.get?_eq_getElem?] using hget
                  have h' : resolveStrict child (k2 :: rest) = some j := by
                    simpa [resolveStrict, hci, hget'] using h
                  obtain ⟨c₁, hupd, hwr⟩ :=
                    writeAtParts_of_resolveStrict (k2 :: rest) child j w (by simp) h'
                  exact ⟨.arr (l.set i c₁),
                    by simp [updateStrict, hci, hget', hupd],
                    by simp [writeAtParts, hci, hget', hwr, Except.map]⟩
      | null => simp [resolveStrict] at h
      | bool b => simp [resolveStrict] at h
      | num n => simp [resolveStrict] at h
      | str s => simp [resolveStrict] at h

/-- When the pre-check walk of an append-marker `add` reaches a string, the
op reduces to the concatenating replacement of the source. -/
theorem applyOne_mkAdd_dashStr (D v : Json) (p s : String)
    (hdash : endsWithSlashDash p = true)
    (hres : resolvePointer D (dropLastTwo p) = some (Json.str s)) :
    applyOne D (mkAdd p v) =
      (match splitPath (dropLastTwo p) with
        | [] => Except.ok (Json.str (s ++ jsToString v))
        | parts => writeAtParts D parts (some (Json.str (s ++ jsToString v)))) := by
  simp [applyOne, mkAdd, getAttr, lookupField, requirePathStr, exceptOkBind,
    hdash, hres, jsToStringOpt]

/-- Counterexample to C6 as stated: the op *can* fail although the
container addressed by the path prefix is a string.  With
`D = \x7ba: [\x7bc: "hi"\x7d]\x7d` and the path whose segments are `a`,
`0x`, `c` followed by the append marker, the pre-check walk indexes the
array with `parseInt("0x", 10) = 0` and reaches the string `"hi"`, but the
replacement walk that follows treats `0x` as a non-index array key and
throws a `TypeError`: the two walks disagree on array segments, and the
claim's "does not fail" is false. -/
theorem C6_counterexample :
    endsWithSlashDash "/a/0x/c/-" = true ∧
    resolvePointer (Json.obj [("a", Json.arr [Json.obj [("c", Json.str "hi")]])])
      (dropLastTwo "/a/0x/c/-") = some (Json.str "hi") ∧
    applyJsonPatches (Json.obj [("a", Json.arr [Json.obj [("c", Json.str "hi")]])])
      [mkAdd "/a/0x/c/-" (Json.str "!")] = .error .typeError :=
  ⟨rfl, rfl, rfl⟩

/-- C6 as amended: when the path-prefix container is addressed *strictly*
(object fields and canonical in-range array indices only, the segment
language on which the pre-check walk and the replacement walk agree) and
holds a string `s`, an append-marker `add` does not fail and replaces that
string with `s` concatenated with the string form of the edit's value:
the result is exactly the strict functional update of the document at the
prefix path with the concatenated string. -/
theorem C6_concat_amended (D v : Json) (p s : String)
    (hdash : endsWithSlashDash p = true)
    (hres : resolveStrict D (splitPath (dropLastTwo p)) = some (Json.str s)) :
    ∃ D₁, updateStrict D (splitPath (dropLastTwo p))
        (Json.str (s ++ jsToString v)) = some D₁ ∧
      applyJsonPatches D [mkAdd p v] = .ok D₁ := by
  have hrp : resolvePointer D (dropLastTwo p) = some (Json.str s) :=
    resolveStrict_resolveSteps _ D _ hres
  have hred := applyOne_mkAdd_dashStr D v p s hdash hrp
  cases hps : splitPath (dropLastTwo p) with
  | nil =>
      rw [hps] at hres hred
      obtain rfl : D = .str s := by simpa [resolveStrict] using hres
      refine ⟨.str (s ++ jsToString v), rfl, ?_⟩
      unfold applyJsonPatches
      rw [List.foldlM_cons, hred]
      rfl
  | cons k rest =>
      rw [hps] at hres hred
      obtain ⟨D₁, hupd, hwr⟩ :=
        writeAtParts_of_resolveStrict (k :: rest) D _
          (Json.str (s ++ jsToString v)) (by simp) hres
      refine ⟨D₁, hupd, ?_⟩
      unfold applyJsonPatches
      rw [List.foldlM_cons, hred]
      show (writeAtParts D (k :: rest) (some (Json.str (s ++ jsToString v))) >>=
        fun init => List.foldlM applyOne init []) = Except.ok D₁
      rw [hwr]
      rfl

/-- Witness for the amended C6: appending the string form of `"!"` through
the path with segment `a` followed by the append marker, on
`\x7ba: "hi"\x7d`, succeeds and performs the strict update at `a` with the
concatenation. -/
theorem C6_concat_amended_witness :
    ∃ D₁, updateStrict (Json.obj [("a", Json.str "hi")])
        (splitPath (dropLastTwo "/a/-"))
        (Json.str ("hi" ++ jsToString (Json.str "!"))) = some D₁ ∧
      applyJsonPatches (Json.obj [("a", Json.str "hi")])
        [mkAdd "/a/-" (Json.str "!")] = .ok D₁ :=
  C6_concat_amended (Json.obj [("a", Json.str "hi")]) (Json.str "!") "/a/-" "hi"
    rfl rfl

/-! ## Claim C4 — the normalizer `ensurePatches`

The claim quantifies over every stringified edit list and every prose
embedding, so settling it needs the parser of the model to be *complete*
on the output of the encoder.  The development below proves that
completeness — `parseJson (encodeJson j) = some j` for every `j` of the
modelled fragment — together with an exact description of the greedy
bracket fallback, and derives the amended normalizer behaviour. -/

/-- Building a string from a character list is inverse to reading the list
back. -/
theorem toList_mk (l : List Char) : (String.mk l).toList = l := rfl

/-- Reading the characters of a string and rebuilding it is the
identity. -/
theorem mk_toList (s : String) : String.mk s.toList = s := by
  cases s
  rfl

/-- The characters of a concatenation are the concatenated characters. -/
theorem toList_append (a b : String) : (a ++ b).toList = a.toList ++ b.toList :=
  String.data_append a b

/-- The decimal digit list of a natural number is nonempty and consists of
digit characters. -/
theorem natDigitsF_digits :
    ∀ (fuel n : Nat), n < fuel →
      natDigitsF fuel n ≠ [] ∧ (natDigitsF fuel n).all isDigitCh = true
  | 0, n, h => absurd h (Nat.not_lt_zero n)
  | fuel + 1, n, h => by
      by_cases hn : n < 10
      · unfold natDigitsF
        rw [if_pos hn]
        refine ⟨by simp, ?_⟩
        interval_cases n <;> decide
      · have hpos : 0 < n := by omega
        have hdiv : n / 10 < fuel :=
          lt_of_lt_of_le (Nat.div_lt_self hpos (by omega)) (Nat.lt_succ_iff.mp h)
        obtain ⟨hne, hall⟩ := natDigitsF_digits fuel (n / 10) hdiv
        unfold natDigitsF
        rw [if_neg hn]
        refine ⟨by simp, ?_⟩
        rw [List.all_append]
        refine (Bool.and_eq_true _ _).mpr ⟨hall, ?_⟩
        have hm : n % 10 < 10 := Nat.mod_lt _ (by omega)
        set m := n % 10 with hmdef
        interval_cases m <;> decide

/-- Reading the decimal digits of `n` back with the digit fold recovers
`n`. -/
theorem natDigitsF_fold :
    ∀ (fuel n : Nat), n < fuel →
      (natDigitsF fuel n).foldl (fun a d => a * 10 + (d.toNat - 48)) 0 = n
  | 0, n, h => absurd h (Nat.not_lt_zero n)
  | fuel + 1, n, h => by
      by_cases hn : n < 10
      · unfold natDigitsF
        rw [if_pos hn]
        interval_cases n <;> decide
      · have hpos : 0 < n := by omega
        have hdiv : n / 10 < fuel :=
          lt_of_lt_of_le (Nat.div_lt_self hpos (by omega)) (Nat.lt_succ_iff.mp h)
        have ih := natDigitsF_fold fuel (n / 10) hdiv
        unfold natDigitsF
        rw [if_neg hn, List.foldl_append, ih]
        have hm : n % 10 < 10 := Nat.mod_lt _ (by omega)
        have hchar : (Char.ofNat (48 + n % 10)).toNat = 48 + n % 10 := by
          set m := n % 10 with hmdef
          interval_cases m <;> decide
        simp only [List.foldl_cons, List.foldl_nil]
        rw [hchar]
        omega

/-- A digit character is one of the ten digits. -/
theorem digit_char_cases (d : Char) (hd : isDigitCh d = true) :
    d = '0' ∨ d = '1' ∨ d = '2' ∨ d = '3' ∨ d = '4' ∨
    d = '5' ∨ d = '6' ∨ d = '7' ∨ d = '8' ∨ d = '9' := by
  obtain ⟨h1, h2⟩ : 48 ≤ d.toNat ∧ d.toNat ≤ 57 := by
    simpa [isDigitCh] using hd
  have hofn : Char.ofNat d.toNat = d := Char.ofNat_toNat d
  have hcase : d.toNat = 48 ∨ d.toNat = 49 ∨ d.toNat = 50 ∨ d.toNat = 51 ∨
      d.toNat = 52 ∨ d.toNat = 53 ∨ d.toNat = 54 ∨ d.toNat = 55 ∨
      d.toNat = 56 ∨ d.toNat = 57 := by omega
  rcases hcase with h|h|h|h|h|h|h|h|h|h <;> rw [h] at hofn <;> subst hofn <;> decide

/-- A digit head is not whitespace, starts none of the literal tokens, and
is not a closing bracket or brace. -/
theorem digit_head_facts (d : Char) (hd : isDigitCh d = true) :
    d ≠ 'n' ∧ d ≠ 't' ∧ d ≠ 'f' ∧ d ≠ '"' ∧ d ≠ '[' ∧ d ≠ '\x7b' ∧ d ≠ '-' ∧
    d ≠ ']' ∧ d ≠ '\x7d' ∧ ¬(d = ' ' ∨ d = '\n' ∨ d = '\t' ∨ d = '\r') := by
  rcases digit_char_cases d hd with rfl|rfl|rfl|rfl|rfl|rfl|rfl|rfl|rfl|rfl <;> decide

/-- Whitespace skipping is the identity when the head is not whitespace. -/
theorem skipWs_noop (c : Char) (cs : List Char)
    (h : ¬(c = ' ' ∨ c = '\n' ∨ c = '\t' ∨ c = '\r')) :
    skipWs (c :: cs) = c :: cs := by
  unfold skipWs
  rw [if_neg h]

/-- `takeWhile` and `dropWhile` over a concatenation whose left part
satisfies the predicate throughout and whose right part starts by failing
it. -/
theorem takeWhile_all_append (p : Char → Bool) :
    ∀ (l r : List Char), (∀ x ∈ l, p x = true) →
      (∀ c, r.head? = some c → p c = false) →
      (l ++ r).takeWhile p = l ∧ (l ++ r).dropWhile p = r
  | [], r, _, hr => by
      cases r with
      | nil => exact ⟨rfl, rfl⟩
      | cons c r' =>
          have hc := hr c rfl
          exact ⟨by simp [List.takeWhile_cons, hc], by simp [List.dropWhile_cons, hc]⟩
  | x :: l', r, hl, hr => by
      have hx : p x = true := hl x (List.mem_cons_self x l')
      obtain ⟨ht, hd⟩ := takeWhile_all_append p l' r
        (fun y hy => hl y (List.mem_cons_of_mem x hy)) hr
      exact ⟨by simp [List.takeWhile_cons, hx, ht], by simp [List.dropWhile_cons, hx, hd]⟩

/-- `parseNat` reads exactly the decimal digits of `m` when the remainder
does not begin with a digit. -/
theorem parseNat_natDigits (m : Nat) (rest : List Char)
    (hrest : ∀ c, rest.head? = some c → isDigitCh c = false) :
    parseNat (natDigits m ++ rest) = some (m, rest) := by
  obtain ⟨hne, hall⟩ := natDigitsF_digits (m + 1) m (Nat.lt_succ_self m)
  have hfold : (natDigits m).foldl (fun a d => a * 10 + (d.toNat - 48)) 0 = m :=
    natDigitsF_fold (m + 1) m (Nat.lt_succ_self m)
  obtain ⟨ht, hd⟩ := takeWhile_all_append isDigitCh (natDigits m) rest
    (fun x hx => List.all_eq_true.mp hall x hx) hrest
  unfold parseNat
  rw [ht, hd]
  cases hnd : natDigits m with
  | nil => exact absurd hnd hne
  | cons d ds =>
      rw [hnd] at hfold
      simp [hfold]

/-- Reading a closing quote ends the string body. -/
theorem parseStrBody_close (acc rest : List Char) :
    parseStrBody acc ('"' :: rest) = some (String.mk acc.reverse, rest) := by
  rw [parseStrBody.eq_def]
  simp

/-- Reading a backslash consumes the following escape character. -/
theorem parseStrBody_esc (acc : List Char) (e : Char) (tail : List Char) :
    parseStrBody acc ('\\' :: e :: tail) =
      (match unescapeCh e with
        | some u => parseStrBody (u :: acc) tail
        | none => none) := by
  rw [parseStrBody.eq_def]
  simp

/-- Reading an ordinary character accumulates it. -/
theorem parseStrBody_step (acc : List Char) (c : Char) (tail : List Char)
    (h1 : c ≠ '\\') (h2 : c ≠ '"') :
    parseStrBody acc (c :: tail) = parseStrBody (c :: acc) tail := by
  rw [parseStrBody.eq_def]
  simp [h1, h2]

/-- The string-body parser undoes the escaper, accumulating onto any
prefix. -/
theorem parseStrBody_escape :
    ∀ (cs acc rest : List Char),
      parseStrBody acc (cs.flatMap escapeCh ++ '"' :: rest) =
        some (String.mk (acc.reverse ++ cs), rest)
  | [], acc, rest => by
      rw [show ([] : List Char).flatMap escapeCh ++ '"' :: rest = '"' :: rest from rfl]
      rw [parseStrBody_close]
      simp
  | c :: cs', acc, rest => by
      rw [List.flatMap_cons, List.append_assoc]
      by_cases h1 : c = '"'
      · subst h1
        rw [show escapeCh '"' = ['\\', '"'] from rfl]
        rw [show (['\\', '"'] : List Char) ++ (cs'.flatMap escapeCh ++ '"' :: rest) =
          '\\' :: '"' :: (cs'.flatMap escapeCh ++ '"' :: rest) from rfl]
        rw [parseStrBody_esc]
        rw [show (match unescapeCh '"' with
          | some u => parseStrBody (u :: acc) (cs'.flatMap escapeCh ++ '"' :: rest)
          | none => none) =
          parseStrBody ('"' :: acc) (cs'.flatMap escapeCh ++ '"' :: rest) from by
            simp [unescapeCh]]
        rw [parseStrBody_escape cs' ('"' :: acc) rest]
        simp
      · by_cases h2 : c = '\\'
        · subst h2
          rw [show escapeCh '\\' = ['\\', '\\'] from rfl]
          rw [show (['\\', '\\'] : List Char) ++ (cs'.flatMap escapeCh ++ '"' :: rest) =
            '\\' :: '\\' :: (cs'.flatMap escapeCh ++ '"' :: rest) from rfl]
          rw [parseStrBody_esc]
          rw [show (match unescapeCh '\\' with
            | some u => parseStrBody (u :: acc) (cs'.flatMap escapeCh ++ '"' :: rest)
            | none => none) =
            parseStrBody ('\\' :: acc) (cs'.flatMap escapeCh ++ '"' :: rest) from by
              simp [unescapeCh]]
          rw [parseStrBody_escape cs' ('\\' :: acc) rest]
          simp
        · by_cases h3 : c = '\n'
          · subst h3
            rw [show escapeCh '\n' = ['\\', 'n'] from rfl]
            rw [show (['\\', 'n'] : List Char) ++ (cs'.flatMap escapeCh ++ '"' :: rest) =
              '\\' :: 'n' :: (cs'.flatMap escapeCh ++ '"' :: rest) from rfl]
            rw [parseStrBody_esc]
            rw [show (match unescapeCh 'n' with
              | some u => parseStrBody (u :: acc) (cs'.flatMap escapeCh ++ '"' :: rest)
              | none => none) =
              parseStrBody ('\n' :: acc) (cs'.flatMap escapeCh ++ '"' :: rest) from by
                simp [unescapeCh]]
            rw [parseStrBody_escape cs' ('\n' :: acc) rest]
            simp
          · by_cases h4 : c = '\t'
            · subst h4
              rw [show escapeCh '\t' = ['\\', 't'] from rfl]
              rw [show (['\\', 't'] : List Char) ++ (cs'.flatMap escapeCh ++ '"' :: rest) =
                '\\' :: 't' :: (cs'.flatMap escapeCh ++ '"' :: rest) from rfl]
              rw [parseStrBody_esc]
              rw [show (match unescapeCh 't' with
                | some u => parseStrBody (u :: acc) (cs'.flatMap escapeCh ++ '"' :: rest)
                | none => none) =
                parseStrBody ('\t' :: acc) (cs'.flatMap escapeCh ++ '"' :: rest) from by
                  simp [unescapeCh]]
              rw [parseStrBody_escape cs' ('\t' :: acc) rest]
              simp
            · by_cases h5 : c = '\r'
              · subst h5
                rw [show escapeCh '\r' = ['\\', 'r'] from rfl]
                rw [show (['\\', 'r'] : List Char) ++ (cs'.flatMap escapeCh ++ '"' :: rest) =
                  '\\' :: 'r' :: (cs'.flatMap escapeCh ++ '"' :: rest) from rfl]
                rw [parseStrBody_esc]
                rw [show (match unescapeCh 'r' with
                  | some u => parseStrBody (u :: acc) (cs'.flatMap escapeCh ++ '"' :: rest)
                  | none => none) =
                  parseStrBody ('\r' :: acc) (cs'.flatMap escapeCh ++ '"' :: rest) from by
                    simp [unescapeCh]]
                rw [parseStrBody_escape cs' ('\r' :: acc) rest]
                simp
              · rw [show escapeCh c = [c] from by
                  simp [escapeCh, h1, h2, h3, h4, h5]]
                rw [show ([c] ++ (cs'.flatMap escapeCh ++ '"' :: rest)) =
                  c :: (cs'.flatMap escapeCh ++ '"' :: rest) from rfl]
                rw [parseStrBody_step acc c _ h2 h1]
                rw [parseStrBody_escape cs' (c :: acc) rest]
                simp


mutual

/-- Fuel needed by `parseValue` for one encoded value: one unit for the
level plus the fuel of the content. -/
def jcost : Json → Nat
  | .null => 1
  | .bool _ => 1
  | .num _ => 1
  | .str _ => 1
  | .arr l => 1 + jcostList l
  | .obj fs => 1 + jcostFields fs

/-- Fuel needed by `parseElems` for an encoded element list: one unit per
element on top of the element values. -/
def jcostList : List Json → Nat
  | [] => 0
  | x :: xs => 1 + max (jcost x) (jcostList xs)

/-- Fuel needed by `parseFields` for an encoded field list: one unit per
field on top of the field values. -/
def jcostFields : List (String × Json) → Nat
  | [] => 0
  | kv :: rest => 1 + max (jcost kv.2) (jcostFields rest)

end

/-- Guard for number completeness: the character following an encoded
number must not be a digit, or the number parser would keep reading.
Other values need no guard. -/
def numTail : Json → List Char → Prop
  | .num _, rest => ∀ c, rest.head? = some c → isDigitCh c = false
  | _, _ => True

/-- A non-digit head satisfies every number guard. -/
theorem numTail_of_head (j : Json) (c : Char) (t : List Char)
    (h : isDigitCh c = false) : numTail j (c :: t) := by
  cases j with
  | num n =>
      intro c' hc'
      rw [show (c :: t).head? = some c from rfl] at hc'
      have hcc := Option.some.inj hc'
      rw [← hcc]
      exact h
  | null => trivial
  | bool b => trivial
  | str s => trivial
  | arr l => trivial
  | obj fs => trivial

/-- The empty remainder satisfies every number guard. -/
theorem numTail_nil (j : Json) : numTail j [] := by
  cases j with
  | num n => intro c hc; simp at hc
  | null => trivial
  | bool b => trivial
  | str s => trivial
  | arr l => trivial
  | obj fs => trivial

/-- Every encoded value begins with a character that is not whitespace and
not a closing bracket or brace. -/
theorem encodeJson_head (j : Json) :
    ∃ c t, (encodeJson j).toList = c :: t ∧
      ¬(c = ' ' ∨ c = '\n' ∨ c = '\t' ∨ c = '\r') ∧ c ≠ ']' ∧ c ≠ '\x7d' := by
  cases j with
  | null => exact ⟨'n', ['u', 'l', 'l'], rfl, by decide, by decide, by decide⟩
  | bool b =>
      cases b with
      | true => exact ⟨'t', ['r', 'u', 'e'], rfl, by decide, by decide, by decide⟩
      | false => exact ⟨'f', ['a', 'l', 's', 'e'], rfl, by decide, by decide, by decide⟩
  | num n =>
      by_cases hneg : n < 0
      · refine ⟨'-', natDigits n.natAbs, ?_, by decide, by decide, by decide⟩
        rw [show encodeJson (Json.num n) = intDec n from rfl]
        unfold intDec
        rw [if_pos hneg, toList_append]
        rfl
      · obtain ⟨hne, hall⟩ := natDigitsF_digits (n.natAbs + 1) n.natAbs (Nat.lt_succ_self _)
        have hall' : (natDigits n.natAbs).all isDigitCh = true := hall
        cases hnd : natDigits n.natAbs with
        | nil => exact absurd hnd hne
        | cons d ds =>
            have hd : isDigitCh d = true :=
              List.all_eq_true.mp (hnd ▸ hall') d (List.mem_cons_self d ds)
            obtain ⟨_, _, _, _, _, _, _, h8, h9, h10⟩ := digit_head_facts d hd
            refine ⟨d, ds, ?_, h10, h8, h9⟩
            rw [show encodeJson (Json.num n) = intDec n from rfl]
            unfold intDec
            rw [if_neg hneg, toList_mk]
            exact hnd
  | str s =>
      exact ⟨'"', s.toList.flatMap escapeCh ++ ['"'], rfl, by decide, by decide, by decide⟩
  | arr l =>
      exact ⟨'[', (encodeList l).toList ++ [']'], rfl, by decide, by decide, by decide⟩
  | obj fs =>
      exact ⟨'\x7b', (encodeFields fs).toList ++ ['\x7d'], rfl, by decide, by decide, by decide⟩

/-- Skipping whitespace over an encoded value followed by anything is the
identity, and the head is not a closing bracket or brace. -/
theorem skipWs_encHead (x : Json) (tail : List Char) :
    ∃ c t, skipWs ((encodeJson x).toList ++ tail) = c :: t ∧
      c ≠ ']' ∧ c ≠ '\x7d' := by
  obtain ⟨c, t0, hcons, hws, hrb, hrc⟩ := encodeJson_head x
  refine ⟨c, t0 ++ tail, ?_, hrb, hrc⟩
  rw [hcons]
  rw [show (c :: t0) ++ tail = c :: (t0 ++ tail) from rfl]
  exact skipWs_noop c (t0 ++ tail) hws

/-- The characters of an encoded nonempty element list extend the
characters of the first element. -/
theorem encodeList_cons_decomp (x : Json) (xs : List Json) :
    ∃ Z, (encodeList (x :: xs)).toList = (encodeJson x).toList ++ Z := by
  cases xs with
  | nil =>
      refine ⟨"".toList ++ "".toList, ?_⟩
      rw [show encodeList [x] = encodeJson x ++ "" ++ encodeList [] from rfl]
      rw [show encodeList ([] : List Json) = "" from rfl]
      simp only [toList_append, List.append_assoc]
  | cons y ys =>
      refine ⟨",".toList ++ (encodeList (y :: ys)).toList, ?_⟩
      rw [show encodeList (x :: y :: ys) =
        encodeJson x ++ "," ++ encodeList (y :: ys) from rfl]
      simp only [toList_append, List.append_assoc]

/-- Whitespace skipping is the identity on an encoded nonempty element
list, whose head is not a closing bracket. -/
theorem encodeList_cons_skipWs (x : Json) (xs : List Json) (tail : List Char) :
    ∃ c t, skipWs ((encodeList (x :: xs)).toList ++ tail) = c :: t ∧ c ≠ ']' := by
  obtain ⟨Z, hZ⟩ := encodeList_cons_decomp x xs
  obtain ⟨c, t, hskip, hrb, _⟩ := skipWs_encHead x (Z ++ tail)
  refine ⟨c, t, ?_, hrb⟩
  rw [hZ, List.append_assoc]
  exact hskip

/-- The characters of an encoded nonempty field list extend the characters
of the first key's string literal. -/
theorem encodeFields_cons_decomp (kv : String × Json) (fs' : List (String × Json)) :
    ∃ Z, (encodeFields (kv :: fs')).toList = (encodeStr kv.1).toList ++ Z := by
  cases fs' with
  | nil =>
      refine ⟨":".toList ++ ((encodeJson kv.2).toList ++ ("".toList ++ "".toList)), ?_⟩
      rw [show encodeFields [kv] =
        encodeStr kv.1 ++ ":" ++ encodeJson kv.2 ++ "" ++ encodeFields [] from rfl]
      rw [show encodeFields ([] : List (String × Json)) = "" from rfl]
      simp only [toList_append, List.append_assoc]
  | cons kv2 fs2 =>
      refine ⟨":".toList ++ ((encodeJson kv.2).toList ++
        (",".toList ++ (encodeFields (kv2 :: fs2)).toList)), ?_⟩
      rw [show encodeFields (kv :: kv2 :: fs2) =
        encodeStr kv.1 ++ ":" ++ encodeJson kv.2 ++ "," ++ encodeFields (kv2 :: fs2) from rfl]
      simp only [toList_append, List.append_assoc]

/-- An encoded nonempty field list begins with the quote of its first
key. -/
theorem encodeFields_cons_head (kv : String × Json) (fs' : List (String × Json))
    (tail : List Char) :
    ∃ t, (encodeFields (kv :: fs')).toList ++ tail = '"' :: t := by
  obtain ⟨Z, hZ⟩ := encodeFields_cons_decomp kv fs'
  refine ⟨kv.1.toList.flatMap escapeCh ++ ("\"".toList ++ (Z ++ tail)), ?_⟩
  rw [hZ]
  rw [show encodeStr kv.1 =
    "\"" ++ String.mk (kv.1.toList.flatMap escapeCh) ++ "\"" from rfl]
  simp only [toList_append, toList_mk, List.append_assoc]
  rfl

/-- One step of `parseValue` on a digit head: the number arm runs. -/
theorem parseValue_digit (f : Nat) (d : Char) (cs : List Char)
    (hd : isDigitCh d = true) :
    parseValue (f + 1) (d :: cs) =
      (parseNat (d :: cs)).map (fun p => (Json.num (p.1 : Int), p.2)) := by
  rcases digit_char_cases d hd with rfl|rfl|rfl|rfl|rfl|rfl|rfl|rfl|rfl|rfl <;> rfl

/-- One step of `parseValue` on an opening bracket whose content does not
begin (after whitespace) with a closing bracket: the nonempty-array arm
runs. -/
theorem parseValue_arr_step (f : Nat) (c : Char) (t rest1 : List Char)
    (hskip : skipWs rest1 = c :: t) (hne : c ≠ ']') :
    parseValue (f + 1) ('[' :: rest1) =
      (parseElems f rest1).map (fun p => (Json.arr p.1, p.2)) := by
  have h1 : parseValue (f + 1) ('[' :: rest1) =
      (match skipWs rest1 with
        | ']' :: r2 => some (Json.arr [], r2)
        | _ => (parseElems f rest1).map (fun p => (Json.arr p.1, p.2))) := rfl
  rw [h1, hskip]
  split
  · rename_i heq
    injection heq with heq1 _
    exact absurd heq1 hne
  · rfl

/-- One step of `parseValue` on an opening brace whose content does not
begin (after whitespace) with a closing brace: the nonempty-object arm
runs. -/
theorem parseValue_obj_step (f : Nat) (c : Char) (t rest1 : List Char)
    (hskip : skipWs rest1 = c :: t) (hne : c ≠ '\x7d') :
    parseValue (f + 1) ('\x7b' :: rest1) =
      (parseFields f rest1).map (fun p => (Json.obj p.1, p.2)) := by
  have h1 : parseValue (f + 1) ('\x7b' :: rest1) =
      (match skipWs rest1 with
        | '\x7d' :: r2 => some (Json.obj [], r2)
        | _ => (parseFields f rest1).map (fun p => (Json.obj p.1, p.2))) := rfl
  rw [h1, hskip]
  split
  · rename_i heq
    injection heq with heq1 _
    exact absurd heq1 hne
  · rfl

/-- One step of `parseElems`: read a value, then dispatch on the following
separator. -/
theorem parseElems_step (f : Nat) (cs : List Char) :
    parseElems (f + 1) cs =
      (match parseValue f cs with
        | none => none
        | some (v, r1) =>
            match skipWs r1 with
            | ',' :: r2 => (parseElems f r2).map (fun p => (v :: p.1, p.2))
            | ']' :: r2 => some ([v], r2)
            | _ => none) := rfl

/-- One step of `parseFields` on a quote head: read the key string, the
colon, the value, then dispatch on the following separator. -/
theorem parseFields_step (f : Nat) (X : List Char) :
    parseFields (f + 1) ('"' :: X) =
      (match parseStrBody [] X with
        | none => none
        | some (kk, r1) =>
            match skipWs r1 with
            | ':' :: r2 =>
                (match parseValue f r2 with
                  | none => none
                  | some (vv, r3) =>
                      match skipWs r3 with
                      | ',' :: r4 => (parseFields f r4).map (fun p => ((kk, vv) :: p.1, p.2))
                      | '\x7d' :: r4 => some ([(kk, vv)], r4)
                      | _ => none)
            | _ => none) := rfl

mutual

/-- The value parser is complete on encoder output: with enough fuel it
reads the encoding of `j` and leaves exactly the remainder, provided a
following digit cannot extend an encoded number. -/
theorem parseValue_complete :
    ∀ (j : Json) (fuel : Nat) (rest : List Char),
      jcost j ≤ fuel → numTail j rest →
      parseValue fuel ((encodeJson j).toList ++ rest) = some (j, rest)
  | .null, fuel, rest, hc, _ => by
      obtain ⟨f, rfl⟩ : ∃ f, fuel = f + 1 :=
        ⟨fuel - 1, by have h1 : 1 ≤ fuel := hc; omega⟩
      rfl
  | .bool b, fuel, rest, hc, _ => by
      obtain ⟨f, rfl⟩ : ∃ f, fuel = f + 1 :=
        ⟨fuel - 1, by have h1 : 1 ≤ fuel := hc; omega⟩
      cases b with
      | true => rfl
      | false => rfl
  | .num n, fuel, rest, hc, hg => by
      obtain ⟨f, rfl⟩ : ∃ f, fuel = f + 1 :=
        ⟨fuel - 1, by have h1 : 1 ≤ fuel := hc; omega⟩
      have hg' : ∀ c, rest.head? = some c → isDigitCh c = false := hg
      by_cases hneg : n < 0
      · have hto : (encodeJson (Json.num n)).toList = '-' :: natDigits n.natAbs := by
          rw [show encodeJson (Json.num n) = intDec n from rfl]
          unfold intDec
          rw [if_pos hneg, toList_append]
          rfl
        rw [hto]
        rw [show ('-' :: natDigits n.natAbs) ++ rest =
          '-' :: (natDigits n.natAbs ++ rest) from rfl]
        rw [show parseValue (f + 1) ('-' :: (natDigits n.natAbs ++ rest)) =
          (parseNat (natDigits n.natAbs ++ rest)).map
            (fun p => (Json.num (-(p.1 : Int)), p.2)) from rfl]
        rw [parseNat_natDigits n.natAbs rest hg']
        rw [show Option.map (fun p => (Json.num (-(p.1 : Int)), p.2))
          (some (n.natAbs, rest)) = some (Json.num (-(n.natAbs : Int)), rest) from rfl]
        have hn : -((n.natAbs : Int)) = n := by omega
        rw [hn]
      · have hto : (encodeJson (Json.num n)).toList = natDigits n.natAbs := by
          rw [show encodeJson (Json.num n) = intDec n from rfl]
          unfold intDec
          rw [if_neg hneg, toList_mk]
        obtain ⟨hne, hall⟩ := natDigitsF_digits (n.natAbs + 1) n.natAbs (Nat.lt_succ_self _)
        have hall' : (natDigits n.natAbs).all isDigitCh = true := hall
        rw [hto]
        cases hnd : natDigits n.natAbs with
        | nil => exact absurd hnd hne
        | cons d ds =>
            have hd : isDigitCh d = true :=
              List.all_eq_true.mp (hnd ▸ hall') d (List.mem_cons_self d ds)
            rw [show (d :: ds) ++ rest = d :: (ds ++ rest) from rfl]
            rw [parseValue_digit f d (ds ++ rest) hd]
            rw [show d :: (ds ++ rest) = (d :: ds) ++ rest from rfl, ← hnd]
            rw [parseNat_natDigits n.natAbs rest hg']
            rw [show Option.map (fun p => (Json.num (p.1 : Int), p.2))
              (some (n.natAbs, rest)) = some (Json.num ((n.natAbs : Int)), rest) from rfl]
            have hn : ((n.natAbs : Int)) = n := by omega
            rw [hn]
  | .str s, fuel, rest, hc, _ => by
      obtain ⟨f, rfl⟩ : ∃ f, fuel = f + 1 :=
        ⟨fuel - 1, by have h1 : 1 ≤ fuel := hc; omega⟩
      have hto : (encodeJson (Json.str s)).toList ++ rest =
          '"' :: (s.toList.flatMap escapeCh ++ '"' :: rest) := by
        rw [show (encodeJson (Json.str s)).toList ++ rest =
          '"' :: ((s.toList.flatMap escapeCh ++ ['"']) ++ rest) from rfl]
        rw [List.append_assoc]
        rfl
      rw [hto]
      rw [show parseValue (f + 1) ('"' :: (s.toList.flatMap escapeCh ++ '"' :: rest)) =
        (parseStrBody [] (s.toList.flatMap escapeCh ++ '"' :: rest)).map
          (fun p => (Json.str p.1, p.2)) from rfl]
      rw [parseStrBody_escape s.toList [] rest]
      simp [mk_toList]
  | .arr l, fuel, rest, hc, _ => by
      obtain ⟨f, rfl⟩ : ∃ f, fuel = f + 1 :=
        ⟨fuel - 1, by have h1 : 1 + jcostList l ≤ fuel := hc; omega⟩
      have hcl : jcostList l ≤ f := by
        have h1 : 1 + jcostList l ≤ f + 1 := hc
        omega
      cases l with
      | nil => rfl
      | cons x xs =>
          have hto : (encodeJson (Json.arr (x :: xs))).toList ++ rest =
              '[' :: ((encodeList (x :: xs)).toList ++ ']' :: rest) := by
            rw [show (encodeJson (Json.arr (x :: xs))).toList ++ rest =
              '[' :: (((encodeList (x :: xs)).toList ++ [']']) ++ rest) from rfl]
            rw [List.append_assoc]
            rfl
          rw [hto]
          obtain ⟨c, t, hskip, hrb⟩ := encodeList_cons_skipWs x xs (']' :: rest)
          rw [parseValue_arr_step f c t _ hskip hrb]
          rw [parseElems_complete (x :: xs) f rest (by simp) hcl]
          rfl
  | .obj fs, fuel, rest, hc, _ => by
      obtain ⟨f, rfl⟩ : ∃ f, fuel = f + 1 :=
        ⟨fuel - 1, by have h1 : 1 + jcostFields fs ≤ fuel := hc; omega⟩
      have hcf : jcostFields fs ≤ f := by
        have h1 : 1 + jcostFields fs ≤ f + 1 := hc
        omega
      cases fs with
      | nil => rfl
      | cons kv fs' =>
          have hto : (encodeJson (Json.obj (kv :: fs'))).toList ++ rest =
              '\x7b' :: ((encodeFields (kv :: fs')).toList ++ '\x7d' :: rest) := by
            rw [show (encodeJson (Json.obj (kv :: fs'))).toList ++ rest =
              '\x7b' :: (((encodeFields (kv :: fs')).toList ++ ['\x7d']) ++ rest) from rfl]
            rw [List.append_assoc]
            rfl
          rw [hto]
          obtain ⟨X, hX⟩ := encodeFields_cons_head kv fs' ('\x7d' :: rest)
          rw [parseValue_obj_step f '"' X _
            (by rw [hX]; exact skipWs_noop '"' X (by decide)) (by decide)]
          rw [parseFields_complete (kv :: fs') f rest (by simp) hcf]
          rfl

/-- The element parser is complete on encoder output of a nonempty list,
consuming the closing bracket. -/
theorem parseElems_complete :
    ∀ (l : List Json) (fuel : Nat) (rest : List Char), l ≠ [] →
      jcostList l ≤ fuel →
      parseElems fuel ((encodeList l).toList ++ ']' :: rest) = some (l, rest)
  | [], _, _, hne, _ => absurd rfl hne
  | x :: xs, fuel, rest, _, hc => by
      obtain ⟨f, rfl⟩ : ∃ f, fuel = f + 1 :=
        ⟨fuel - 1, by have h1 : 1 + max (jcost x) (jcostList xs) ≤ fuel := hc; omega⟩
      have h1 : 1 + max (jcost x) (jcostList xs) ≤ f + 1 := hc
      have hmax : max (jcost x) (jcostList xs) ≤ f := by omega
      have hcx : jcost x ≤ f := le_trans (le_max_left _ _) hmax
      have hcxs : jcostList xs ≤ f := le_trans (le_max_right _ _) hmax
      cases xs with
      | nil =>
          have hre : (encodeList [x]).toList ++ ']' :: rest =
              (encodeJson x).toList ++ ']' :: rest := by
            rw [show encodeList [x] = encodeJson x ++ "" ++ encodeList [] from rfl]
            rw [show encodeList ([] : List Json) = "" from rfl]
            simp only [toList_append, List.append_assoc]
            rfl
          rw [hre, parseElems_step]
          rw [parseValue_complete x f (']' :: rest) hcx
            (numTail_of_head x ']' rest (by decide))]
          rfl
      | cons y ys =>
          have hre : (encodeList (x :: y :: ys)).toList ++ ']' :: rest =
              (encodeJson x).toList ++
                ',' :: ((encodeList (y :: ys)).toList ++ ']' :: rest) := by
            rw [show encodeList (x :: y :: ys) =
              encodeJson x ++ "," ++ encodeList (y :: ys) from rfl]
            simp only [toList_append, List.append_assoc]
            rfl
          rw [hre, parseElems_step]
          rw [parseValue_complete x f
            (',' :: ((encodeList (y :: ys)).toList ++ ']' :: rest)) hcx
            (numTail_of_head x ',' _ (by decide))]
          show (parseElems f ((encodeList (y :: ys)).toList ++ ']' :: rest)).map
            (fun p => (x :: p.1, p.2)) = some (x :: y :: ys, rest)
          rw [parseElems_complete (y :: ys) f rest (by simp) hcxs]
          rfl

/-- The field parser is complete on encoder output of a nonempty field
list, consuming the closing brace. -/
theorem parseFields_complete :
    ∀ (fs : List (String × Json)) (fuel : Nat) (rest : List Char), fs ≠ [] →
      jcostFields fs ≤ fuel →
      parseFields fuel ((encodeFields fs).toList ++ '\x7d' :: rest) = some (fs, rest)
  | [], _, _, hne, _ => absurd rfl hne
  | (k, v) :: fs', fuel, rest, _, hc => by
      obtain ⟨f, rfl⟩ : ∃ f, fuel = f + 1 :=
        ⟨fuel - 1, by have h1 : 1 + max (jcost v) (jcostFields fs') ≤ fuel := hc; omega⟩
      have h1 : 1 + max (jcost v) (jcostFields fs') ≤ f + 1 := hc
      have hmax : max (jcost v) (jcostFields fs') ≤ f := by omega
      have hcv : jcost v ≤ f := le_trans (le_max_left _ _) hmax
      have hcfs : jcostFields fs' ≤ f := le_trans (le_max_right _ _) hmax
      cases fs' with
      | nil =>
          have hre : (encodeFields [(k, v)]).toList ++ '\x7d' :: rest =
              '"' :: (k.toList.flatMap escapeCh ++ '"' ::
                (':' :: ((encodeJson v).toList ++ '\x7d' :: rest))) := by
            rw [show encodeFields [(k, v)] =
              encodeStr k ++ ":" ++ encodeJson v ++ "" ++ encodeFields [] from rfl]
            rw [show encodeFields ([] : List (String × Json)) = "" from rfl]
            rw [show encodeStr k =
              "\"" ++ String.mk (k.toList.flatMap escapeCh) ++ "\"" from rfl]
            simp only [toList_append, toList_mk, List.append_assoc]
            rfl
          rw [hre, parseFields_step]
          have hsb : parseStrBody []
              (k.toList.flatMap escapeCh ++ '"' ::
                (':' :: ((encodeJson v).toList ++ '\x7d' :: rest))) =
              some (k, ':' :: ((encodeJson v).toList ++ '\x7d' :: rest)) := by
            rw [parseStrBody_escape k.toList []]
            simp [mk_toList]
          rw [hsb]
          show (match parseValue f ((encodeJson v).toList ++ '\x7d' :: rest) with
            | none => none
            | some (vv, r3) =>
                match skipWs r3 with
                | ',' :: r4 => (parseFields f r4).map (fun p => ((k, vv) :: p.1, p.2))
                | '\x7d' :: r4 => some ([(k, vv)], r4)
                | _ => none) = some ([(k, v)], rest)
          rw [parseValue_complete v f ('\x7d' :: rest) hcv
            (numTail_of_head v '\x7d' rest (by decide))]
          rfl
      | cons kv2 fs2 =>
          have hre : (encodeFields ((k, v) :: kv2 :: fs2)).toList ++ '\x7d' :: rest =
              '"' :: (k.toList.flatMap escapeCh ++ '"' ::
                (':' :: ((encodeJson v).toList ++
                  ',' :: ((encodeFields (kv2 :: fs2)).toList ++ '\x7d' :: rest)))) := by
            rw [show encodeFields ((k, v) :: kv2 :: fs2) =
              encodeStr k ++ ":" ++ encodeJson v ++ "," ++ encodeFields (kv2 :: fs2) from rfl]
            rw [show encodeStr k =
              "\"" ++ String.mk (k.toList.flatMap escapeCh) ++ "\"" from rfl]
            simp only [toList_append, toList_mk, List.append_assoc]
            rfl
          rw [hre, parseFields_step]
          have hsb : parseStrBody []
              (k.toList.flatMap escapeCh ++ '"' ::
                (':' :: ((encodeJson v).toList ++
                  ',' :: ((encodeFields (kv2 :: fs2)).toList ++ '\x7d' :: rest)))) =
              some (k, ':' :: ((encodeJson v).toList ++
                ',' :: ((encodeFields (kv2 :: fs2)).toList ++ '\x7d' :: rest))) := by
            rw [parseStrBody_escape k.toList []]
            simp [mk_toList]
          rw [hsb]
          show (match parseValue f ((encodeJson v).toList ++
              ',' :: ((encodeFields (kv2 :: fs2)).toList ++ '\x7d' :: rest)) with
            | none => none
            | some (vv, r3) =>
                match skipWs r3 with
                | ',' :: r4 => (parseFields f r4).map (fun p => ((k, vv) :: p.1, p.2))
                | '\x7d' :: r4 => some ([(k, vv)], r4)
                | _ => none) = some ((k, v) :: kv2 :: fs2, rest)
          rw [parseValue_complete v f
            (',' :: ((encodeFields (kv2 :: fs2)).toList ++ '\x7d' :: rest)) hcv
            (numTail_of_head v ',' _ (by decide))]
          show (parseFields f ((encodeFields (kv2 :: fs2)).toList ++ '\x7d' :: rest)).map
            (fun p => ((k, v) :: p.1, p.2)) = some ((k, v) :: kv2 :: fs2, rest)
          rw [parseFields_complete (kv2 :: fs2) f rest (by simp) hcfs]
          rfl

end

/-- Every encoding is nonempty. -/
theorem one_le_encLen (j : Json) : 1 ≤ (encodeJson j).toList.length := by
  obtain ⟨c, t, hcons, _, _, _⟩ := encodeJson_head j
  rw [hcons]
  simp

mutual

/-- The parser fuel of a value is bounded by the length of its
encoding. -/
theorem jcost_le_encLen : ∀ j : Json, jcost j ≤ (encodeJson j).toList.length
  | .null => by decide
  | .bool b => by cases b <;> decide
  | .num n => one_le_encLen (Json.num n)
  | .str s => one_le_encLen (Json.str s)
  | .arr l => by
      have h := jcostList_le_encLen l
      rw [show jcost (Json.arr l) = 1 + jcostList l from rfl]
      rw [show encodeJson (Json.arr l) = "[" ++ encodeList l ++ "]" from rfl]
      simp only [toList_append, List.length_append]
      have h2 : ("[" : String).toList.length = 1 := rfl
      have h3 : ("]" : String).toList.length = 1 := rfl
      omega
  | .obj fs => by
      have h := jcostFields_le_encLen fs
      rw [show jcost (Json.obj fs) = 1 + jcostFields fs from rfl]
      rw [show encodeJson (Json.obj fs) = "\x7b" ++ encodeFields fs ++ "\x7d" from rfl]
      simp only [toList_append, List.length_append]
      have h2 : ("\x7b" : String).toList.length = 1 := rfl
      have h3 : ("\x7d" : String).toList.length = 1 := rfl
      omega

/-- The parser fuel of an element list is bounded by one more than the
length of its encoding. -/
theorem jcostList_le_encLen : ∀ l : List Json, jcostList l ≤ (encodeList l).toList.length + 1
  | [] => by
      rw [show jcostList [] = 0 from rfl]
      omega
  | x :: xs => by
      have h1 := jcost_le_encLen x
      have h3 := one_le_encLen x
      rw [show jcostList (x :: xs) = 1 + max (jcost x) (jcostList xs) from rfl]
      cases xs with
      | nil =>
          rw [show encodeList [x] = encodeJson x ++ "" ++ encodeList [] from rfl,
            show encodeList ([] : List Json) = "" from rfl]
          simp only [toList_append, List.length_append]
          have h4 : ("" : String).toList.length = 0 := rfl
          have hm : max (jcost x) (jcostList []) = jcost x := by
            rw [show jcostList [] = 0 from rfl]
            exact Nat.max_eq_left (Nat.zero_le _)
          rw [hm]
          omega
      | cons y ys =>
          have h2 := jcostList_le_encLen (y :: ys)
          rw [show encodeList (x :: y :: ys) =
            encodeJson x ++ "," ++ encodeList (y :: ys) from rfl]
          simp only [toList_append, List.length_append]
          have h4 : ("," : String).toList.length = 1 := rfl
          have hm : max (jcost x) (jcostList (y :: ys)) ≤
              (encodeJson x).toList.length + (encodeList (y :: ys)).toList.length := by
            apply max_le
            · omega
            · omega
          omega

/-- The parser fuel of a field list is bounded by one more than the length
of its encoding. -/
theorem jcostFields_le_encLen :
    ∀ fs : List (String × Json), jcostFields fs ≤ (encodeFields fs).toList.length + 1
  | [] => by
      rw [show jcostFields [] = 0 from rfl]
      omega
  | (k, v) :: fs' => by
      have h1 := jcost_le_encLen v
      rw [show jcostFields ((k, v) :: fs') = 1 + max (jcost v) (jcostFields fs') from rfl]
      have h5 : (":" : String).toList.length = 1 := rfl
      cases fs' with
      | nil =>
          rw [show encodeFields [(k, v)] =
            encodeStr k ++ ":" ++ encodeJson v ++ "" ++ encodeFields [] from rfl,
            show encodeFields ([] : List (String × Json)) = "" from rfl]
          simp only [toList_append, List.length_append]
          have h4 : ("" : String).toList.length = 0 := rfl
          have hm : max (jcost v) (jcostFields []) = jcost v := by
            rw [show jcostFields [] = 0 from rfl]
            exact Nat.max_eq_left (Nat.zero_le _)
          rw [hm]
          omega
      | cons kv2 fs2 =>
          have h2 := jcostFields_le_encLen (kv2 :: fs2)
          rw [show encodeFields ((k, v) :: kv2 :: fs2) =
            encodeStr k ++ ":" ++ encodeJson v ++ "," ++ encodeFields (kv2 :: fs2) from rfl]
          simp only [toList_append, List.length_append]
          have h4 : ("," : String).toList.length = 1 := rfl
          have hm : max (jcost v) (jcostFields (kv2 :: fs2)) ≤
              (encodeStr k).toList.length + (":" : String).toList.length +
                (encodeJson v).toList.length + (encodeFields (kv2 :: fs2)).toList.length := by
            apply max_le
            · omega
            · omega
          omega

end

/-- The modelled `JSON.parse` is complete on `JSON.stringify` output: the
fuel chosen by the entry point always suffices and nothing remains. -/
theorem parseJson_encode (j : Json) : parseJson (encodeJson j) = some j := by
  unfold parseJson
  have hb := jcost_le_encLen j
  have hc : jcost j ≤ 2 * (encodeJson j).toList.length + 2 := by omega
  have h := parseValue_complete j (2 * (encodeJson j).toList.length + 2) [] hc (numTail_nil j)
  rw [List.append_nil] at h
  rw [h]
  rfl

/-- The greedy bracket fallback on prose around a bracketed middle, when
the leading prose has no opening bracket and the trailing prose no closing
bracket: the match is exactly the middle. -/
theorem extractBracketSub_embed (pre mid post : String)
    (hpre : ∀ c ∈ pre.toList, c ≠ '[')
    (hpost : ∀ c ∈ post.toList, c ≠ ']')
    (hhead : mid.toList.head? = some '[')
    (hlast : mid.toList.getLast? = some ']')
    (hlen : 2 ≤ mid.toList.length) :
    extractBracketSub (pre ++ mid ++ post) = some mid := by
  have hcs : (pre ++ mid ++ post).toList = pre.toList ++ mid.toList ++ post.toList := by
    rw [toList_append, toList_append]
  have hpre' : pre.toList.findIdx? (· = '[') = none := by
    rw [List.findIdx?_eq_none_iff]
    intro x hx
    simpa using hpre x hx
  obtain ⟨mt, hmt⟩ : ∃ mt, mid.toList = '[' :: mt := by
    cases hm : mid.toList with
    | nil => rw [hm] at hhead; simp at hhead
    | cons a t =>
        rw [hm] at hhead
        have ha := Option.some.inj hhead
        exact ⟨t, by rw [ha]⟩
  have hfind1 : (pre.toList ++ mid.toList ++ post.toList).findIdx? (· = '[') =
      some pre.toList.length := by
    rw [List.append_assoc, List.findIdx?_append, hpre']
    rw [show (mid.toList ++ post.toList).findIdx? (· = '[') = some 0 from by
      rw [hmt]
      rw [show ('[' :: mt) ++ post.toList = '[' :: (mt ++ post.toList) from rfl]
      simp [List.findIdx?_cons]]
    simp
  have hpost' : post.toList.reverse.findIdx? (· = ']') = none := by
    rw [List.findIdx?_eq_none_iff]
    intro x hx
    simpa using hpost x (List.mem_reverse.mp hx)
  obtain ⟨mr, hmr⟩ : ∃ mr, mid.toList.reverse = ']' :: mr := by
    cases hm : mid.toList.reverse with
    | nil =>
        rw [← List.head?_reverse, hm] at hlast
        simp at hlast
    | cons a t =>
        rw [← List.head?_reverse, hm] at hlast
        have ha := Option.some.inj hlast
        exact ⟨t, by rw [ha]⟩
  have hfind2 : (pre.toList ++ mid.toList ++ post.toList).reverse.findIdx? (· = ']') =
      some post.toList.length := by
    rw [show (pre.toList ++ mid.toList ++ post.toList).reverse =
      post.toList.reverse ++ (mid.toList.reverse ++ pre.toList.reverse) from by
        simp [List.reverse_append]]
    rw [List.findIdx?_append, hpost']
    rw [show (mid.toList.reverse ++ pre.toList.reverse).findIdx? (· = ']') = some 0 from by
      rw [hmr]
      rw [show (']' :: mr) ++ pre.toList.reverse = ']' :: (mr ++ pre.toList.reverse) from rfl]
      simp [List.findIdx?_cons]]
    simp
  unfold extractBracketSub
  rw [hcs]
  show (match (pre.toList ++ mid.toList ++ post.toList).findIdx? (· = '['),
      ((pre.toList ++ mid.toList ++ post.toList).reverse.findIdx? (· = ']')).map
        (fun k => (pre.toList ++ mid.toList ++ post.toList).length - 1 - k) with
    | some i, some j =>
        if i < j then
          some (String.mk (((pre.toList ++ mid.toList ++ post.toList).drop i).take (j - i + 1)))
        else none
    | _, _ => none) = some mid
  rw [hfind1, hfind2]
  have hlength : (pre.toList ++ mid.toList ++ post.toList).length =
      pre.toList.length + mid.toList.length + post.toList.length := by
    simp [List.length_append]
    omega
  rw [show Option.map (fun k => (pre.toList ++ mid.toList ++ post.toList).length - 1 - k)
      (some post.toList.length) =
      some ((pre.toList ++ mid.toList ++ post.toList).length - 1 - post.toList.length) from rfl]
  rw [show (pre.toList ++ mid.toList ++ post.toList).length - 1 - post.toList.length =
    pre.toList.length + (mid.toList.length - 1) from by omega]
  rw [show (match (some pre.toList.length : Option Nat),
        (some (pre.toList.length + (mid.toList.length - 1)) : Option Nat) with
      | some i, some j =>
          if i < j then
            some (String.mk (((pre.toList ++ mid.toList ++ post.toList).drop i).take (j - i + 1)))
          else none
      | _, _ => none) =
      (if pre.toList.length < pre.toList.length + (mid.toList.length - 1) then
        some (String.mk (((pre.toList ++ mid.toList ++ post.toList).drop pre.toList.length).take
          (pre.toList.length + (mid.toList.length - 1) - pre.toList.length + 1)))
      else none) from rfl]
  rw [if_pos (by omega)]
  rw [show pre.toList.length + (mid.toList.length - 1) - pre.toList.length + 1 =
    mid.toList.length from by omega]
  rw [List.append_assoc, List.drop_left, List.take_left]
  rw [mk_toList]

/-- The encoding of an array is a bracket, the encoded elements, a closing
bracket. -/
theorem encodeArr_shape (l : List Json) :
    (encodeJson (Json.arr l)).toList = ('[' :: (encodeList l).toList) ++ [']'] := by
  rw [show encodeJson (Json.arr l) = "[" ++ encodeList l ++ "]" from rfl]
  simp only [toList_append, List.append_assoc]
  rfl

/-- Counterexample to C4 as stated: the string `"x: [1] y: [2]"` contains
the balanced top-level array literal `[1]`, whose parse is the one-element
list, and the full parse fails; the claim therefore promises the
one-element list.  But the fallback regex is greedy — it matches from the
first opening bracket to the *last* closing bracket, here the unparsable
span from `[1` through `[2]` — so the normalizer returns the empty list
instead. -/
theorem C4_counterexample :
    parseJson "x: [1] y: [2]" = none ∧
    strContains "[1]" "x: [1] y: [2]" ∧
    parseJson "[1]" = some (Json.arr [Json.num 1]) ∧
    extractBracketSub "x: [1] y: [2]" = some "[1] y: [2]" ∧
    ensurePatches [("patches", Json.str "x: [1] y: [2]")] = [] ∧
    ([] : List Json) ≠ [Json.num 1] := by
  refine ⟨rfl, ⟨"x: ", " y: [2]", rfl⟩, rfl, rfl, rfl, by simp⟩

/-- C4 as amended.  (1) An array-shaped `patches` member passes through
unchanged.  (2) A string holding exactly the stringified edit list parses
in full and yields that list.  (3) A stringified edit list embedded in
prose yields that list *when* the full parse fails, the leading prose
contains no opening bracket and the trailing prose no closing bracket —
the fallback is the greedy span from the first `[` to the last `]`, not
the first balanced array literal, so brackets in the surrounding prose can
derail it (and a successful non-array full parse skips the fallback
entirely).  (4) A string with no parse and no bracket span yields the
empty list.  (5) Any other shape of the `patches` member yields the empty
list. -/
theorem C4_normalizer_amended :
    (∀ (args : List (String × Json)) (l : List Json),
        lookupField args "patches" = some (.arr l) → ensurePatches args = l) ∧
    (∀ (args : List (String × Json)) (l : List Json),
        lookupField args "patches" = some (.str (encodeJson (.arr l))) →
        ensurePatches args = l) ∧
    (∀ (args : List (String × Json)) (l : List Json) (pre post : String),
        lookupField args "patches" =
          some (.str (pre ++ encodeJson (.arr l) ++ post)) →
        (∀ c ∈ pre.toList, c ≠ '[') →
        (∀ c ∈ post.toList, c ≠ ']') →
        parseJson (pre ++ encodeJson (.arr l) ++ post) = none →
        ensurePatches args = l) ∧
    (∀ (args : List (String × Json)) (s : String),
        lookupField args "patches" = some (.str s) →
        parseJson s = none → extractBracketSub s = none →
        ensurePatches args = []) ∧
    (∀ args : List (String × Json),
        (∀ l, lookupField args "patches" ≠ some (.arr l)) →
        (∀ s, lookupField args "patches" ≠ some (.str s)) →
        ensurePatches args = []) := by
  refine ⟨?_, ?_, ?_, ?_, ?_⟩
  · intro args l hlk
    unfold ensurePatches
    rw [hlk]
  · intro args l hlk
    unfold ensurePatches
    rw [hlk]
    show (match parseJson (encodeJson (Json.arr l)) with
      | some (.arr l') => l'
      | some _ => []
      | none =>
          match extractBracketSub (encodeJson (Json.arr l)) with
          | some sub =>
              (match parseJson sub with
                | some (.arr l') => l'
                | _ => [])
          | none => []) = l
    rw [parseJson_encode (Json.arr l)]
  · intro args l pre post hlk hpre hpost hfail
    have hshape := encodeArr_shape l
    have hmid_head : (encodeJson (Json.arr l)).toList.head? = some '[' := by
      rw [hshape]
      rfl
    have hmid_last : (encodeJson (Json.arr l)).toList.getLast? = some ']' := by
      rw [hshape]
      exact List.getLast?_concat _
    have hmid_len : 2 ≤ (encodeJson (Json.arr l)).toList.length := by
      rw [hshape]
      simp
    have hx := extractBracketSub_embed pre (encodeJson (Json.arr l)) post
      hpre hpost hmid_head hmid_last hmid_len
    unfold ensurePatches
    rw [hlk]
    show (match parseJson (pre ++ encodeJson (Json.arr l) ++ post) with
      | some (.arr l') => l'
      | some _ => []
      | none =>
          match extractBracketSub (pre ++ encodeJson (Json.arr l) ++ post) with
          | some sub =>
              (match parseJson sub with
                | some (.arr l') => l'
                | _ => [])
          | none => []) = l
    rw [hfail, hx]
    show (match parseJson (encodeJson (Json.arr l)) with
      | some (.arr l') => l'
      | _ => []) = l
    rw [parseJson_encode (Json.arr l)]
  · intro args s hlk hpj hbr
    unfold ensurePatches
    rw [hlk]
    show (match parseJson s with
      | some (.arr l') => l'
      | some _ => []
      | none =>
          match extractBracketSub s with
          | some sub =>
              (match parseJson sub with
                | some (.arr l') => l'
                | _ => [])
          | none => []) = []
    rw [hpj, hbr]
  · intro args h1 h2
    unfold ensurePatches
    cases hlk : lookupField args "patches" with
    | none => rfl
    | some j =>
        cases j with
        | arr l => exact absurd hlk (h1 l)
        | str s => exact absurd hlk (h2 s)
        | null => rfl
        | bool b => rfl
        | num n => rfl
        | obj fs => rfl

/-- Witness for the amended C4: the stringified edit list `[7]` embedded
in the prose `edits: ... done` is recovered by the normalizer. -/
theorem C4_normalizer_amended_witness :
    ensurePatches [("patches", Json.str "edits: [7] done")] = [Json.num 7] :=
  C4_normalizer_amended.2.2.1 [("patches", Json.str "edits: [7] done")]
    [Json.num 7] "edits: " " done" rfl (by decide) (by decide) rfl

/-! ## Claims C2 and C10 — frame and freshness of the patch engine

The two aliasing claims are settled against the store semantics: a region
invariant separates the caller's structure (below the allocation watermark
at entry) from the clone the engine works on (at or above it), every write
of every op lands in the high region, and decoding is invariant under
changes outside the low region. -/

/-- A runtime value refers only at or above the watermark `n0`. -/
def refGe (n0 : Nat) (v : JVal) : Prop := ∀ a, v = .ref a → n0 ≤ a

/-- All references of a heap node sit at or above the watermark. -/
def nodeRefsGe (n0 : Nat) : HNode → Prop
  | .obj kvs => ∀ kv ∈ kvs, refGe n0 kv.2
  | .arr vs => ∀ v ∈ vs, refGe n0 v

/-- The heap below the watermark of `σ0` is exactly that of `σ0`. -/
def heapLowFrame (σ0 σ : Store) : Prop :=
  ∀ a, a < σ0.next → lookupH σ.heap a = lookupH σ0.heap a

/-- Every allocated address is below the allocation counter. -/
def heapBounded (σ : Store) : Prop :=
  ∀ a, (lookupH σ.heap a).isSome = true → a < σ.next

/-- Nodes at or above the watermark refer only at or above it. -/
def highClosed (n0 : Nat) (σ : Store) : Prop :=
  ∀ a nd, n0 ≤ a → lookupH σ.heap a = some nd → nodeRefsGe n0 nd

/-- The engine's store invariant relative to the store at entry: the low
region is untouched, the heap is bounded, the high region is closed, and
the counter has not gone backwards. -/
def Inv (σ0 σ : Store) : Prop :=
  heapLowFrame σ0 σ ∧ heapBounded σ ∧ highClosed σ0.next σ ∧ σ0.next ≤ σ.next

/-- The executable well-formedness check of a store: every heap entry sits
below the allocation counter. -/
def wfStoreB (σ : Store) : Bool :=
  σ.heap.all (fun p => p.1 < σ.next)

/-- Heap lookup respects the entry bound of `wfStoreB`. -/
theorem lookupH_lt_of_all :
    ∀ (h : List (Nat × HNode)) (n : Nat),
      h.all (fun p => decide (p.1 < n)) = true →
      ∀ a, (lookupH h a).isSome = true → a < n
  | [], _, _, a, ha => by simp [lookupH] at ha
  | (b, nd) :: rest, n, hall, a, ha => by
      rw [List.all_cons, Bool.and_eq_true] at hall
      obtain ⟨h1, h2⟩ := hall
      unfold lookupH at ha
      by_cases hba : b = a
      · rw [← hba]
        exact of_decide_eq_true h1
      · rw [if_neg hba] at ha
        exact lookupH_lt_of_all rest n h2 a ha

/-- The executable check implies the boundedness predicate. -/
theorem wfStoreB_bounded (σ : Store) (h : wfStoreB σ = true) : heapBounded σ :=
  lookupH_lt_of_all σ.heap σ.next h

/-- Lookup across a heap concatenation. -/
theorem lookupH_append :
    ∀ (h1 h2 : List (Nat × HNode)) (a : Nat),
      lookupH (h1 ++ h2) a =
        (match lookupH h1 a with
          | some nd => some nd
          | none => lookupH h2 a)
  | [], h2, a => rfl
  | (b, nd) :: rest, h2, a => by
      rw [show ((b, nd) :: rest) ++ h2 = (b, nd) :: (rest ++ h2) from rfl]
      by_cases hba : b = a
      · simp [lookupH, hba]
      · simp [lookupH, hba]
        exact lookupH_append rest h2 a

/-- In-place update leaves other addresses alone. -/
theorem lookupH_setH_ne :
    ∀ (h : List (Nat × HNode)) (a : Nat) (nd : HNode) (b : Nat),
      b ≠ a → lookupH (setH h a nd) b = lookupH h b
  | [], _, _, _, _ => rfl
  | (c, m) :: rest, a, nd, b, hne => by
      by_cases hca : c = a
      · subst hca
        have hcb : ¬ (c = b) := fun hh => hne hh.symm
        simp [setH, lookupH, hcb]
      · simp [setH, hca, lookupH]
        by_cases hcb : c = b
        · simp [hcb]
        · simp [hcb]
          exact lookupH_setH_ne rest a nd b hne

/-- In-place update of a present address reads back the new node. -/
theorem lookupH_setH_self :
    ∀ (h : List (Nat × HNode)) (a : Nat) (nd : HNode),
      (lookupH h a).isSome = true → lookupH (setH h a nd) a = some nd
  | [], a, nd, ha => by simp [lookupH] at ha
  | (c, m) :: rest, a, nd, ha => by
      by_cases hca : c = a
      · simp [setH, hca, lookupH]
      · unfold lookupH at ha
        rw [if_neg hca] at ha
        simp [setH, hca, lookupH]
        exact lookupH_setH_self rest a nd ha

/-- In-place update of an absent address is the identity. -/
theorem setH_none :
    ∀ (h : List (Nat × HNode)) (a : Nat) (nd : HNode),
      lookupH h a = none → setH h a nd = h
  | [], _, _, _ => rfl
  | (c, m) :: rest, a, nd, ha => by
      unfold lookupH at ha
      by_cases hca : c = a
      · rw [if_pos hca] at ha
        exact absurd ha (by simp)
      · rw [if_neg hca] at ha
        simp [setH, hca]
        exact setH_none rest a nd ha

/-- In-place update does not change which addresses are present. -/
theorem setH_isSome :
    ∀ (h : List (Nat × HNode)) (a : Nat) (nd : HNode) (b : Nat),
      (lookupH (setH h a nd) b).isSome = (lookupH h b).isSome
  | [], _, _, _ => rfl
  | (c, m) :: rest, a, nd, b => by
      by_cases hca : c = a
      · rw [show setH ((c, m) :: rest) a nd = (c, nd) :: rest from by
          unfold setH; rw [if_pos hca]]
        by_cases hcb : c = b
        · simp [lookupH, hcb]
        · simp [lookupH, hcb]
      · rw [show setH ((c, m) :: rest) a nd = (c, m) :: setH rest a nd from by
          conv_lhs => unfold setH
          rw [if_neg hca]]
        by_cases hcb : c = b
        · simp [lookupH, hcb]
        · simp [lookupH, hcb]
          exact setH_isSome rest a nd b

/-- A successful string-keyed lookup returns a member value. -/
theorem lookupStr_mem {α : Type} :
    ∀ (l : List (String × α)) (k : String) (v : α),
      lookupStr l k = some v → ∃ kv, kv ∈ l ∧ kv.2 = v
  | [], _, _, h => by simp [lookupStr] at h
  | (k0, v0) :: rest, k, v, h => by
      unfold lookupStr at h
      by_cases hk : k0 = k
      · rw [if_pos hk] at h
        exact ⟨(k0, v0), List.mem_cons_self _ _, Option.some.inj h⟩
      · rw [if_neg hk] at h
        obtain ⟨kv, hmem, hv⟩ := lookupStr_mem rest k v h
        exact ⟨kv, List.mem_cons_of_mem _ hmem, hv⟩

/-- Members after an ordered-association update are old members or carry
the new value. -/
theorem setAssoc_mem {α : Type} :
    ∀ (l : List (String × α)) (k : String) (v : α) (kv : String × α),
      kv ∈ setAssoc l k v → kv ∈ l ∨ kv.2 = v
  | [], k, v, kv, h => by
      simp [setAssoc] at h
      right
      rw [h]
  | (k0, v0) :: rest, k, v, kv, h => by
      unfold setAssoc at h
      by_cases hk : k0 = k
      · rw [if_pos hk] at h
        rcases List.mem_cons.mp h with h1 | h1
        · right
          rw [h1]
        · exact Or.inl (List.mem_cons_of_mem _ h1)
      · rw [if_neg hk] at h
        rcases List.mem_cons.mp h with h1 | h1
        · exact Or.inl (h1 ▸ List.mem_cons_self _ _)
        · rcases setAssoc_mem rest k v kv h1 with h2 | h2
          · exact Or.inl (List.mem_cons_of_mem _ h2)
          · exact Or.inr h2

/-- Members after an ordered-association deletion are old members. -/
theorem removeAssoc_mem {α : Type} :
    ∀ (l : List (String × α)) (k : String) (kv : String × α),
      kv ∈ removeAssoc l k → kv ∈ l
  | [], _, _, h => by simp [removeAssoc] at h
  | (k0, v0) :: rest, k, kv, h => by
      unfold removeAssoc at h
      by_cases hk : k0 = k
      · rw [if_pos hk] at h
        exact List.mem_cons_of_mem _ h
      · rw [if_neg hk] at h
        rcases List.mem_cons.mp h with h1 | h1
        · exact h1 ▸ List.mem_cons_self _ _
        · exact List.mem_cons_of_mem _ (removeAssoc_mem rest k kv h1)

/-- Members after an array element assignment are old members, the written
value, or a padding hole. -/
theorem arrSetJ_mem (vs : List JVal) (i : Nat) (v : JVal) (x : JVal)
    (h : x ∈ arrSetJ vs i v) : x ∈ vs ∨ x = v ∨ x = .null := by
  unfold arrSetJ at h
  by_cases hi : i < vs.length
  · rw [if_pos hi] at h
    rcases List.mem_or_eq_of_mem_set h with h1 | h1
    · exact Or.inl h1
    · exact Or.inr (Or.inl h1)
  · rw [if_neg hi] at h
    rcases List.mem_append.mp h with h1 | h1
    · rcases List.mem_append.mp h1 with h2 | h2
      · exact Or.inl h2
      · exact Or.inr (Or.inr (List.eq_of_mem_replicate h2))
    · rcases List.mem_singleton.mp h1 with h2
      exact Or.inr (Or.inl h2)

/-- Members after a splice are old members. -/
theorem spliceRemoveG_mem {α : Type} (l : List α) (i : Int) (x : α)
    (h : x ∈ spliceRemoveG l i) : x ∈ l := by
  unfold spliceRemoveG at h
  by_cases hi : (l.length : Int) ≤ i
  · rw [if_pos hi] at h
    exact h
  · rw [if_neg hi] at h
    rcases List.mem_append.mp h with h1 | h1
    · exact List.mem_of_mem_take h1
    · exact List.mem_of_mem_drop h1

/-- An in-place overwrite of a high node with high references preserves
the invariant. -/
theorem Inv_writeNode (σ0 σ : Store) (a : Nat) (nd : HNode)
    (hInv : Inv σ0 σ) (ha : σ0.next ≤ a) (hnd : nodeRefsGe σ0.next nd) :
    Inv σ0 (writeNode σ a nd) := by
  obtain ⟨hlf, hb, hhc, hn⟩ := hInv
  refine ⟨?_, ?_, ?_, hn⟩
  · intro b hb0
    have hne : b ≠ a := by omega
    rw [show (writeNode σ a nd).heap = setH σ.heap a nd from rfl,
      lookupH_setH_ne σ.heap a nd b hne]
    exact hlf b hb0
  · intro b hbs
    rw [show (writeNode σ a nd).heap = setH σ.heap a nd from rfl,
      setH_isSome σ.heap a nd b] at hbs
    exact hb b hbs
  · intro b m hb0 hlk
    rw [show (writeNode σ a nd).heap = setH σ.heap a nd from rfl] at hlk
    by_cases hba : b = a
    · subst hba
      cases hs : lookupH σ.heap b with
      | none =>
          rw [setH_none σ.heap b nd hs] at hlk
          exact hhc b m hb0 hlk
      | some m0 =>
          rw [lookupH_setH_self σ.heap b nd (by rw [hs]; rfl)] at hlk
          rw [← Option.some.inj hlk]
          exact hnd
    · rw [lookupH_setH_ne σ.heap a nd b hba] at hlk
      exact hhc b m hb0 hlk

/-- Looking below the counter after an allocation sees the old heap. -/
theorem alloc_lookup_old (σ : Store) (nd : HNode) (hb : heapBounded σ)
    (a : Nat) (ha : a < σ.next) :
    lookupH (σ.alloc nd).1.heap a = lookupH σ.heap a := by
  rw [show (σ.alloc nd).1.heap = σ.heap ++ [(σ.next, nd)] from rfl, lookupH_append]
  cases hl : lookupH σ.heap a with
  | some m => rfl
  | none =>
      have hne : ¬ (σ.next = a) := by omega
      simp [lookupH, hne]

/-- The freshly allocated address reads the new node. -/
theorem alloc_lookup_new (σ : Store) (nd : HNode) (hb : heapBounded σ) :
    lookupH (σ.alloc nd).1.heap σ.next = some nd := by
  rw [show (σ.alloc nd).1.heap = σ.heap ++ [(σ.next, nd)] from rfl, lookupH_append]
  cases hl : lookupH σ.heap σ.next with
  | some m =>
      have := hb σ.next (by rw [hl]; rfl)
      omega
  | none => simp [lookupH]

/-- Allocating a node with high references preserves the invariant; the
new address is high. -/
theorem Inv_alloc (σ0 σ : Store) (nd : HNode)
    (hInv : Inv σ0 σ) (hnd : nodeRefsGe σ0.next nd) :
    Inv σ0 (σ.alloc nd).1 ∧ σ0.next ≤ (σ.alloc nd).2 ∧
      (σ.alloc nd).1.next = σ.next + 1 ∧ (σ.alloc nd).2 = σ.next := by
  obtain ⟨hlf, hb, hhc, hn⟩ := hInv
  refine ⟨⟨?_, ?_, ?_, ?_⟩, hn, rfl, rfl⟩
  · intro b hb0
    rw [alloc_lookup_old σ nd hb b (by omega)]
    exact hlf b hb0
  · intro b hbs
    rw [show (σ.alloc nd).1.heap = σ.heap ++ [(σ.next, nd)] from rfl,
      lookupH_append] at hbs
    rw [show (σ.alloc nd).1.next = σ.next + 1 from rfl]
    cases hl : lookupH σ.heap b with
    | some m =>
        have := hb b (by rw [hl]; rfl)
        omega
    | none =>
        rw [hl] at hbs
        by_cases hne : σ.next = b
        · omega
        · simp [lookupH, hne] at hbs
  · intro b m hb0 hlk
    rw [show (σ.alloc nd).1.heap = σ.heap ++ [(σ.next, nd)] from rfl,
      lookupH_append] at hlk
    cases hl : lookupH σ.heap b with
    | some m0 =>
        rw [hl] at hlk
        have hmm : some m0 = some m := hlk
        exact hhc b m hb0 (by rw [hl]; exact hmm)
    | none =>
        rw [hl] at hlk
        by_cases hne : σ.next = b
        · have hnm : nd = m := by
            subst hne
            simpa [lookupH] using hlk
          rw [← hnm]
          exact hnd
        · simp [lookupH, hne] at hlk
  · rw [show (σ.alloc nd).1.next = σ.next + 1 from rfl]
    omega

/-- Pointwise strengthening of a partial list traversal. -/
theorem optMapList_congr {α β : Type} (f g : α → Option β) :
    ∀ (l : List α),
      (∀ x ∈ l, ∀ y, f x = some y → g x = some y) →
      ∀ ys, optMapList f l = some ys → optMapList g l = some ys
  | [], _, ys, h => h
  | x :: rest, hfg, ys, h => by
      cases hfx : f x with
      | none =>
          unfold optMapList at h
          rw [hfx] at h
          simp at h
      | some y =>
          cases hrest : optMapList f rest with
          | none =>
              unfold optMapList at h
              rw [hfx, hrest] at h
              simp at h
          | some ys0 =>
              unfold optMapList at h
              rw [hfx, hrest] at h
              have h1 : some (y :: ys0) = some ys := h
              have hg1 := hfg x (List.mem_cons_self _ _) y hfx
              have hg2 := optMapList_congr f g rest
                (fun z hz => hfg z (List.mem_cons_of_mem _ hz)) ys0 hrest
              show (match g x, optMapList g rest with
                | some y, some ys => some (y :: ys)
                | _, _ => none) = some ys
              rw [hg1, hg2]
              exact h1

/-- Pointwise strengthening of a partial field traversal. -/
theorem optMapFields_congr {α β : Type} (f g : α → Option β) :
    ∀ (l : List (String × α)),
      (∀ kv ∈ l, ∀ y, f kv.2 = some y → g kv.2 = some y) →
      ∀ ys, optMapFields f l = some ys → optMapFields g l = some ys
  | [], _, ys, h => h
  | kv :: rest, hfg, ys, h => by
      cases hfx : f kv.2 with
      | none =>
          unfold optMapFields at h
          rw [hfx] at h
          simp at h
      | some y =>
          cases hrest : optMapFields f rest with
          | none =>
              unfold optMapFields at h
              rw [hfx, hrest] at h
              simp at h
          | some ys0 =>
              unfold optMapFields at h
              rw [hfx, hrest] at h
              have h1 : some ((kv.1, y) :: ys0) = some ys := h
              have hg1 := hfg kv (List.mem_cons_self _ _) y hfx
              have hg2 := optMapFields_congr f g rest
                (fun z hz => hfg z (List.mem_cons_of_mem _ hz)) ys0 hrest
              show (match g kv.2, optMapFields g rest with
                | some y, some ys => some ((kv.1, y) :: ys)
                | _, _ => none) = some ys
              rw [hg1, hg2]
              exact h1

/-- Decoding is monotone in fuel. -/
theorem decodeV_mono :
    ∀ (fuel fuel' : Nat) (σ : Store) (v : JVal) (t : Json), fuel ≤ fuel' →
      decodeV fuel σ v = some t → decodeV fuel' σ v = some t
  | 0, _, _, _, _, _, h => by simp [decodeV] at h
  | fuel + 1, fuel', σ, v, t, hle, h => by
      obtain ⟨f', rfl⟩ : ∃ f', fuel' = f' + 1 := ⟨fuel' - 1, by omega⟩
      have hff : fuel ≤ f' := by omega
      cases v with
      | null => exact h
      | bool b => exact h
      | num n => exact h
      | str s => exact h
      | ref a =>
          unfold decodeV at h ⊢
          cases hlk : lookupH σ.heap a with
          | none =>
              rw [hlk] at h
              simp at h
          | some nd =>
              rw [hlk] at h
              cases nd with
              | obj kvs =>
                  have h' : Option.map Json.obj (optMapFields (decodeV fuel σ) kvs) =
                      some t := h
                  show Option.map Json.obj (optMapFields (decodeV f' σ) kvs) = some t
                  cases hm : optMapFields (decodeV fuel σ) kvs with
                  | none =>
                      rw [hm] at h'
                      simp at h'
                  | some fs =>
                      rw [hm] at h'
                      rw [optMapFields_congr _ _ kvs
                        (fun x _ y hy => decodeV_mono fuel f' σ x.2 y hff hy) fs hm]
                      exact h'
              | arr vs =>
                  have h' : Option.map Json.arr (optMapList (decodeV fuel σ) vs) =
                      some t := h
                  show Option.map Json.arr (optMapList (decodeV f' σ) vs) = some t
                  cases hm : optMapList (decodeV fuel σ) vs with
                  | none =>
                      rw [hm] at h'
                      simp at h'
                  | some l =>
                      rw [hm] at h'
                      rw [optMapList_congr _ _ vs
                        (fun x _ y hy => decodeV_mono fuel f' σ x y hff hy) l hm]
                      exact h' 

/-- Decoding only reads the low region, so it is invariant under any store
that preserves it. -/
theorem decodeV_frame :
    ∀ (fuel : Nat) (σ0 σ' : Store) (v : JVal) (t : Json),
      heapBounded σ0 → heapLowFrame σ0 σ' →
      decodeV fuel σ0 v = some t → decodeV fuel σ' v = some t
  | 0, _, _, _, _, _, _, h => by simp [decodeV] at h
  | fuel + 1, σ0, σ', v, t, hb, hlf, h => by
      cases v with
      | null => exact h
      | bool b => exact h
      | num n => exact h
      | str s => exact h
      | ref a =>
          unfold decodeV at h ⊢
          cases hlk : lookupH σ0.heap a with
          | none =>
              rw [hlk] at h
              simp at h
          | some nd =>
              have ha : a < σ0.next := hb a (by rw [hlk]; rfl)
              rw [hlk] at h
              rw [hlf a ha, hlk]
              cases nd with
              | obj kvs =>
                  have h' : Option.map Json.obj (optMapFields (decodeV fuel σ0) kvs) =
                      some t := h
                  show Option.map Json.obj (optMapFields (decodeV fuel σ') kvs) = some t
                  cases hm : optMapFields (decodeV fuel σ0) kvs with
                  | none =>
                      rw [hm] at h'
                      simp at h'
                  | some fs =>
                      rw [hm] at h'
                      rw [optMapFields_congr _ _ kvs
                        (fun x _ y hy => decodeV_frame fuel σ0 σ' x.2 y hb hlf hy) fs hm]
                      exact h'
              | arr vs =>
                  have h' : Option.map Json.arr (optMapList (decodeV fuel σ0) vs) =
                      some t := h
                  show Option.map Json.arr (optMapList (decodeV fuel σ') vs) = some t
                  cases hm : optMapList (decodeV fuel σ0) vs with
                  | none =>
                      rw [hm] at h'
                      simp at h'
                  | some l =>
                      rw [hm] at h'
                      rw [optMapList_congr _ _ vs
                        (fun x _ y hy => decodeV_frame fuel σ0 σ' x y hb hlf hy) l hm]
                      exact h' 

/-- Reading a member of a high value yields a high value. -/
theorem readDefS_high (σ0 σ : Store) (cur : JVal) (k : String) (v : JVal)
    (hInv : Inv σ0 σ) (hcur : refGe σ0.next cur)
    (h : readDefS σ cur k = some v) : refGe σ0.next v := by
  obtain ⟨_, _, hhc, _⟩ := hInv
  cases cur with
  | ref a =>
      have ha : σ0.next ≤ a := hcur a rfl
      have h2 : (match lookupH σ.heap a with
        | some (HNode.obj kvs) => lookupStr kvs k
        | some (HNode.arr vs) => arrGetJ vs k
        | none => none) = some v := h
      clear h
      cases hlk : lookupH σ.heap a with
      | none =>
          rw [hlk] at h2
          simp at h2
      | some nd =>
          rw [hlk] at h2
          have hnd := hhc a nd ha hlk
          cases nd with
          | obj kvs =>
              have h3 : lookupStr kvs k = some v := h2
              obtain ⟨kv, hmem, hkv⟩ := lookupStr_mem kvs k v h3
              exact hkv ▸ hnd kv hmem
          | arr vs =>
              have h3 : arrGetJ vs k = some v := h2
              unfold arrGetJ at h3
              cases hci : canonIdx k with
              | none =>
                  rw [hci] at h3
                  simp at h3
              | some i =>
                  rw [hci] at h3
                  have hv : v ∈ vs := List.get?_mem h3
                  exact hnd v hv
  | str s =>
      have h2 : strCharAtJ s k = some v := h
      unfold strCharAtJ at h2
      cases hci : canonIdx k with
      | none =>
          rw [hci] at h2
          simp at h2
      | some i =>
          rw [hci] at h2
          have h3 : (s.toList.get? i).map (fun c => JVal.str (String.mk [c])) = some v := h2
          cases hg : s.toList.get? i with
          | none =>
              rw [hg] at h3
              simp at h3
          | some c =>
              rw [hg] at h3
              have hv : JVal.str (String.mk [c]) = v := by simpa using h3
              rw [← hv]
              intro a hh
              exact absurd hh (by simp)
  | null => simp [readDefS] at h
  | bool b => simp [readDefS] at h
  | num n => simp [readDefS] at h

mutual

/-- Allocating a pure tree preserves the invariant, yields a high value,
moves the counter forward, and leaves existing addresses unchanged. -/
theorem allocJson_inv :
    ∀ (σ0 σ : Store) (j : Json), Inv σ0 σ →
      Inv σ0 (allocJson σ j).1 ∧ refGe σ0.next (allocJson σ j).2 ∧
        σ.next ≤ (allocJson σ j).1.next ∧
        (∀ a, a < σ.next → lookupH (allocJson σ j).1.heap a = lookupH σ.heap a)
  | σ0, σ, .null, hInv => by
      refine ⟨hInv, ?_, le_refl _, fun a _ => rfl⟩
      intro a h
      rw [show (allocJson σ (Json.null)).2 = JVal.null from rfl] at h
      exact absurd h (by simp)
  | σ0, σ, .bool b, hInv => by
      refine ⟨hInv, ?_, le_refl _, fun a _ => rfl⟩
      intro a h
      rw [show (allocJson σ (Json.bool b)).2 = JVal.bool b from rfl] at h
      exact absurd h (by simp)
  | σ0, σ, .num n, hInv => by
      refine ⟨hInv, ?_, le_refl _, fun a _ => rfl⟩
      intro a h
      rw [show (allocJson σ (Json.num n)).2 = JVal.num n from rfl] at h
      exact absurd h (by simp)
  | σ0, σ, .str s, hInv => by
      refine ⟨hInv, ?_, le_refl _, fun a _ => rfl⟩
      intro a h
      rw [show (allocJson σ (Json.str s)).2 = JVal.str s from rfl] at h
      exact absurd h (by simp)
  | σ0, σ, .arr l, hInv => by
      obtain ⟨hI, hrefs, hnext, hpres⟩ := allocList_inv σ0 σ l hInv
      have hnd : nodeRefsGe σ0.next (.arr (allocList σ l).2) := hrefs
      obtain ⟨hI2, hge, hnexteq, haddr⟩ := Inv_alloc σ0 (allocList σ l).1 _ hI hnd
      refine ⟨hI2, ?_, ?_, ?_⟩
      · intro a ha
        have ha' : JVal.ref (allocList σ l).1.next = JVal.ref a := ha
        have heq := JVal.ref.inj ha'
        rw [← heq]
        exact hI.2.2.2
      · rw [show (allocJson σ (Json.arr l)).1 =
          ((allocList σ l).1.alloc (.arr (allocList σ l).2)).1 from rfl]
        rw [hnexteq]
        omega
      · intro a ha
        rw [show (allocJson σ (Json.arr l)).1 =
          ((allocList σ l).1.alloc (.arr (allocList σ l).2)).1 from rfl]
        rw [alloc_lookup_old (allocList σ l).1 _ hI.2.1 a (by omega)]
        exact hpres a ha
  | σ0, σ, .obj fs, hInv => by
      obtain ⟨hI, hrefs, hnext, hpres⟩ := allocFields_inv σ0 σ fs hInv
      have hnd : nodeRefsGe σ0.next (.obj (allocFields σ fs).2) := hrefs
      obtain ⟨hI2, hge, hnexteq, haddr⟩ := Inv_alloc σ0 (allocFields σ fs).1 _ hI hnd
      refine ⟨hI2, ?_, ?_, ?_⟩
      · intro a ha
        have ha' : JVal.ref (allocFields σ fs).1.next = JVal.ref a := ha
        have heq := JVal.ref.inj ha'
        rw [← heq]
        exact hI.2.2.2
      · rw [show (allocJson σ (Json.obj fs)).1 =
          ((allocFields σ fs).1.alloc (.obj (allocFields σ fs).2)).1 from rfl]
        rw [hnexteq]
        omega
      · intro a ha
        rw [show (allocJson σ (Json.obj fs)).1 =
          ((allocFields σ fs).1.alloc (.obj (allocFields σ fs).2)).1 from rfl]
        rw [alloc_lookup_old (allocFields σ fs).1 _ hI.2.1 a (by omega)]
        exact hpres a ha

/-- Allocating a list of pure trees, elementwise. -/
theorem allocList_inv :
    ∀ (σ0 σ : Store) (l : List Json), Inv σ0 σ →
      Inv σ0 (allocList σ l).1 ∧ (∀ v ∈ (allocList σ l).2, refGe σ0.next v) ∧
        σ.next ≤ (allocList σ l).1.next ∧
        (∀ a, a < σ.next → lookupH (allocList σ l).1.heap a = lookupH σ.heap a)
  | σ0, σ, [], hInv => by
      refine ⟨hInv, ?_, le_refl _, fun a _ => rfl⟩
      intro v hv
      rw [show (allocList σ ([] : List Json)).2 = [] from rfl] at hv
      simp at hv
  | σ0, σ, x :: rest, hInv => by
      obtain ⟨hI1, hr1, hn1, hp1⟩ := allocJson_inv σ0 σ x hInv
      obtain ⟨hI2, hr2, hn2, hp2⟩ := allocList_inv σ0 (allocJson σ x).1 rest hI1
      refine ⟨hI2, ?_, ?_, ?_⟩
      case refine_2 =>
        rw [show (allocList σ (x :: rest)).1 = (allocList (allocJson σ x).1 rest).1 from rfl]
        omega
      · intro v hv
        rw [show (allocList σ (x :: rest)).2 =
          (allocJson σ x).2 :: (allocList (allocJson σ x).1 rest).2 from rfl] at hv
        rcases List.mem_cons.mp hv with h1 | h1
        · exact h1 ▸ hr1
        · exact hr2 v h1
      · intro a ha
        rw [show (allocList σ (x :: rest)).1 =
          (allocList (allocJson σ x).1 rest).1 from rfl]
        rw [hp2 a (by omega)]
        exact hp1 a ha

/-- Allocating the values of a field list, fieldwise. -/
theorem allocFields_inv :
    ∀ (σ0 σ : Store) (fs : List (String × Json)), Inv σ0 σ →
      Inv σ0 (allocFields σ fs).1 ∧
        (∀ kv ∈ (allocFields σ fs).2, refGe σ0.next kv.2) ∧
        σ.next ≤ (allocFields σ fs).1.next ∧
        (∀ a, a < σ.next → lookupH (allocFields σ fs).1.heap a = lookupH σ.heap a)
  | σ0, σ, [], hInv => by
      refine ⟨hInv, ?_, le_refl _, fun a _ => rfl⟩
      intro v hv
      rw [show (allocFields σ ([] : List (String × Json))).2 = [] from rfl] at hv
      simp at hv
  | σ0, σ, kv :: rest, hInv => by
      obtain ⟨hI1, hr1, hn1, hp1⟩ := allocJson_inv σ0 σ kv.2 hInv
      obtain ⟨hI2, hr2, hn2, hp2⟩ := allocFields_inv σ0 (allocJson σ kv.2).1 rest hI1
      refine ⟨hI2, ?_, ?_, ?_⟩
      case refine_2 =>
        rw [show (allocFields σ (kv :: rest)).1 = (allocFields (allocJson σ kv.2).1 rest).1 from rfl]
        omega
      · intro w hw
        rw [show (allocFields σ (kv :: rest)).2 =
          (kv.1, (allocJson σ kv.2).2) :: (allocFields (allocJson σ kv.2).1 rest).2 from rfl] at hw
        rcases List.mem_cons.mp hw with h1 | h1
        · rw [h1]
          exact hr1
        · exact hr2 w h1
      · intro a ha
        rw [show (allocFields σ (kv :: rest)).1 =
          (allocFields (allocJson σ kv.2).1 rest).1 from rfl]
        rw [hp2 a (by omega)]
        exact hp1 a ha

end

/-- The written optional value is high when its content is. -/
theorem getD_refGe (n0 : Nat) (w : Option JVal)
    (hw : ∀ v, w = some v → refGe n0 v) : refGe n0 (w.getD .null) := by
  cases w with
  | none =>
      intro a h
      exact absurd h (by simp)
  | some v => exact hw v rfl

/-- The object node after a field write is high. -/
theorem nodeRefsGe_setAssoc (n0 : Nat) (kvs : List (String × JVal)) (lk : String)
    (v : JVal) (hnd : nodeRefsGe n0 (.obj kvs)) (hv : refGe n0 v) :
    nodeRefsGe n0 (.obj (setAssoc kvs lk v)) := by
  intro kv hmem
  rcases setAssoc_mem kvs lk v kv hmem with h1 | h1
  · exact hnd kv h1
  · rw [h1]
    exact hv

/-- The object node after a field deletion is high. -/
theorem nodeRefsGe_removeAssoc (n0 : Nat) (kvs : List (String × JVal)) (lk : String)
    (hnd : nodeRefsGe n0 (.obj kvs)) :
    nodeRefsGe n0 (.obj (removeAssoc kvs lk)) := by
  intro kv hmem
  exact hnd kv (removeAssoc_mem kvs lk kv hmem)

/-- The array node after an element write is high. -/
theorem nodeRefsGe_arrSetJ (n0 : Nat) (vs : List JVal) (i : Nat) (v : JVal)
    (hnd : nodeRefsGe n0 (.arr vs)) (hv : refGe n0 v) :
    nodeRefsGe n0 (.arr (arrSetJ vs i v)) := by
  intro x hmem
  rcases arrSetJ_mem vs i v x hmem with h1 | h1 | h1
  · exact hnd x h1
  · rw [h1]
    exact hv
  · rw [h1]
    intro a h
    exact absurd h (by simp)

/-- The array node after a splice is high. -/
theorem nodeRefsGe_splice (n0 : Nat) (vs : List JVal) (i : Int)
    (hnd : nodeRefsGe n0 (.arr vs)) :
    nodeRefsGe n0 (.arr (spliceRemoveG vs i)) := by
  intro x hmem
  exact hnd x (spliceRemoveG_mem vs i x hmem)

/-- The array node after an append is high. -/
theorem nodeRefsGe_push (n0 : Nat) (vs : List JVal) (v : JVal)
    (hnd : nodeRefsGe n0 (.arr vs)) (hv : refGe n0 v) :
    nodeRefsGe n0 (.arr (vs ++ [v])) := by
  intro x hmem
  rcases List.mem_append.mp hmem with h1 | h1
  · exact hnd x h1
  · rw [List.mem_singleton.mp h1]
    exact hv

/-- The final assignment preserves the invariant. -/
theorem writeHereS_inv (σ0 σ : Store) (cur : JVal) (lk : String) (w : Option JVal)
    (hInv : Inv σ0 σ) (hcur : refGe σ0.next cur)
    (hw : ∀ v, w = some v → refGe σ0.next v) :
    ∀ σ', writeHereS σ cur lk w = .ok σ' → Inv σ0 σ' := by
  intro σ' h
  cases cur with
  | ref a =>
      have ha : σ0.next ≤ a := hcur a rfl
      cases w with
      | none =>
          have h2 : (match lookupH σ.heap a with
            | some (HNode.obj kvs) =>
                Except.ok (writeNode σ a (HNode.obj (removeAssoc kvs lk)))
            | some (HNode.arr vs) =>
                Except.ok (writeNode σ a (HNode.arr (match canonIdx lk with
                  | some i => arrSetJ vs i JVal.null
                  | none => vs)))
            | none => Except.ok σ) = Except.ok σ' := h
          cases hlk : lookupH σ.heap a with
          | none =>
              rw [hlk] at h2
              have hss : σ = σ' := Except.ok.inj h2
              rw [← hss]
              exact hInv
          | some nd =>
              rw [hlk] at h2
              have hnd := hInv.2.2.1 a nd ha hlk
              cases nd with
              | obj kvs =>
                  have h3 : σ' = writeNode σ a (.obj (removeAssoc kvs lk)) :=
                    (Except.ok.inj h2).symm
                  rw [h3]
                  exact Inv_writeNode σ0 σ a _ hInv ha
                    (nodeRefsGe_removeAssoc σ0.next kvs lk hnd)
              | arr vs =>
                  cases hci : canonIdx lk with
                  | none =>
                      rw [hci] at h2
                      have h3 : σ' = writeNode σ a (.arr vs) := (Except.ok.inj h2).symm
                      rw [h3]
                      exact Inv_writeNode σ0 σ a _ hInv ha hnd
                  | some i =>
                      rw [hci] at h2
                      have h3 : σ' = writeNode σ a (.arr (arrSetJ vs i JVal.null)) :=
                        (Except.ok.inj h2).symm
                      rw [h3]
                      refine Inv_writeNode σ0 σ a _ hInv ha
                        (nodeRefsGe_arrSetJ σ0.next vs i _ hnd ?_)
                      intro b hb
                      exact absurd hb (by simp)
      | some v =>
          have hv : refGe σ0.next v := hw v rfl
          have h2 : (match lookupH σ.heap a with
            | some (HNode.obj kvs) =>
                Except.ok (writeNode σ a (HNode.obj (setAssoc kvs lk v)))
            | some (HNode.arr vs) =>
                Except.ok (writeNode σ a (HNode.arr (match canonIdx lk with
                  | some i => arrSetJ vs i v
                  | none => vs)))
            | none => Except.ok σ) = Except.ok σ' := h
          cases hlk : lookupH σ.heap a with
          | none =>
              rw [hlk] at h2
              have hss : σ = σ' := Except.ok.inj h2
              rw [← hss]
              exact hInv
          | some nd =>
              rw [hlk] at h2
              have hnd := hInv.2.2.1 a nd ha hlk
              cases nd with
              | obj kvs =>
                  have h3 : σ' = writeNode σ a (.obj (setAssoc kvs lk v)) :=
                    (Except.ok.inj h2).symm
                  rw [h3]
                  exact Inv_writeNode σ0 σ a _ hInv ha
                    (nodeRefsGe_setAssoc σ0.next kvs lk v hnd hv)
              | arr vs =>
                  cases hci : canonIdx lk with
                  | none =>
                      rw [hci] at h2
                      have h3 : σ' = writeNode σ a (.arr vs) := (Except.ok.inj h2).symm
                      rw [h3]
                      exact Inv_writeNode σ0 σ a _ hInv ha hnd
                  | some i =>
                      rw [hci] at h2
                      have h3 : σ' = writeNode σ a (.arr (arrSetJ vs i v)) :=
                        (Except.ok.inj h2).symm
                      rw [h3]
                      exact Inv_writeNode σ0 σ a _ hInv ha
                        (nodeRefsGe_arrSetJ σ0.next vs i _ hnd hv)
  | null => exact absurd h (by simp [writeHereS])
  | bool b => exact absurd h (by simp [writeHereS])
  | num n => exact absurd h (by simp [writeHereS])
  | str s => exact absurd h (by simp [writeHereS])

/-- The unguarded assignment walk preserves the invariant. -/
theorem writeAtPartsS_inv (σ0 : Store) :
    ∀ (parts : List String) (σ : Store) (cur : JVal) (w : Option JVal),
      Inv σ0 σ → refGe σ0.next cur →
      (∀ v, w = some v → refGe σ0.next v) →
      ∀ σ', writeAtPartsS σ cur parts w = .ok σ' → Inv σ0 σ'
  | [], σ, cur, w, hInv, _, _, σ', h => by
      have : σ = σ' := Except.ok.inj h
      rw [← this]
      exact hInv
  | [lk], σ, cur, w, hInv, hcur, hw, σ', h =>
      writeHereS_inv σ0 σ cur lk w hInv hcur hw σ' h
  | key :: k2 :: rest, σ, cur, w, hInv, hcur, hw, σ', h => by
      cases cur with
      | ref a =>
          have ha : σ0.next ≤ a := hcur a rfl
          have h0 : (match lookupH σ.heap a with
            | some (HNode.obj kvs) =>
                (match lookupStr kvs key with
                  | some child => writeAtPartsS σ child (k2 :: rest) w
                  | none => Except.error JsErr.typeError)
            | some (HNode.arr vs) =>
                (match arrGetJ vs key with
                  | some child => writeAtPartsS σ child (k2 :: rest) w
                  | none => Except.error JsErr.typeError)
            | none => Except.ok σ) = Except.ok σ' := h
          cases hlk : lookupH σ.heap a with
          | none =>
              rw [hlk] at h0
              have hss : σ = σ' := Except.ok.inj h0
              rw [← hss]
              exact hInv
          | some nd =>
              rw [hlk] at h0
              have hnd := hInv.2.2.1 a nd ha hlk
              cases nd with
              | obj kvs =>
                  have h2 : (match lookupStr kvs key with
                    | some child => writeAtPartsS σ child (k2 :: rest) w
                    | none => Except.error JsErr.typeError) = Except.ok σ' := h0
                  cases hls : lookupStr kvs key with
                  | none =>
                      rw [hls] at h2
                      exact absurd h2 (by simp)
                  | some child =>
                      rw [hls] at h2
                      obtain ⟨kv, hmem, hkv⟩ := lookupStr_mem kvs key child hls
                      exact writeAtPartsS_inv σ0 (k2 :: rest) σ child w hInv
                        (hkv ▸ hnd kv hmem) hw σ' h2
              | arr vs =>
                  have h2 : (match arrGetJ vs key with
                    | some child => writeAtPartsS σ child (k2 :: rest) w
                    | none => Except.error JsErr.typeError) = Except.ok σ' := h0
                  cases hls : arrGetJ vs key with
                  | none =>
                      rw [hls] at h2
                      exact absurd h2 (by simp)
                  | some child =>
                      rw [hls] at h2
                      have hchild : refGe σ0.next child := by
                        unfold arrGetJ at hls
                        cases hci : canonIdx key with
                        | none =>
                            rw [hci] at hls
                            simp at hls
                        | some i =>
                            rw [hci] at hls
                            exact hnd child (List.get?_mem hls)
                      exact writeAtPartsS_inv σ0 (k2 :: rest) σ child w hInv hchild hw σ' h2
      | null => exact absurd h (by simp [writeAtPartsS])
      | bool b => exact absurd h (by simp [writeAtPartsS])
      | num n => exact absurd h (by simp [writeAtPartsS])
      | str s => exact absurd h (by simp [writeAtPartsS])

/-- The final `add` assignment preserves the invariant. -/
theorem addFinalS_inv (σ0 σ : Store) (cur : JVal) (lk : String) (w : Option JVal)
    (hInv : Inv σ0 σ) (hcur : refGe σ0.next cur)
    (hw : ∀ v, w = some v → refGe σ0.next v) :
    ∀ σ', addFinalS σ cur lk w = .ok σ' → Inv σ0 σ' := by
  intro σ' h
  cases cur with
  | ref a =>
      have ha : σ0.next ≤ a := hcur a rfl
      have hwGe : refGe σ0.next (w.getD .null) := getD_refGe σ0.next w hw
      have h2 : ((match lookupH σ.heap a with
        | some (HNode.arr vs) =>
            if lk = "-" then
              Except.ok (writeNode σ a (HNode.arr (vs ++ [w.getD JVal.null])))
            else
              Except.ok (writeNode σ a (HNode.arr (match canonIdx lk with
                | some i => arrSetJ vs i (w.getD JVal.null)
                | none => vs)))
        | some (HNode.obj kvs) =>
            Except.ok (writeNode σ a (HNode.obj (match w with
              | some v => setAssoc kvs lk v
              | none => removeAssoc kvs lk)))
        | none => Except.ok σ) : Except JsErr Store) = Except.ok σ' := by
        cases w with
        | none => exact h
        | some v => exact h
      cases hlk : lookupH σ.heap a with
      | none =>
          rw [hlk] at h2
          have hss : σ = σ' := Except.ok.inj h2
          rw [← hss]
          exact hInv
      | some nd =>
          rw [hlk] at h2
          have hnd := hInv.2.2.1 a nd ha hlk
          cases nd with
          | obj kvs =>
              cases w with
              | none =>
                  have h3 : σ' = writeNode σ a (.obj (removeAssoc kvs lk)) :=
                    (Except.ok.inj h2).symm
                  rw [h3]
                  exact Inv_writeNode σ0 σ a _ hInv ha
                    (nodeRefsGe_removeAssoc σ0.next kvs lk hnd)
              | some v =>
                  have h3 : σ' = writeNode σ a (.obj (setAssoc kvs lk v)) :=
                    (Except.ok.inj h2).symm
                  rw [h3]
                  exact Inv_writeNode σ0 σ a _ hInv ha
                    (nodeRefsGe_setAssoc σ0.next kvs lk v hnd (hw v rfl))
          | arr vs =>
              have h4 : ((if lk = "-" then
                  Except.ok (writeNode σ a (HNode.arr (vs ++ [w.getD JVal.null])))
                else
                  Except.ok (writeNode σ a (HNode.arr (match canonIdx lk with
                    | some i => arrSetJ vs i (w.getD JVal.null)
                    | none => vs)))) : Except JsErr Store) = Except.ok σ' := h2
              by_cases hdash : lk = "-"
              · rw [if_pos hdash] at h4
                have h3 : σ' = writeNode σ a (.arr (vs ++ [w.getD .null])) :=
                  (Except.ok.inj h4).symm
                rw [h3]
                exact Inv_writeNode σ0 σ a _ hInv ha
                  (nodeRefsGe_push σ0.next vs _ hnd hwGe)
              · rw [if_neg hdash] at h4
                cases hci : canonIdx lk with
                | none =>
                    rw [hci] at h4
                    have h3 : σ' = writeNode σ a (.arr vs) := (Except.ok.inj h4).symm
                    rw [h3]
                    exact Inv_writeNode σ0 σ a _ hInv ha hnd
                | some i =>
                    rw [hci] at h4
                    have h3 : σ' = writeNode σ a (.arr (arrSetJ vs i (w.getD .null))) :=
                      (Except.ok.inj h4).symm
                    rw [h3]
                    exact Inv_writeNode σ0 σ a _ hInv ha
                      (nodeRefsGe_arrSetJ σ0.next vs i _ hnd hwGe)
  | null => exact absurd h (by simp [addFinalS])
  | bool b => exact absurd h (by simp [addFinalS])
  | num n => exact absurd h (by simp [addFinalS])
  | str s => exact absurd h (by simp [addFinalS])

/-- A fresh empty container preserves the invariant and is high. -/
theorem allocFreshContainer_inv (σ0 σ : Store) (next : String) (hInv : Inv σ0 σ) :
    Inv σ0 (allocFreshContainer σ next).1 ∧
      refGe σ0.next (allocFreshContainer σ next).2 := by
  have hemp : nodeRefsGe σ0.next (if isNumericJS next then HNode.arr [] else HNode.obj []) := by
    by_cases hn : isNumericJS next
    · rw [if_pos hn]
      intro x hx
      simp at hx
    · rw [if_neg hn]
      intro kv hkv
      simp at hkv
  obtain ⟨hI, hge, hne, haddr⟩ := Inv_alloc σ0 σ _ hInv hemp
  refine ⟨hI, ?_⟩
  intro b hb
  have hb' : JVal.ref (σ.alloc
      (if isNumericJS next then HNode.arr [] else HNode.obj [])).2 = JVal.ref b := hb
  rw [← JVal.ref.inj hb']
  exact hge

/-- A string element is never a reference. -/
theorem strCharAtJ_refGe (n0 : Nat) (s k : String) (v : JVal)
    (h : strCharAtJ s k = some v) : refGe n0 v := by
  unfold strCharAtJ at h
  cases hci : canonIdx k with
  | none =>
      rw [hci] at h
      simp at h
  | some i =>
      rw [hci] at h
      have h3 : (s.toList.get? i).map (fun c => JVal.str (String.mk [c])) = some v := h
      cases hg : s.toList.get? i with
      | none =>
          rw [hg] at h3
          simp at h3
      | some c =>
          rw [hg] at h3
          have hv : JVal.str (String.mk [c]) = v := by simpa using h3
          rw [← hv]
          intro a hh
          exact absurd hh (by simp)

/-- The `add` walk preserves the invariant. -/
theorem addS_inv (σ0 : Store) :
    ∀ (parts : List String) (σ : Store) (cur : JVal) (w : Option JVal),
      Inv σ0 σ → refGe σ0.next cur →
      (∀ v, w = some v → refGe σ0.next v) →
      ∀ σ', addS σ cur parts w = .ok σ' → Inv σ0 σ'
  | [], σ, cur, w, hInv, _, _, σ', h => by
      have hss : σ = σ' := Except.ok.inj h
      rw [← hss]
      exact hInv
  | [lk], σ, cur, w, hInv, hcur, hw, σ', h =>
      addFinalS_inv σ0 σ cur lk w hInv hcur hw σ' h
  | key :: k2 :: rest, σ, cur, w, hInv, hcur, hw, σ', h => by
      cases cur with
      | ref a =>
          have ha : σ0.next ≤ a := hcur a rfl
          have h0 : ((match lookupH σ.heap a with
            | some (HNode.obj kvs) =>
                (match lookupStr kvs key with
                  | some child => addS σ child (k2 :: rest) w
                  | none =>
                      addS (writeNode (allocFreshContainer σ k2).1 a
                          (.obj (setAssoc kvs key (allocFreshContainer σ k2).2)))
                        (allocFreshContainer σ k2).2 (k2 :: rest) w)
            | some (HNode.arr vs) =>
                (match canonIdx key with
                  | some i =>
                      (match vs.get? i with
                        | some child => addS σ child (k2 :: rest) w
                        | none =>
                            addS (writeNode (allocFreshContainer σ k2).1 a
                                (.arr (arrSetJ vs i (allocFreshContainer σ k2).2)))
                              (allocFreshContainer σ k2).2 (k2 :: rest) w)
                  | none => Except.ok σ)
            | none => Except.ok σ) : Except JsErr Store) = Except.ok σ' := h
          obtain ⟨hfI, hfref⟩ := allocFreshContainer_inv σ0 σ k2 hInv
          cases hlk : lookupH σ.heap a with
          | none =>
              rw [hlk] at h0
              have hss : σ = σ' := Except.ok.inj h0
              rw [← hss]
              exact hInv
          | some nd =>
              rw [hlk] at h0
              have hnd := hInv.2.2.1 a nd ha hlk
              cases nd with
              | obj kvs =>
                  have h2 : (match lookupStr kvs key with
                    | some child => addS σ child (k2 :: rest) w
                    | none =>
                        addS (writeNode (allocFreshContainer σ k2).1 a
                            (.obj (setAssoc kvs key (allocFreshContainer σ k2).2)))
                          (allocFreshContainer σ k2).2 (k2 :: rest) w) = Except.ok σ' := h0
                  cases hls : lookupStr kvs key with
                  | some child =>
                      rw [hls] at h2
                      obtain ⟨kv, hmem, hkv⟩ := lookupStr_mem kvs key child hls
                      exact addS_inv σ0 (k2 :: rest) σ child w hInv
                        (hkv ▸ hnd kv hmem) hw σ' h2
                  | none =>
                      rw [hls] at h2
                      have hI2 : Inv σ0 (writeNode (allocFreshContainer σ k2).1 a
                          (.obj (setAssoc kvs key (allocFreshContainer σ k2).2))) :=
                        Inv_writeNode σ0 _ a _ hfI ha
                          (nodeRefsGe_setAssoc σ0.next kvs key _ hnd hfref)
                      exact addS_inv σ0 (k2 :: rest) _ _ w hI2 hfref hw σ' h2
              | arr vs =>
                  have h2 : (match canonIdx key with
                    | some i =>
                        (match vs.get? i with
                          | some child => addS σ child (k2 :: rest) w
                          | none =>
                              addS (writeNode (allocFreshContainer σ k2).1 a
                                  (.arr (arrSetJ vs i (allocFreshContainer σ k2).2)))
                                (allocFreshContainer σ k2).2 (k2 :: rest) w)
                    | none => Except.ok σ) = Except.ok σ' := h0
                  cases hci : canonIdx key with
                  | none =>
                      rw [hci] at h2
                      have hss : σ = σ' := Except.ok.inj h2
                      rw [← hss]
                      exact hInv
                  | some i =>
                      rw [hci] at h2
                      have h3 : (match vs.get? i with
                        | some child => addS σ child (k2 :: rest) w
                        | none =>
                            addS (writeNode (allocFreshContainer σ k2).1 a
                                (.arr (arrSetJ vs i (allocFreshContainer σ k2).2)))
                              (allocFreshContainer σ k2).2 (k2 :: rest) w) =
                          Except.ok σ' := h2
                      cases hg : vs.get? i with
                      | some child =>
                          rw [hg] at h3
                          exact addS_inv σ0 (k2 :: rest) σ child w hInv
                            (hnd child (List.get?_mem hg)) hw σ' h3
                      | none =>
                          rw [hg] at h3
                          have hI2 : Inv σ0 (writeNode (allocFreshContainer σ k2).1 a
                              (.arr (arrSetJ vs i (allocFreshContainer σ k2).2))) :=
                            Inv_writeNode σ0 _ a _ hfI ha
                              (nodeRefsGe_arrSetJ σ0.next vs i _ hnd hfref)
                          exact addS_inv σ0 (k2 :: rest) _ _ w hI2 hfref hw σ' h3
      | null => exact absurd h (by simp [addS])
      | bool b => exact absurd h (by simp [addS])
      | num n => exact absurd h (by simp [addS])
      | str s => exact absurd h (by simp [addS])

/-- The final deletion preserves the invariant. -/
theorem removeHereS_inv (σ0 σ : Store) (cur : JVal) (lk : String)
    (hInv : Inv σ0 σ) (hcur : refGe σ0.next cur) :
    ∀ σ', removeHereS σ cur lk = .ok σ' → Inv σ0 σ' := by
  intro σ' h
  cases cur with
  | ref a =>
      have ha : σ0.next ≤ a := hcur a rfl
      have h2 : ((match lookupH σ.heap a with
        | some (HNode.arr vs) =>
            Except.ok (writeNode σ a (HNode.arr (match parseIntOpt lk with
              | some i => spliceRemoveG vs i
              | none => vs)))
        | some (HNode.obj kvs) =>
            Except.ok (writeNode σ a (HNode.obj (removeAssoc kvs lk)))
        | none => Except.ok σ) : Except JsErr Store) = Except.ok σ' := h
      cases hlk : lookupH σ.heap a with
      | none =>
          rw [hlk] at h2
          have hss : σ = σ' := Except.ok.inj h2
          rw [← hss]
          exact hInv
      | some nd =>
          rw [hlk] at h2
          have hnd := hInv.2.2.1 a nd ha hlk
          cases nd with
          | obj kvs =>
              have h3 : σ' = writeNode σ a (.obj (removeAssoc kvs lk)) :=
                (Except.ok.inj h2).symm
              rw [h3]
              exact Inv_writeNode σ0 σ a _ hInv ha
                (nodeRefsGe_removeAssoc σ0.next kvs lk hnd)
          | arr vs =>
              cases hpi : parseIntOpt lk with
              | none =>
                  rw [hpi] at h2
                  have h3 : σ' = writeNode σ a (.arr vs) := (Except.ok.inj h2).symm
                  rw [h3]
                  exact Inv_writeNode σ0 σ a _ hInv ha hnd
              | some i =>
                  rw [hpi] at h2
                  have h3 : σ' = writeNode σ a (.arr (spliceRemoveG vs i)) :=
                    (Except.ok.inj h2).symm
                  rw [h3]
                  exact Inv_writeNode σ0 σ a _ hInv ha
                    (nodeRefsGe_splice σ0.next vs i hnd)
  | str s =>
      have h2 : ((match canonIdx lk with
        | some i =>
            if i < s.toList.length then Except.error JsErr.typeError else Except.ok σ
        | none => Except.ok σ) : Except JsErr Store) = Except.ok σ' := h
      cases hci : canonIdx lk with
      | none =>
          rw [hci] at h2
          have hss : σ = σ' := Except.ok.inj h2
          rw [← hss]
          exact hInv
      | some i =>
          rw [hci] at h2
          have h3 : (if i < s.toList.length then Except.error JsErr.typeError
              else Except.ok σ) = Except.ok σ' := h2
          by_cases hlt : i < s.toList.length
          · rw [if_pos hlt] at h3
            exact absurd h3 (by simp)
          · rw [if_neg hlt] at h3
            have hss : σ = σ' := Except.ok.inj h3
            rw [← hss]
            exact hInv
  | null =>
      have hss : σ = σ' := Except.ok.inj h
      rw [← hss]
      exact hInv
  | bool b =>
      have hss : σ = σ' := Except.ok.inj h
      rw [← hss]
      exact hInv
  | num n =>
      have hss : σ = σ' := Except.ok.inj h
      rw [← hss]
      exact hInv

/-- The `remove` walk preserves the invariant. -/
theorem removeS_inv (σ0 : Store) :
    ∀ (parts : List String) (σ : Store) (cur : JVal),
      Inv σ0 σ → refGe σ0.next cur →
      ∀ σ', removeS σ cur parts = .ok σ' → Inv σ0 σ'
  | [], σ, cur, hInv, _, σ', h => by
      have hss : σ = σ' := Except.ok.inj h
      rw [← hss]
      exact hInv
  | [lk], σ, cur, hInv, hcur, σ', h => by
      have h2 : (if jvTruthy cur then removeHereS σ cur lk else Except.ok σ) =
          Except.ok σ' := h
      by_cases ht : jvTruthy cur
      · rw [if_pos ht] at h2
        exact removeHereS_inv σ0 σ cur lk hInv hcur σ' h2
      · rw [if_neg ht] at h2
        have hss : σ = σ' := Except.ok.inj h2
        rw [← hss]
        exact hInv
  | key :: k2 :: rest, σ, cur, hInv, hcur, σ', h => by
      have h2 : (if jvTruthy cur then
          (match readDefS σ cur key with
            | some child => removeS σ child (k2 :: rest)
            | none => Except.ok σ)
        else Except.ok σ) = Except.ok σ' := h
      by_cases ht : jvTruthy cur
      · rw [if_pos ht] at h2
        cases hrd : readDefS σ cur key with
        | none =>
            rw [hrd] at h2
            have hss : σ = σ' := Except.ok.inj h2
            rw [← hss]
            exact hInv
        | some child =>
            rw [hrd] at h2
            exact removeS_inv σ0 (k2 :: rest) σ child hInv
              (readDefS_high σ0 σ cur key child hInv hcur hrd) σ' h2
      · rw [if_neg ht] at h2
        have hss : σ = σ' := Except.ok.inj h2
        rw [← hss]
        exact hInv

/-- The `move` source phase preserves the invariant and takes a high
value. -/
theorem moveTakeS_inv (σ0 : Store) :
    ∀ (parts : List String) (σ : Store) (cur : JVal),
      Inv σ0 σ → refGe σ0.next cur →
      ∀ σ' v, moveTakeS σ cur parts = .ok (σ', v) →
        Inv σ0 σ' ∧ (∀ x, v = some x → refGe σ0.next x)
  | [], σ, cur, hInv, _, σ', v, h => by
      have hp : (σ, (none : Option JVal)) = (σ', v) := Except.ok.inj h
      obtain ⟨h1, h2⟩ := Prod.mk.injEq .. ▸ hp
      refine ⟨h1 ▸ hInv, ?_⟩
      intro x hx
      rw [← h2] at hx
      exact absurd hx (by simp)
  | [sk], σ, cur, hInv, hcur, σ', v, h => by
      cases cur with
      | null => exact absurd h (by simp [moveTakeS])
      | ref a =>
          have ha : σ0.next ≤ a := hcur a rfl
          have h0 : ((match lookupH σ.heap a with
            | some (HNode.arr vs) =>
                Except.ok (writeNode σ a (HNode.arr (match parseIntOpt sk with
                  | some i => spliceRemoveG vs i
                  | none => vs)), arrGetJ vs sk)
            | some (HNode.obj kvs) =>
                Except.ok (writeNode σ a (HNode.obj (removeAssoc kvs sk)), lookupStr kvs sk)
            | none => Except.ok (σ, none)) :
              Except JsErr (Store × Option JVal)) = Except.ok (σ', v) := h
          cases hlk : lookupH σ.heap a with
          | none =>
              rw [hlk] at h0
              have hp : (σ, (none : Option JVal)) = (σ', v) := Except.ok.inj h0
              obtain ⟨h1, h2⟩ := Prod.mk.injEq .. ▸ hp
              refine ⟨h1 ▸ hInv, ?_⟩
              intro x hx
              rw [← h2] at hx
              exact absurd hx (by simp)
          | some nd =>
              rw [hlk] at h0
              have hnd := hInv.2.2.1 a nd ha hlk
              cases nd with
              | obj kvs =>
                  have hp : (writeNode σ a (HNode.obj (removeAssoc kvs sk)),
                      lookupStr kvs sk) = (σ', v) := Except.ok.inj h0
                  obtain ⟨h1, h2⟩ := Prod.mk.injEq .. ▸ hp
                  refine ⟨h1 ▸ Inv_writeNode σ0 σ a _ hInv ha
                    (nodeRefsGe_removeAssoc σ0.next kvs sk hnd), ?_⟩
                  intro x hx
                  rw [← h2] at hx
                  obtain ⟨kv, hmem, hkv⟩ := lookupStr_mem kvs sk x hx
                  exact hkv ▸ hnd kv hmem
              | arr vs =>
                  have hp : (writeNode σ a (HNode.arr (match parseIntOpt sk with
                      | some i => spliceRemoveG vs i
                      | none => vs)), arrGetJ vs sk) = (σ', v) := Except.ok.inj h0
                  obtain ⟨h1, h2⟩ := Prod.mk.injEq .. ▸ hp
                  constructor
                  · rw [← h1]
                    cases hpi : parseIntOpt sk with
                    | none => exact Inv_writeNode σ0 σ a _ hInv ha hnd
                    | some i =>
                        exact Inv_writeNode σ0 σ a _ hInv ha
                          (nodeRefsGe_splice σ0.next vs i hnd)
                  · intro x hx
                    rw [← h2] at hx
                    unfold arrGetJ at hx
                    cases hci : canonIdx sk with
                    | none =>
                        rw [hci] at hx
                        simp at hx
                    | some i =>
                        rw [hci] at hx
                        exact hnd x (List.get?_mem hx)
      | str s =>
          have h0 : ((match canonIdx sk with
            | some i =>
                if i < s.toList.length then Except.error JsErr.typeError
                else Except.ok (σ, none)
            | none => Except.ok (σ, none)) :
              Except JsErr (Store × Option JVal)) = Except.ok (σ', v) := h
          have hdone : (σ, (none : Option JVal)) = (σ', v) → 
              Inv σ0 σ' ∧ (∀ x, v = some x → refGe σ0.next x) := by
            intro hp
            obtain ⟨h1, h2⟩ := Prod.mk.injEq .. ▸ hp
            refine ⟨h1 ▸ hInv, ?_⟩
            intro x hx
            rw [← h2] at hx
            exact absurd hx (by simp)
          cases hci : canonIdx sk with
          | none =>
              rw [hci] at h0
              exact hdone (Except.ok.inj h0)
          | some i =>
              rw [hci] at h0
              have h3 : (if i < s.toList.length then Except.error JsErr.typeError
                  else Except.ok ((σ, none) : Store × Option JVal)) =
                  Except.ok (σ', v) := h0
              by_cases hlt : i < s.toList.length
              · rw [if_pos hlt] at h3
                exact absurd h3 (by simp)
              · rw [if_neg hlt] at h3
                exact hdone (Except.ok.inj h3)
      | bool b =>
          have hp : (σ, (none : Option JVal)) = (σ', v) := Except.ok.inj h
          obtain ⟨h1, h2⟩ := Prod.mk.injEq .. ▸ hp
          refine ⟨h1 ▸ hInv, ?_⟩
          intro x hx
          rw [← h2] at hx
          exact absurd hx (by simp)
      | num n =>
          have hp : (σ, (none : Option JVal)) = (σ', v) := Except.ok.inj h
          obtain ⟨h1, h2⟩ := Prod.mk.injEq .. ▸ hp
          refine ⟨h1 ▸ hInv, ?_⟩
          intro x hx
          rw [← h2] at hx
          exact absurd hx (by simp)
  | key :: k2 :: rest, σ, cur, hInv, hcur, σ', v, h => by
      cases cur with
      | null => exact absurd h (by simp [moveTakeS])
      | ref a =>
          have ha : σ0.next ≤ a := hcur a rfl
          have h0 : ((match lookupH σ.heap a with
            | some (HNode.obj kvs) =>
                (match lookupStr kvs key with
                  | some child => moveTakeS σ child (k2 :: rest)
                  | none => Except.error JsErr.typeError)
            | some (HNode.arr vs) =>
                (match arrGetJ vs key with
                  | some child => moveTakeS σ child (k2 :: rest)
                  | none => Except.error JsErr.typeError)
            | none => Except.error JsErr.typeError) :
              Except JsErr (Store × Option JVal)) = Except.ok (σ', v) := h
          cases hlk : lookupH σ.heap a with
          | none =>
              rw [hlk] at h0
              exact absurd h0 (by simp)
          | some nd =>
              rw [hlk] at h0
              have hnd := hInv.2.2.1 a nd ha hlk
              cases nd with
              | obj kvs =>
                  have h2 : (match lookupStr kvs key with
                    | some child => moveTakeS σ child (k2 :: rest)
                    | none => Except.error JsErr.typeError) = Except.ok (σ', v) := h0
                  cases hls : lookupStr kvs key with
                  | none =>
                      rw [hls] at h2
                      exact absurd h2 (by simp)
                  | some child =>
                      rw [hls] at h2
                      obtain ⟨kv, hmem, hkv⟩ := lookupStr_mem kvs key child hls
                      exact moveTakeS_inv σ0 (k2 :: rest) σ child hInv
                        (hkv ▸ hnd kv hmem) σ' v h2
              | arr vs =>
                  have h2 : (match arrGetJ vs key with
                    | some child => moveTakeS σ child (k2 :: rest)
                    | none => Except.error JsErr.typeError) = Except.ok (σ', v) := h0
                  cases hls : arrGetJ vs key with
                  | none =>
                      rw [hls] at h2
                      exact absurd h2 (by simp)
                  | some child =>
                      rw [hls] at h2
                      have hchild : refGe σ0.next child := by
                        unfold arrGetJ at hls
                        cases hci : canonIdx key with
                        | none =>
                            rw [hci] at hls
                            simp at hls
                        | some i =>
                            rw [hci] at hls
                            exact hnd child (List.get?_mem hls)
                      exact moveTakeS_inv σ0 (k2 :: rest) σ child hInv hchild σ' v h2
      | str s =>
          have h0 : ((match strCharAtJ s key with
            | some c => moveTakeS σ c (k2 :: rest)
            | none => Except.error JsErr.typeError) :
              Except JsErr (Store × Option JVal)) = Except.ok (σ', v) := h
          cases hsc : strCharAtJ s key with
          | none =>
              rw [hsc] at h0
              exact absurd h0 (by simp)
          | some c =>
              rw [hsc] at h0
              exact moveTakeS_inv σ0 (k2 :: rest) σ c hInv
                (strCharAtJ_refGe σ0.next s key c hsc) σ' v h0
      | bool b => exact absurd h (by simp [moveTakeS])
      | num n => exact absurd h (by simp [moveTakeS])

/-- Allocating a patch value preserves the invariant and yields a high
value. -/
theorem allocValue_inv (σ0 σ : Store) (w : Option Json) (hInv : Inv σ0 σ) :
    Inv σ0 (allocValue σ w).1 ∧
      (∀ v, (allocValue σ w).2 = some v → refGe σ0.next v) := by
  cases w with
  | none => exact ⟨hInv, fun v hv => absurd hv (by simp [allocValue])⟩
  | some j =>
      obtain ⟨hI, href, _, _⟩ := allocJson_inv σ0 σ j hInv
      refine ⟨hI, ?_⟩
      intro v hv
      have hv' : some (allocJson σ j).2 = some v := hv
      rw [← Option.some.inj hv']
      exact href

/-- The `copy` read phase preserves the invariant and yields a high
value. -/
theorem copyReadS_inv (σ0 : Store) :
    ∀ (parts : List String) (σ : Store) (cur : JVal),
      Inv σ0 σ → refGe σ0.next cur →
      ∀ σ' v, copyReadS σ cur parts = .ok (σ', v) →
        Inv σ0 σ' ∧ (∀ x, v = some x → refGe σ0.next x)
  | [], σ, cur, hInv, _, σ', v, h => by
      have hp : (σ, (none : Option JVal)) = (σ', v) := Except.ok.inj h
      obtain ⟨h1, h2⟩ := Prod.mk.injEq .. ▸ hp
      refine ⟨h1 ▸ hInv, ?_⟩
      intro x hx
      rw [← h2] at hx
      exact absurd hx (by simp)
  | [sk], σ, cur, hInv, hcur, σ', v, h => by
      have hstep : ∀ (hne : cur ≠ JVal.null),
          ((match readDefS σ cur sk with
            | some v0 =>
                (match decodeV (σ.next + 1) σ v0 with
                  | some t => Except.ok ((allocJson σ t).1, some (allocJson σ t).2)
                  | none => Except.error JsErr.typeError)
            | none => Except.error JsErr.syntaxError) :
              Except JsErr (Store × Option JVal)) = Except.ok (σ', v) →
          Inv σ0 σ' ∧ (∀ x, v = some x → refGe σ0.next x) := by
        intro hne h0
        cases hrd : readDefS σ cur sk with
        | none =>
            rw [hrd] at h0
            exact absurd h0 (by simp)
        | some v0 =>
            rw [hrd] at h0
            have h1 : ((match decodeV (σ.next + 1) σ v0 with
              | some t => Except.ok ((allocJson σ t).1, some (allocJson σ t).2)
              | none => Except.error JsErr.typeError) :
                Except JsErr (Store × Option JVal)) = Except.ok (σ', v) := h0
            cases hdv : decodeV (σ.next + 1) σ v0 with
            | none =>
                rw [hdv] at h1
                exact absurd h1 (by simp)
            | some t =>
                rw [hdv] at h1
                have hp : ((allocJson σ t).1, some (allocJson σ t).2) = (σ', v) :=
                  Except.ok.inj h1
                obtain ⟨h1, h2⟩ := Prod.mk.injEq .. ▸ hp
                obtain ⟨hI, href, _, _⟩ := allocJson_inv σ0 σ t hInv
                refine ⟨h1 ▸ hI, ?_⟩
                intro x hx
                rw [← h2] at hx
                rw [← Option.some.inj hx]
                exact href
      cases cur with
      | null => exact absurd h (by simp [copyReadS])
      | ref a => exact hstep (by simp) h
      | str s => exact hstep (by simp) h
      | bool b => exact hstep (by simp) h
      | num n => exact hstep (by simp) h
  | key :: k2 :: rest, σ, cur, hInv, hcur, σ', v, h => by
      have hstep : ((match readDefS σ cur key with
            | some child => copyReadS σ child (k2 :: rest)
            | none => Except.error JsErr.typeError) :
              Except JsErr (Store × Option JVal)) = Except.ok (σ', v) →
          Inv σ0 σ' ∧ (∀ x, v = some x → refGe σ0.next x) := by
        intro h0
        cases hrd : readDefS σ cur key with
        | none =>
            rw [hrd] at h0
            exact absurd h0 (by simp)
        | some child =>
            rw [hrd] at h0
            exact copyReadS_inv σ0 (k2 :: rest) σ child hInv
              (readDefS_high σ0 σ cur key child hInv hcur hrd) σ' v h0
      cases cur with
      | null => exact absurd h (by simp [copyReadS])
      | ref a => exact hstep h
      | str s => exact hstep h
      | bool b => exact hstep h
      | num n => exact hstep h

/-- A successful `test` leaves the store unchanged. -/
theorem testOpS_ok (σ : Store) (root : JVal) (parts : List String) (v : Option Json) :
    ∀ σ', testOpS σ root parts v = .ok σ' → σ' = σ := by
  intro σ' h
  unfold testOpS at h
  cases hta : testActualS σ (some root) parts with
  | error e =>
      rw [hta] at h
      have h2 : (Except.error e : Except JsErr Store) = Except.ok σ' := h
      exact absurd h2 (by simp)
  | ok actual =>
      rw [hta] at h
      cases actual with
      | none =>
          have h2 : (if (none : Option String) = stringifyOpt v then Except.ok σ
              else Except.error (JsErr.testFailed ((stringifyOpt v).getD "undefined")
                ((none : Option String).getD "undefined"))) = Except.ok σ' := h
          by_cases hif : (none : Option String) = stringifyOpt v
          · rw [if_pos hif] at h2
            exact (Except.ok.inj h2).symm
          · rw [if_neg hif] at h2
            exact absurd h2 (by simp)
      | some jv =>
          have h2 : ((match decodeV (σ.next + 1) σ jv with
            | some t =>
                if some (encodeJson t) = stringifyOpt v then Except.ok σ
                else Except.error (JsErr.testFailed ((stringifyOpt v).getD "undefined")
                  ((some (encodeJson t)).getD "undefined"))
            | none => Except.error JsErr.typeError) : Except JsErr Store) =
              Except.ok σ' := h
          cases hdv : decodeV (σ.next + 1) σ jv with
          | none =>
              rw [hdv] at h2
              exact absurd h2 (by simp)
          | some t =>
              rw [hdv] at h2
              have h3 : (if some (encodeJson t) = stringifyOpt v then Except.ok σ
                  else Except.error (JsErr.testFailed ((stringifyOpt v).getD "undefined")
                    ((some (encodeJson t)).getD "undefined"))) = Except.ok σ' := h2
              by_cases hif : some (encodeJson t) = stringifyOpt v
              · rw [if_pos hif] at h3
                exact (Except.ok.inj h3).symm
              · rw [if_neg hif] at h3
                exact absurd h3 (by simp)

/-- The post-state obligation carried through the dispatch proofs: the
invariant holds for the returned store, and a successfully returned root
is high. -/
def PInv (σ0 : Store) (pr : Store × Except JsErr JVal) : Prop :=
  Inv σ0 pr.1 ∧ ∀ r, pr.2 = Except.ok r → refGe σ0.next r

/-- An error result carries only the invariant obligation. -/
theorem PInv_err (σ0 σA : Store) (e : JsErr) (h : Inv σ0 σA) :
    PInv σ0 (σA, Except.error e) :=
  ⟨h, fun r hr => absurd hr (by simp)⟩

/-- A successful result packages the invariant and the high root. -/
theorem PInv_okRoot (σ0 σA : Store) (root : JVal) (h : Inv σ0 σA)
    (hroot : refGe σ0.next root) : PInv σ0 (σA, Except.ok root) :=
  ⟨h, fun r hr => (Except.ok.inj hr) ▸ hroot⟩

/-- The op dispatch preserves the invariant whatever it returns, and a
returned root is high (it is the root that went in). -/
theorem mainSwitchS_inv (σ0 σ : Store) (root : JVal) (p : Json) (op? : Option Json)
    (hInv : Inv σ0 σ) (hroot : refGe σ0.next root) :
    PInv σ0 (mainSwitchS σ root p op?) := by
  unfold mainSwitchS
  split
  next path hpath =>
    split
    · -- add
      show PInv σ0 (match addS (allocValue σ (getAttr p "value")).1 root
          (splitPath path) (allocValue σ (getAttr p "value")).2 with
        | Except.ok σ2 => (σ2, Except.ok root)
        | Except.error e => ((allocValue σ (getAttr p "value")).1, Except.error e))
      obtain ⟨hA, hwv⟩ := allocValue_inv σ0 σ (getAttr p "value") hInv
      cases hadd : addS (allocValue σ (getAttr p "value")).1 root
          (splitPath path) (allocValue σ (getAttr p "value")).2 with
      | ok σ2 =>
          exact PInv_okRoot σ0 σ2 root
            (addS_inv σ0 (splitPath path) (allocValue σ (getAttr p "value")).1 root
              (allocValue σ (getAttr p "value")).2 hA hroot hwv σ2 hadd) hroot
      | error e => exact PInv_err σ0 (allocValue σ (getAttr p "value")).1 e hA
    · -- replace
      show PInv σ0 (match addS (allocValue σ (getAttr p "value")).1 root
          (splitPath path) (allocValue σ (getAttr p "value")).2 with
        | Except.ok σ2 => (σ2, Except.ok root)
        | Except.error e => ((allocValue σ (getAttr p "value")).1, Except.error e))
      obtain ⟨hA, hwv⟩ := allocValue_inv σ0 σ (getAttr p "value") hInv
      cases hadd : addS (allocValue σ (getAttr p "value")).1 root
          (splitPath path) (allocValue σ (getAttr p "value")).2 with
      | ok σ2 =>
          exact PInv_okRoot σ0 σ2 root
            (addS_inv σ0 (splitPath path) (allocValue σ (getAttr p "value")).1 root
              (allocValue σ (getAttr p "value")).2 hA hroot hwv σ2 hadd) hroot
      | error e => exact PInv_err σ0 (allocValue σ (getAttr p "value")).1 e hA
    · -- remove
      show PInv σ0 (match removeS σ root (splitPath path) with
        | Except.ok σ2 => (σ2, Except.ok root)
        | Except.error e => (σ, Except.error e))
      cases hrm : removeS σ root (splitPath path) with
      | ok σ2 =>
          exact PInv_okRoot σ0 σ2 root
            (removeS_inv σ0 (splitPath path) σ root hInv hroot σ2 hrm) hroot
      | error e => exact PInv_err σ0 σ e hInv
    · -- move
      show PInv σ0 (match getAttr p "from" with
        | some (.str f) =>
            if f = "" then (σ, Except.ok root)
            else
              (match moveTakeS σ root (splitPath f) with
                | Except.ok (σ1, v) =>
                    (match writeAtPartsS σ1 root (splitPath path) v with
                      | Except.ok σ2 => (σ2, Except.ok root)
                      | Except.error e => (σ1, Except.error e))
                | Except.error e => (σ, Except.error e))
        | some v => if jsTruthy v then (σ, Except.error .typeError)
            else (σ, Except.ok root)
        | none => (σ, Except.ok root))
      cases hfrom : getAttr p "from" with
      | none => exact PInv_okRoot σ0 σ root hInv hroot
      | some fv =>
          cases fv with
          | str f =>
              show PInv σ0 (if f = "" then (σ, Except.ok root)
                else
                  (match moveTakeS σ root (splitPath f) with
                    | Except.ok (σ1, v) =>
                        (match writeAtPartsS σ1 root (splitPath path) v with
                          | Except.ok σ2 => (σ2, Except.ok root)
                          | Except.error e => (σ1, Except.error e))
                    | Except.error e => (σ, Except.error e)))
              by_cases hf : f = ""
              · rw [if_pos hf]
                exact PInv_okRoot σ0 σ root hInv hroot
              · rw [if_neg hf]
                cases hmt : moveTakeS σ root (splitPath f) with
                | error e => exact PInv_err σ0 σ e hInv
                | ok pr =>
                    obtain ⟨σ1, v⟩ := pr
                    obtain ⟨hI1, hv⟩ :=
                      moveTakeS_inv σ0 (splitPath f) σ root hInv hroot σ1 v hmt
                    show PInv σ0 (match writeAtPartsS σ1 root (splitPath path) v with
                      | Except.ok σ2 => (σ2, Except.ok root)
                      | Except.error e => (σ1, Except.error e))
                    cases hw2 : writeAtPartsS σ1 root (splitPath path) v with
                    | ok σ2 =>
                        exact PInv_okRoot σ0 σ2 root
                          (writeAtPartsS_inv σ0 (splitPath path) σ1 root v hI1 hroot
                            hv σ2 hw2) hroot
                    | error e => exact PInv_err σ0 σ1 e hI1
          | null =>
              show PInv σ0 (if jsTruthy Json.null then (σ, Except.error .typeError)
                else (σ, Except.ok root))
              by_cases ht : jsTruthy Json.null = true
              · rw [if_pos ht]
                exact PInv_err σ0 σ .typeError hInv
              · rw [if_neg ht]
                exact PInv_okRoot σ0 σ root hInv hroot
          | bool b =>
              show PInv σ0 (if jsTruthy (Json.bool b) then (σ, Except.error .typeError)
                else (σ, Except.ok root))
              by_cases ht : jsTruthy (Json.bool b) = true
              · rw [if_pos ht]
                exact PInv_err σ0 σ .typeError hInv
              · rw [if_neg ht]
                exact PInv_okRoot σ0 σ root hInv hroot
          | num n =>
              show PInv σ0 (if jsTruthy (Json.num n) then (σ, Except.error .typeError)
                else (σ, Except.ok root))
              by_cases ht : jsTruthy (Json.num n) = true
              · rw [if_pos ht]
                exact PInv_err σ0 σ .typeError hInv
              · rw [if_neg ht]
                exact PInv_okRoot σ0 σ root hInv hroot
          | arr l =>
              show PInv σ0 (if jsTruthy (Json.arr l) then (σ, Except.error .typeError)
                else (σ, Except.ok root))
              by_cases ht : jsTruthy (Json.arr l) = true
              · rw [if_pos ht]
                exact PInv_err σ0 σ .typeError hInv
              · rw [if_neg ht]
                exact PInv_okRoot σ0 σ root hInv hroot
          | obj fs =>
              show PInv σ0 (if jsTruthy (Json.obj fs) then (σ, Except.error .typeError)
                else (σ, Except.ok root))
              by_cases ht : jsTruthy (Json.obj fs) = true
              · rw [if_pos ht]
                exact PInv_err σ0 σ .typeError hInv
              · rw [if_neg ht]
                exact PInv_okRoot σ0 σ root hInv hroot
    · -- copy
      show PInv σ0 (match getAttr p "from" with
        | some (.str f) =>
            if f = "" then (σ, Except.ok root)
            else
              (match copyReadS σ root (splitPath f) with
                | Except.ok (σ1, v) =>
                    (match writeAtPartsS σ1 root (splitPath path) v with
                      | Except.ok σ2 => (σ2, Except.ok root)
                      | Except.error e => (σ1, Except.error e))
                | Except.error e => (σ, Except.error e))
        | some v => if jsTruthy v then (σ, Except.error .typeError)
            else (σ, Except.ok root)
        | none => (σ, Except.ok root))
      cases hfrom : getAttr p "from" with
      | none => exact PInv_okRoot σ0 σ root hInv hroot
      | some fv =>
          cases fv with
          | str f =>
              show PInv σ0 (if f = "" then (σ, Except.ok root)
                else
                  (match copyReadS σ root (splitPath f) with
                    | Except.ok (σ1, v) =>
                        (match writeAtPartsS σ1 root (splitPath path) v with
                          | Except.ok σ2 => (σ2, Except.ok root)
                          | Except.error e => (σ1, Except.error e))
                    | Except.error e => (σ, Except.error e)))
              by_cases hf : f = ""
              · rw [if_pos hf]
                exact PInv_okRoot σ0 σ root hInv hroot
              · rw [if_neg hf]
                cases hmt : copyReadS σ root (splitPath f) with
                | error e => exact PInv_err σ0 σ e hInv
                | ok pr =>
                    obtain ⟨σ1, v⟩ := pr
                    obtain ⟨hI1, hv⟩ :=
                      copyReadS_inv σ0 (splitPath f) σ root hInv hroot σ1 v hmt
                    show PInv σ0 (match writeAtPartsS σ1 root (splitPath path) v with
                      | Except.ok σ2 => (σ2, Except.ok root)
                      | Except.error e => (σ1, Except.error e))
                    cases hw2 : writeAtPartsS σ1 root (splitPath path) v with
                    | ok σ2 =>
                        exact PInv_okRoot σ0 σ2 root
                          (writeAtPartsS_inv σ0 (splitPath path) σ1 root v hI1 hroot
                            hv σ2 hw2) hroot
                    | error e => exact PInv_err σ0 σ1 e hI1
          | null =>
              show PInv σ0 (if jsTruthy Json.null then (σ, Except.error .typeError)
                else (σ, Except.ok root))
              by_cases ht : jsTruthy Json.null = true
              · rw [if_pos ht]
                exact PInv_err σ0 σ .typeError hInv
              · rw [if_neg ht]
                exact PInv_okRoot σ0 σ root hInv hroot
          | bool b =>
              show PInv σ0 (if jsTruthy (Json.bool b) then (σ, Except.error .typeError)
                else (σ, Except.ok root))
              by_cases ht : jsTruthy (Json.bool b) = true
              · rw [if_pos ht]
                exact PInv_err σ0 σ .typeError hInv
              · rw [if_neg ht]
                exact PInv_okRoot σ0 σ root hInv hroot
          | num n =>
              show PInv σ0 (if jsTruthy (Json.num n) then (σ, Except.error .typeError)
                else (σ, Except.ok root))
              by_cases ht : jsTruthy (Json.num n) = true
              · rw [if_pos ht]
                exact PInv_err σ0 σ .typeError hInv
              · rw [if_neg ht]
                exact PInv_okRoot σ0 σ root hInv hroot
          | arr l =>
              show PInv σ0 (if jsTruthy (Json.arr l) then (σ, Except.error .typeError)
                else (σ, Except.ok root))
              by_cases ht : jsTruthy (Json.arr l) = true
              · rw [if_pos ht]
                exact PInv_err σ0 σ .typeError hInv
              · rw [if_neg ht]
                exact PInv_okRoot σ0 σ root hInv hroot
          | obj fs =>
              show PInv σ0 (if jsTruthy (Json.obj fs) then (σ, Except.error .typeError)
                else (σ, Except.ok root))
              by_cases ht : jsTruthy (Json.obj fs) = true
              · rw [if_pos ht]
                exact PInv_err σ0 σ .typeError hInv
              · rw [if_neg ht]
                exact PInv_okRoot σ0 σ root hInv hroot
    · -- test
      show PInv σ0 (match testOpS σ root (splitPath path) (getAttr p "value") with
        | Except.ok σ2 => (σ2, Except.ok root)
        | Except.error e => (σ, Except.error e))
      cases hts : testOpS σ root (splitPath path) (getAttr p "value") with
      | ok σ2 =>
          have hs2 : σ2 = σ :=
            testOpS_ok σ root (splitPath path) (getAttr p "value") σ2 hts
          exact PInv_okRoot σ0 σ2 root (hs2.symm ▸ hInv) hroot
      | error e => exact PInv_err σ0 σ e hInv
    · -- any other op: the switch falls through and returns the root
      exact PInv_okRoot σ0 σ root hInv hroot
  next hpath => exact PInv_err σ0 σ .typeError hInv

/-- One patch application preserves the invariant, and a returned root is
high — either the root that went in, or the fresh string built by the
append-marker string concatenation. -/
theorem applyOneS_inv (σ0 σ : Store) (root : JVal) (p : Json)
    (hInv : Inv σ0 σ) (hroot : refGe σ0.next root) :
    PInv σ0 (applyOneS σ root p) := by
  unfold applyOneS
  split
  · exact PInv_err σ0 σ .typeError hInv
  · split
    · split
      next path hpath =>
        split
        · split
          next s hres =>
            split
            · exact PInv_okRoot σ0 σ (JVal.str (s ++ jsToStringOpt (getAttr p "value")))
                hInv (fun a ha => absurd ha (by simp))
            next =>
              show PInv σ0 (match writeAtPartsS σ root (splitPath (dropLastTwo path))
                  (some (JVal.str (s ++ jsToStringOpt (getAttr p "value")))) with
                | Except.ok σ2 => (σ2, Except.ok root)
                | Except.error e => (σ, Except.error e))
              cases hw2 : writeAtPartsS σ root (splitPath (dropLastTwo path))
                  (some (JVal.str (s ++ jsToStringOpt (getAttr p "value")))) with
              | ok σ2 =>
                  exact PInv_okRoot σ0 σ2 root
                    (writeAtPartsS_inv σ0 (splitPath (dropLastTwo path)) σ root
                      (some (JVal.str (s ++ jsToStringOpt (getAttr p "value"))))
                      hInv hroot
                      (fun v hv => by
                        rw [← Option.some.inj hv]
                        exact fun a ha => absurd ha (by simp)) σ2 hw2) hroot
              | error e => exact PInv_err σ0 σ e hInv
          next hres => exact mainSwitchS_inv σ0 σ root p (some (.str "add")) hInv hroot
        · exact mainSwitchS_inv σ0 σ root p (some (.str "add")) hInv hroot
      next hpath => exact PInv_err σ0 σ .typeError hInv
    · exact mainSwitchS_inv σ0 σ root p _ hInv hroot

/-- The patch loop preserves the invariant, and a returned root is high. -/
theorem applyLoopS_inv (σ0 : Store) :
    ∀ (patches : List Json) (σ : Store) (root : JVal),
      Inv σ0 σ → refGe σ0.next root →
      PInv σ0 (applyLoopS σ root patches)
  | [], σ, root, hInv, hroot => PInv_okRoot σ0 σ root hInv hroot
  | p :: rest, σ, root, hInv, hroot => by
      obtain ⟨hI1, hR1⟩ := applyOneS_inv σ0 σ root p hInv hroot
      show PInv σ0 (match applyOneS σ root p with
        | (σ1, Except.ok root1) => applyLoopS σ1 root1 rest
        | (σ1, Except.error e) => (σ1, Except.error e))
      cases h1 : applyOneS σ root p with
      | mk σ1 res =>
          rw [h1] at hI1 hR1
          cases res with
          | ok root1 => exact applyLoopS_inv σ0 rest σ1 root1 hI1 (hR1 root1 rfl)
          | error e => exact PInv_err σ0 σ1 e hI1

/-- A bounded store satisfies the invariant relative to itself: the low
frame is trivial and the high region is empty. -/
theorem Inv_refl (σ : Store) (hb : heapBounded σ) : Inv σ σ :=
  ⟨fun _ _ => rfl, hb,
    fun a nd hge hlk => absurd (hb a (by rw [hlk]; rfl)) (by omega),
    le_refl _⟩

mutual

/-- Reading a freshly allocated tree back gives the tree: the clone is
structurally equal to its source.  The fuel only needs to exceed the
number of allocations the tree performs. -/
theorem decode_allocJson :
    ∀ (σ : Store) (t : Json) (fuel : Nat), heapBounded σ →
      (allocJson σ t).1.next - σ.next < fuel →
      decodeV fuel (allocJson σ t).1 (allocJson σ t).2 = some t
  | σ, .null, fuel, hb, hf => by
      obtain ⟨f, rfl⟩ : ∃ f, fuel = f + 1 := ⟨fuel - 1, by omega⟩
      rfl
  | σ, .bool b, fuel, hb, hf => by
      obtain ⟨f, rfl⟩ : ∃ f, fuel = f + 1 := ⟨fuel - 1, by omega⟩
      rfl
  | σ, .num n, fuel, hb, hf => by
      obtain ⟨f, rfl⟩ : ∃ f, fuel = f + 1 := ⟨fuel - 1, by omega⟩
      rfl
  | σ, .str s, fuel, hb, hf => by
      obtain ⟨f, rfl⟩ : ∃ f, fuel = f + 1 := ⟨fuel - 1, by omega⟩
      rfl
  | σ, .arr l, fuel, hb, hf => by
      obtain ⟨hIp, _, hnp, _⟩ := allocList_inv σ σ l (Inv_refl σ hb)
      have hbp : heapBounded (allocList σ l).1 := hIp.2.1
      have hq : (allocJson σ (Json.arr l)).1.next = (allocList σ l).1.next + 1 := rfl
      obtain ⟨f, rfl⟩ : ∃ f, fuel = f + 1 := ⟨fuel - 1, by omega⟩
      have hfl : (allocList σ l).1.next - σ.next < f := by omega
      have hdec := decode_allocList σ l f hb hfl
      have hframe : heapLowFrame (allocList σ l).1
          ((allocList σ l).1.alloc (HNode.arr (allocList σ l).2)).1 :=
        fun a ha => alloc_lookup_old (allocList σ l).1 _ hbp a ha
      have hdec' : optMapList
          (decodeV f ((allocList σ l).1.alloc (HNode.arr (allocList σ l).2)).1)
          (allocList σ l).2 = some l :=
        optMapList_congr (decodeV f (allocList σ l).1)
          (decodeV f ((allocList σ l).1.alloc (HNode.arr (allocList σ l).2)).1)
          (allocList σ l).2
          (fun x hx y hy => decodeV_frame f (allocList σ l).1 _ x y hbp hframe hy)
          l hdec
      show decodeV (f + 1) ((allocList σ l).1.alloc (HNode.arr (allocList σ l).2)).1
          (JVal.ref (allocList σ l).1.next) = some (Json.arr l)
      unfold decodeV
      rw [alloc_lookup_new (allocList σ l).1 (HNode.arr (allocList σ l).2) hbp]
      show Option.map Json.arr
          (optMapList
            (decodeV f ((allocList σ l).1.alloc (HNode.arr (allocList σ l).2)).1)
            (allocList σ l).2) = some (Json.arr l)
      rw [hdec']
      rfl
  | σ, .obj fs, fuel, hb, hf => by
      obtain ⟨hIp, _, hnp, _⟩ := allocFields_inv σ σ fs (Inv_refl σ hb)
      have hbp : heapBounded (allocFields σ fs).1 := hIp.2.1
      have hq : (allocJson σ (Json.obj fs)).1.next = (allocFields σ fs).1.next + 1 := rfl
      obtain ⟨f, rfl⟩ : ∃ f, fuel = f + 1 := ⟨fuel - 1, by omega⟩
      have hfl : (allocFields σ fs).1.next - σ.next < f := by omega
      have hdec := decode_allocFields σ fs f hb hfl
      have hframe : heapLowFrame (allocFields σ fs).1
          ((allocFields σ fs).1.alloc (HNode.obj (allocFields σ fs).2)).1 :=
        fun a ha => alloc_lookup_old (allocFields σ fs).1 _ hbp a ha
      have hdec' : optMapFields
          (decodeV f ((allocFields σ fs).1.alloc (HNode.obj (allocFields σ fs).2)).1)
          (allocFields σ fs).2 = some fs :=
        optMapFields_congr (decodeV f (allocFields σ fs).1)
          (decodeV f ((allocFields σ fs).1.alloc (HNode.obj (allocFields σ fs).2)).1)
          (allocFields σ fs).2
          (fun x hx y hy => decodeV_frame f (allocFields σ fs).1 _ x.2 y hbp hframe hy)
          fs hdec
      show decodeV (f + 1) ((allocFields σ fs).1.alloc (HNode.obj (allocFields σ fs).2)).1
          (JVal.ref (allocFields σ fs).1.next) = some (Json.obj fs)
      unfold decodeV
      rw [alloc_lookup_new (allocFields σ fs).1 (HNode.obj (allocFields σ fs).2) hbp]
      show Option.map Json.obj
          (optMapFields
            (decodeV f ((allocFields σ fs).1.alloc (HNode.obj (allocFields σ fs).2)).1)
            (allocFields σ fs).2) = some (Json.obj fs)
      rw [hdec']
      rfl

/-- Elementwise read-back of a freshly allocated list. -/
theorem decode_allocList :
    ∀ (σ : Store) (l : List Json) (fuel : Nat), heapBounded σ →
      (allocList σ l).1.next - σ.next < fuel →
      optMapList (decodeV fuel (allocList σ l).1) (allocList σ l).2 = some l
  | σ, [], fuel, hb, hf => rfl
  | σ, x :: rest, fuel, hb, hf => by
      obtain ⟨hIp, _, hnp, _⟩ := allocJson_inv σ σ x (Inv_refl σ hb)
      have hbp : heapBounded (allocJson σ x).1 := hIp.2.1
      obtain ⟨hIq, _, hnq, hfr⟩ :=
        allocList_inv (allocJson σ x).1 (allocJson σ x).1 rest
          (Inv_refl (allocJson σ x).1 hbp)
      have hf' : (allocList (allocJson σ x).1 rest).1.next - σ.next < fuel := hf
      have hx0 : decodeV fuel (allocJson σ x).1 (allocJson σ x).2 = some x :=
        decode_allocJson σ x fuel hb (by omega)
      have hframe : heapLowFrame (allocJson σ x).1
          (allocList (allocJson σ x).1 rest).1 :=
        fun a ha => hfr a ha
      have hx1 : decodeV fuel (allocList (allocJson σ x).1 rest).1
          (allocJson σ x).2 = some x :=
        decodeV_frame fuel (allocJson σ x).1 _ _ x hbp hframe hx0
      have hrest : optMapList (decodeV fuel (allocList (allocJson σ x).1 rest).1)
          (allocList (allocJson σ x).1 rest).2 = some rest :=
        decode_allocList (allocJson σ x).1 rest fuel hbp (by omega)
      show optMapList (decodeV fuel (allocList (allocJson σ x).1 rest).1)
          ((allocJson σ x).2 :: (allocList (allocJson σ x).1 rest).2) =
            some (x :: rest)
      unfold optMapList
      rw [hx1, hrest]

/-- Fieldwise read-back of a freshly allocated field list. -/
theorem decode_allocFields :
    ∀ (σ : Store) (fs : List (String × Json)) (fuel : Nat), heapBounded σ →
      (allocFields σ fs).1.next - σ.next < fuel →
      optMapFields (decodeV fuel (allocFields σ fs).1) (allocFields σ fs).2 = some fs
  | σ, [], fuel, hb, hf => rfl
  | σ, (k, jv) :: rest, fuel, hb, hf => by
      obtain ⟨hIp, _, hnp, _⟩ := allocJson_inv σ σ jv (Inv_refl σ hb)
      have hbp : heapBounded (allocJson σ jv).1 := hIp.2.1
      obtain ⟨hIq, _, hnq, hfr⟩ :=
        allocFields_inv (allocJson σ jv).1 (allocJson σ jv).1 rest
          (Inv_refl (allocJson σ jv).1 hbp)
      have hf' : (allocFields (allocJson σ jv).1 rest).1.next - σ.next < fuel := hf
      have hx0 : decodeV fuel (allocJson σ jv).1 (allocJson σ jv).2 = some jv :=
        decode_allocJson σ jv fuel hb (by omega)
      have hframe : heapLowFrame (allocJson σ jv).1
          (allocFields (allocJson σ jv).1 rest).1 :=
        fun a ha => hfr a ha
      have hx1 : decodeV fuel (allocFields (allocJson σ jv).1 rest).1
          (allocJson σ jv).2 = some jv :=
        decodeV_frame fuel (allocJson σ jv).1 _ _ jv hbp hframe hx0
      have hrest : optMapFields (decodeV fuel (allocFields (allocJson σ jv).1 rest).1)
          (allocFields (allocJson σ jv).1 rest).2 = some rest :=
        decode_allocFields (allocJson σ jv).1 rest fuel hbp (by omega)
      show optMapFields (decodeV fuel (allocFields (allocJson σ jv).1 rest).1)
          ((k, (allocJson σ jv).2) :: (allocFields (allocJson σ jv).1 rest).2) =
            some ((k, jv) :: rest)
      unfold optMapFields
      rw [show ((k, (allocJson σ jv).2) : String × JVal).2 = (allocJson σ jv).2 from rfl,
        hx1, hrest]

end

/-- C2.  `applyJsonPatches` never mutates its input: for a well-formed
store and a target that reads back as the tree `t`, running any edit list
leaves the target reading back as `t` in the resulting store.  The
pre-existing heap region is untouched address by address (`heapLowFrame`),
the region the call allocates refers only into itself (`highClosed`), and
a returned document root lies entirely in that fresh region (`refGe`), so
the result shares no structure with the input. -/
theorem C2_no_input_mutation (σ : Store) (target : JVal) (t : Json)
    (hwf : wfStoreB σ = true)
    (hdec : decodeV (σ.next + 1) σ target = some t) :
    ∀ (patches : List Json),
      decodeV (σ.next + 1) (applyJsonPatchesS σ target patches).1 target = some t ∧
      heapLowFrame σ (applyJsonPatchesS σ target patches).1 ∧
      highClosed σ.next (applyJsonPatchesS σ target patches).1 ∧
      ∀ r, (applyJsonPatchesS σ target patches).2 = Except.ok r →
        refGe σ.next r := by
  intro patches
  have hb : heapBounded σ := wfStoreB_bounded σ hwf
  have hunf : applyJsonPatchesS σ target patches =
      applyLoopS (allocJson σ t).1 (allocJson σ t).2 patches := by
    unfold applyJsonPatchesS
    rw [hdec]
  obtain ⟨hI0, hr0, _, _⟩ := allocJson_inv σ σ t (Inv_refl σ hb)
  obtain ⟨hI, hR⟩ :=
    applyLoopS_inv σ patches (allocJson σ t).1 (allocJson σ t).2 hI0 hr0
  obtain ⟨hlf, _, hhc, _⟩ := hI
  rw [hunf]
  exact ⟨decodeV_frame (σ.next + 1) σ _ target t hb hlf hdec, hlf, hhc, hR⟩

/-- C2 witness: a store holding one object, patched with a single `add`. -/
theorem C2_no_input_mutation_witness :
    wfStoreB (Store.mk [(0, HNode.obj [("a", JVal.num 1)])] 1) = true ∧
    decodeV ((Store.mk [(0, HNode.obj [("a", JVal.num 1)])] 1).next + 1)
      (Store.mk [(0, HNode.obj [("a", JVal.num 1)])] 1) (JVal.ref 0) =
        some (Json.obj [("a", Json.num 1)]) ∧
    (decodeV ((Store.mk [(0, HNode.obj [("a", JVal.num 1)])] 1).next + 1)
        (applyJsonPatchesS (Store.mk [(0, HNode.obj [("a", JVal.num 1)])] 1)
          (JVal.ref 0)
          [Json.obj [("op", Json.str "add"), ("path", Json.str "/b"),
            ("value", Json.num 2)]]).1 (JVal.ref 0) =
        some (Json.obj [("a", Json.num 1)]) ∧
      heapLowFrame (Store.mk [(0, HNode.obj [("a", JVal.num 1)])] 1)
        (applyJsonPatchesS (Store.mk [(0, HNode.obj [("a", JVal.num 1)])] 1)
          (JVal.ref 0)
          [Json.obj [("op", Json.str "add"), ("path", Json.str "/b"),
            ("value", Json.num 2)]]).1 ∧
      highClosed (Store.mk [(0, HNode.obj [("a", JVal.num 1)])] 1).next
        (applyJsonPatchesS (Store.mk [(0, HNode.obj [("a", JVal.num 1)])] 1)
          (JVal.ref 0)
          [Json.obj [("op", Json.str "add"), ("path", Json.str "/b"),
            ("value", Json.num 2)]]).1 ∧
      ∀ r, (applyJsonPatchesS (Store.mk [(0, HNode.obj [("a", JVal.num 1)])] 1)
          (JVal.ref 0)
          [Json.obj [("op", Json.str "add"), ("path", Json.str "/b"),
            ("value", Json.num 2)]]).2 = Except.ok r →
        refGe (Store.mk [(0, HNode.obj [("a", JVal.num 1)])] 1).next r) :=
  ⟨rfl, rfl,
    C2_no_input_mutation (Store.mk [(0, HNode.obj [("a", JVal.num 1)])] 1)
      (JVal.ref 0) (Json.obj [("a", Json.num 1)]) rfl rfl
      [Json.obj [("op", Json.str "add"), ("path", Json.str "/b"),
        ("value", Json.num 2)]]⟩

/-- C10.  The empty edit list is an identity up to a fresh deep copy: on a
well-formed store whose target reads back as `t`, `applyJsonPatches` with
`[]` succeeds and returns a root that reads back as the same tree `t`,
whose structure lies entirely in the freshly allocated region (`refGe`
for the root, `highClosed` for the region), while the input's region is
untouched (`heapLowFrame`) — so later mutation of the result can never
affect the input, and vice versa. -/
theorem C10_empty_identity (σ : Store) (target : JVal) (t : Json)
    (hwf : wfStoreB σ = true)
    (hdec : decodeV (σ.next + 1) σ target = some t) :
    ∃ r, (applyJsonPatchesS σ target []).2 = Except.ok r ∧
      decodeV ((applyJsonPatchesS σ target []).1.next + 1)
        (applyJsonPatchesS σ target []).1 r = some t ∧
      refGe σ.next r ∧
      heapLowFrame σ (applyJsonPatchesS σ target []).1 ∧
      highClosed σ.next (applyJsonPatchesS σ target []).1 := by
  have hb : heapBounded σ := wfStoreB_bounded σ hwf
  have hunf : applyJsonPatchesS σ target [] =
      ((allocJson σ t).1, Except.ok (allocJson σ t).2) := by
    unfold applyJsonPatchesS
    rw [hdec]
    rfl
  obtain ⟨hI0, hr0, hn0, _⟩ := allocJson_inv σ σ t (Inv_refl σ hb)
  obtain ⟨hlf, hbnd, hhc, _⟩ := hI0
  refine ⟨(allocJson σ t).2, ?_, ?_, hr0, ?_, ?_⟩
  · rw [hunf]
  · rw [hunf]
    exact decode_allocJson σ t ((allocJson σ t).1.next + 1) hb (by omega)
  · rw [hunf]
    exact hlf
  · rw [hunf]
    exact hhc

/-- C10 witness: a store holding one array, patched with the empty list. -/
theorem C10_empty_identity_witness :
    wfStoreB (Store.mk [(0, HNode.arr [JVal.str "x"])] 1) = true ∧
    decodeV ((Store.mk [(0, HNode.arr [JVal.str "x"])] 1).next + 1)
      (Store.mk [(0, HNode.arr [JVal.str "x"])] 1) (JVal.ref 0) =
        some (Json.arr [Json.str "x"]) ∧
    (∃ r, (applyJsonPatchesS (Store.mk [(0, HNode.arr [JVal.str "x"])] 1)
          (JVal.ref 0) []).2 = Except.ok r ∧
      decodeV ((applyJsonPatchesS (Store.mk [(0, HNode.arr [JVal.str "x"])] 1)
            (JVal.ref 0) []).1.next + 1)
        (applyJsonPatchesS (Store.mk [(0, HNode.arr [JVal.str "x"])] 1)
          (JVal.ref 0) []).1 r = some (Json.arr [Json.str "x"]) ∧
      refGe (Store.mk [(0, HNode.arr [JVal.str "x"])] 1).next r ∧
      heapLowFrame (Store.mk [(0, HNode.arr [JVal.str "x"])] 1)
        (applyJsonPatchesS (Store.mk [(0, HNode.arr [JVal.str "x"])] 1)
          (JVal.ref 0) []).1 ∧
      highClosed (Store.mk [(0, HNode.arr [JVal.str "x"])] 1).next
        (applyJsonPatchesS (Store.mk [(0, HNode.arr [JVal.str "x"])] 1)
          (JVal.ref 0) []).1) :=
  ⟨rfl, rfl,
    C10_empty_identity (Store.mk [(0, HNode.arr [JVal.str "x"])] 1)
      (JVal.ref 0) (Json.arr [Json.str "x"]) rfl rfl⟩

end Trustcall
